import Mathlib

/-! # A verification development for the in-memory key-value server (`server.cpp`)

The server's request codec, command handlers, TTL heap bookkeeping and timer
processing are embedded as pure Lean functions over explicit state.

Conventions of the embedding:

* `std::string` and `Buffer` (`std::vector<uint8_t>`) are lists of bytes.
* `uint32_t`, `uint64_t`, `size_t` values are naturals; a C conversion or a wrap
  is written as an explicit `% 2 ^ w`.  `int64_t` values are integers.
* A pointer into a buffer (`const uint8_t *cur`) is an offset into the list.
* The monotonic clock (`get_monotonic_msec`) is an explicit argument `now`.
* `Entry *` pointers are represented by the key of the entry: the key of an
  entry never changes and the keyspace owns at most one entry per key.
-/

namespace Server

/-! ## Bytes and fixed-width little-endian integers -/

abbrev Bytes := List UInt8

abbrev Buffer := List UInt8

/-- The `w` low-order bytes of `n`, least significant first: what
`memcpy(dst, &n, w)` stores for an unsigned `n` of width `w` on the reference
platform. -/
def le_bytes : Nat → Nat → Bytes
  | 0, _ => []
  | w + 1, n => UInt8.ofNat (n % 256) :: le_bytes w (n / 256)

/-- The unsigned value of a little-endian byte sequence: what
`memcpy(&n, src, w)` loads. -/
def le_val : Bytes → Nat
  | [] => 0
  | b :: bs => b.toNat + 256 * le_val bs

/-- `const size_t k_max_msg = 32 << 20;` -/
def k_max_msg : Nat := 32 * 2 ^ 20

/-- `const size_t k_max_args = 200 * 1000;` -/
def k_max_args : Nat := 200 * 1000

/-- `buf_append`: append `data` to the back of `buf`. -/
def buf_append (buf : Buffer) (data : Bytes) : Buffer := buf ++ data

/-- `buf_consume`: remove `n` bytes from the front of `buf`. -/
def buf_consume (buf : Buffer) (n : Nat) : Buffer := buf.drop n

/-! ## Request parsing -/

/-- `read_u32(cur, end, out)`: `none` is the `false` return; otherwise the
advanced cursor and the value read.  `data` is the memory the cursor walks. -/
def read_u32 (data : Bytes) (cur end_ : Nat) : Option (Nat × Nat) :=
  if cur + 4 > end_ then none
  else some (cur + 4, le_val ((data.drop cur).take 4))

/-- `read_str(cur, end, n, out)`: `none` is the `false` return; otherwise the
advanced cursor and the string assigned to `out`. -/
def read_str (data : Bytes) (cur end_ n : Nat) : Option (Nat × Bytes) :=
  if cur + n > end_ then none
  else some (cur + n, (data.drop cur).take n)

/-- The loop `while (out.size() < nstr) { ... }` of `parse_req`, followed by
the trailing-garbage check.  The first argument counts the iterations that are
left, `nstr - out.size()`; it reaches zero exactly when the loop condition
fails.  The result is the return code together with the final `out`. -/
def parse_req_loop (data : Bytes) (end_ nstr : Nat) :
    Nat → Nat → List Bytes → Int × List Bytes
  | 0, cur, out => if cur ≠ end_ then (-1, out) else (0, out)
  | left + 1, cur, out =>
    if out.length < nstr then
      match read_u32 data cur end_ with
      | none => (-1, out)
      | some (cur1, len) =>
        match read_str data cur1 end_ len with
        | none => (-1, out ++ [[]])
        | some (cur2, s) => parse_req_loop data end_ nstr left cur2 (out ++ [s])
    else if cur ≠ end_ then (-1, out) else (0, out)

/-- `parse_req(data, size, out)`: the return code and the final `out`. -/
def parse_req (data : Bytes) (size : Nat) (out : List Bytes) : Int × List Bytes :=
  match read_u32 data 0 size with
  | none => (-1, out)
  | some (cur, nstr) =>
    if nstr > k_max_args then (-1, out)
    else parse_req_loop data size nstr (nstr - out.length) cur out

/-- The request payload the protocol prescribes for an argument vector
(spec, request framing): each string as its `u32` length and its bytes. -/
def encode_strs : List Bytes → Bytes
  | [] => []
  | s :: rest => le_bytes 4 s.length ++ s ++ encode_strs rest

/-- The request payload: `u32 nstr` then the strings. -/
def encode_payload (args : List Bytes) : Bytes :=
  le_bytes 4 args.length ++ encode_strs args

/-- One request frame: `u32 total_len` followed by the payload. -/
def encode_frame (args : List Bytes) : Bytes :=
  le_bytes 4 (encode_payload args).length ++ encode_payload args

/-- The ways a payload of a complete frame violates the request format: a
count above `k_max_args`; a payload cut short inside the count, inside a length
or inside a string; bytes left over after the last string. -/
inductive BadPayload : Bytes → Prop where
  | too_many (nstr : Nat) (tail : Bytes) :
      k_max_args < nstr → nstr < 2 ^ 32 → BadPayload (le_bytes 4 nstr ++ tail)
  | cut_count (payload : Bytes) : payload.length < 4 → BadPayload payload
  | cut_length (nstr : Nat) (args : List Bytes) (part : Bytes) :
      nstr ≤ k_max_args → args.length < nstr → (∀ s ∈ args, s.length < 2 ^ 32) →
      part.length < 4 → BadPayload (le_bytes 4 nstr ++ (encode_strs args ++ part))
  | cut_string (nstr : Nat) (args : List Bytes) (n : Nat) (part : Bytes) :
      nstr ≤ k_max_args → args.length < nstr → (∀ s ∈ args, s.length < 2 ^ 32) →
      n < 2 ^ 32 → part.length < n →
      BadPayload (le_bytes 4 nstr ++ (encode_strs args ++ (le_bytes 4 n ++ part)))
  | trailing (args : List Bytes) (extra : Bytes) :
      args.length ≤ k_max_args → (∀ s ∈ args, s.length < 2 ^ 32) → extra ≠ [] →
      BadPayload (encode_payload args ++ extra)

/-- The framing violations at the head of an inbound buffer: a length header
above 32 MiB, or a complete frame with a bad payload. -/
inductive FramingViolation : Bytes → Prop where
  | too_long (len : Nat) (rest : Bytes) :
      k_max_msg < len → len < 2 ^ 32 → FramingViolation (le_bytes 4 len ++ rest)
  | bad_payload (payload rest : Bytes) :
      payload.length ≤ k_max_msg → BadPayload payload →
      FramingViolation (le_bytes 4 payload.length ++ (payload ++ rest))

/-! ## Response serialization -/

/-- The bytes of an ASCII string literal of the source. -/
def ascii (s : String) : Bytes := s.toList.map (fun c => UInt8.ofNat c.toNat)

def ERR_UNKNOWN : Nat := 1

def ERR_TOO_BIG : Nat := 2

def ERR_BAD_TYP : Nat := 3

def ERR_BAD_ARG : Nat := 4

def TAG_NIL : UInt8 := 0

def TAG_ERR : UInt8 := 1

def TAG_STR : UInt8 := 2

def TAG_INT : UInt8 := 3

def TAG_DBL : UInt8 := 4

def TAG_ARR : UInt8 := 5

/-- A C `double`, kept as its IEEE-754 binary64 bit pattern (taken modulo
`2^64`): the server stores, compares and sends doubles but never computes
with them. -/
structure Dbl where
  bits : Nat
deriving DecidableEq, Repr

/-- `isnan`: exponent all ones and a non-zero fraction. -/
def Dbl.isnan (d : Dbl) : Bool :=
  d.bits / 2 ^ 52 % 2048 == 2047 && d.bits % 2 ^ 52 != 0

/-- The position of a non-NaN double on the number line, as a sign and a
magnitude: IEEE-754 orders non-NaN values as it orders these integers, and
`-0.0` and `0.0` share the position 0. -/
def Dbl.key (d : Dbl) : Int :=
  if d.bits / 2 ^ 63 % 2 = 0 then ((d.bits % 2 ^ 63 : Nat) : Int)
  else - ((d.bits % 2 ^ 63 : Nat) : Int)

/-- The C comparison `a < b` on doubles (false when either is NaN). -/
def Dbl.lt (a b : Dbl) : Bool :=
  !a.isnan && !b.isnan && decide (a.key < b.key)

/-- The C comparison `a == b` on doubles (false when either is NaN). -/
def Dbl.eq (a b : Dbl) : Bool :=
  !a.isnan && !b.isnan && decide (a.key = b.key)

def buf_append_u8 (buf : Buffer) (data : UInt8) : Buffer := buf ++ [data]

/-- `buf_append_u32`: the argument is a `uint32_t`, so callers pass a value
already reduced modulo `2^32`; the four bytes stored are its low four. -/
def buf_append_u32 (buf : Buffer) (data : Nat) : Buffer :=
  buf_append buf (le_bytes 4 data)

/-- `buf_append_i64`: the eight bytes of the two's complement of `data`. -/
def buf_append_i64 (buf : Buffer) (data : Int) : Buffer :=
  buf_append buf (le_bytes 8 (data % 2 ^ 64).toNat)

def buf_append_dbl (buf : Buffer) (data : Dbl) : Buffer :=
  buf_append buf (le_bytes 8 data.bits)

def out_nil (out : Buffer) : Buffer := buf_append_u8 out TAG_NIL

/-- `out_str(out, s, size)`: the length field is `(uint32_t)size`. -/
def out_str (out : Buffer) (s : Bytes) : Buffer :=
  buf_append (buf_append_u32 (buf_append_u8 out TAG_STR) (s.length % 2 ^ 32)) s

def out_int (out : Buffer) (val : Int) : Buffer :=
  buf_append_i64 (buf_append_u8 out TAG_INT) val

def out_dbl (out : Buffer) (val : Dbl) : Buffer :=
  buf_append_dbl (buf_append_u8 out TAG_DBL) val

def out_err (out : Buffer) (code : Nat) (msg : Bytes) : Buffer :=
  buf_append
    (buf_append_u32 (buf_append_u32 (buf_append_u8 out TAG_ERR) code)
      (msg.length % 2 ^ 32))
    msg

def out_arr (out : Buffer) (n : Nat) : Buffer :=
  buf_append_u32 (buf_append_u8 out TAG_ARR) n

/-- `out_begin_arr`: the buffer with the tag and a zero placeholder, and the
offset `ctx` of the placeholder. -/
def out_begin_arr (out : Buffer) : Buffer × Nat :=
  let out1 := buf_append_u32 (out ++ [TAG_ARR]) 0
  (out1, out1.length - 4)

/-- `out_end_arr(out, ctx, n)`: `memcpy(&out[ctx], &n, 4)`.  The assertion
`out[ctx - 1] == TAG_ARR` holds at the only call site, where `ctx` comes from
`out_begin_arr`. -/
def out_end_arr (out : Buffer) (ctx : Nat) (n : Nat) : Buffer :=
  out.take ctx ++ le_bytes 4 n ++ out.drop (ctx + 4)

/-- A tagged reply value of the wire protocol (spec, response framing). -/
inductive Value where
  | nil : Value
  | err (code : Nat) (msg : Bytes) : Value
  | str (s : Bytes) : Value
  | int (v : Int) : Value
  | dbl (d : Dbl) : Value
  | arr (xs : List Value) : Value

mutual
/-- The wire encoding of a tagged value as the spec lays it out: the tag byte,
then the fields. -/
def Value.encode : Value → Bytes
  | .nil => [0]
  | .err code msg => [1] ++ le_bytes 4 code ++ le_bytes 4 msg.length ++ msg
  | .str s => [2] ++ le_bytes 4 s.length ++ s
  | .int v => [3] ++ le_bytes 8 (v % 2 ^ 64).toNat
  | .dbl d => [4] ++ le_bytes 8 d.bits
  | .arr xs => [5] ++ le_bytes 4 xs.length ++ Value.encode_list xs
/-- The encodings of the children of an array, one after the other. -/
def Value.encode_list : List Value → Bytes
  | [] => []
  | v :: vs => v.encode ++ Value.encode_list vs
end

mutual
/-- A value whose every length field can hold the length it announces: string
lengths and child counts below `2^32`.  Such an encoding is read back
unambiguously. -/
def Value.Sized : Value → Prop
  | .nil => True
  | .err _ msg => msg.length < 2 ^ 32
  | .str s => s.length < 2 ^ 32
  | .int _ => True
  | .dbl _ => True
  | .arr xs => xs.length < 2 ^ 32 ∧ Value.Sized_list xs
/-- Every value of the list is sized. -/
def Value.Sized_list : List Value → Prop
  | [] => True
  | v :: vs => v.Sized ∧ Value.Sized_list vs
end

/-- The response frame the protocol prescribes for a reply body: `u32
total_len` followed by the body. -/
def frame_body (body : Bytes) : Bytes := le_bytes 4 body.length ++ body

/-! ## Text to number conversion -/

/-- The C string seen through `s.c_str()`: the bytes before the first NUL. -/
def c_str (s : Bytes) : Bytes := s.takeWhile (fun c => c != 0)

/-- `isspace` in the C locale. -/
def isspace (c : UInt8) : Bool := c == 32 || (9 ≤ c && c ≤ 13)

/-- `isdigit`. -/
def isdigit (c : UInt8) : Bool := 48 ≤ c && c ≤ 57

/-- The nearest `long long` to `v`: `v` itself in range, `LLONG_MIN` or
`LLONG_MAX` outside. -/
def clamp_i64 (v : Int) : Int := max (-(2 : Int) ^ 63) (min v (2 ^ 63 - 1))

/-- The C library's `strtoll(nptr, &endp, 10)` as ISO C describes it: skip
white space, take an optional sign and the longest run of decimal digits; with
no digits the result is 0 and `endp = nptr`; a value out of range is clamped to
`LLONG_MIN` / `LLONG_MAX`.  Returns the value and the offset of `endp`. -/
def strtoll (nptr : Bytes) : Int × Nat :=
  let ws := (nptr.takeWhile isspace).length
  let rest := nptr.drop ws
  let neg := rest.head? == some 45
  let signlen := if rest.head? == some 45 || rest.head? == some 43 then 1 else 0
  let digits := (rest.drop signlen).takeWhile isdigit
  if digits.length = 0 then (0, 0)
  else
    let mag : Nat := digits.foldl (fun acc d => acc * 10 + (d.toNat - 48)) 0
    let v : Int := if neg then - (mag : Int) else (mag : Int)
    (clamp_i64 v, ws + signlen + digits.length)

/-- `str2int(s, out)`: the returned flag and the value stored in `out`. -/
def str2int (s : Bytes) : Bool × Int :=
  let r := strtoll (c_str s)
  (r.2 == s.length, r.1)

/-- `str2dbl(s, out)`: the returned flag and the value stored in `out`.  The C
library's `strtod` is an argument of the embedding: it maps the C string to the
parsed value and the offset of `endp`. -/
def str2dbl (strtod : Bytes → Dbl × Nat) (s : Bytes) : Bool × Dbl :=
  let r := strtod (c_str s)
  (r.2 == s.length && !r.1.isnan, r.1)

/-- The text of an integer as `strtoll` reads it in base 10: optional white
space, an optional sign, one or more decimal digits, and nothing else. -/
def IntText (x : Bytes) : Prop :=
  ∃ ws sg ds : Bytes, x = ws ++ sg ++ ds
    ∧ (∀ c ∈ ws, isspace c = true)
    ∧ (sg = [] ∨ sg = [43] ∨ sg = [45])
    ∧ ds ≠ []
    ∧ ∀ c ∈ ds, isdigit c = true

/-! ## Sorted sets -/

/-- Modelled from the spec: `ZNode` of the absent `zset.h`, a member of a
sorted set: a name (`name`, `len`) and its `score`. -/
structure ZNode where
  score : Dbl
  name : Bytes
deriving DecidableEq, Repr

/-- Modelled from the spec: `ZSet` of the absent `zset.h`, "an ordered
collection of (name, score) pairs, ordered by (score, name)": the members in
ascending order.  A `ZNode *` is the position of the member in this order,
`none` being `NULL`. -/
structure ZSet where
  nodes : List ZNode
deriving DecidableEq, Repr

/-- Lexicographic order on byte strings (`memcmp`, then the shorter first). -/
def bytes_lt : Bytes → Bytes → Bool
  | [], [] => false
  | [], _ :: _ => true
  | _ :: _, [] => false
  | a :: as, b :: bs => a.toNat < b.toNat || (a == b && bytes_lt as bs)

/-- Modelled from the spec: the order of the absent sorted-set index, "totally
ordered by (score ascending, name lexicographic)".  `znode_lt a b` says that
`a` comes strictly before `b`. -/
def znode_lt (a b : ZNode) : Bool :=
  a.score.lt b.score || (a.score.eq b.score && bytes_lt a.name b.name)

/-- The position of the first element satisfying `p`. -/
def find_idx {α : Type} (p : α → Bool) : List α → Option Nat
  | [] => none
  | x :: xs => if p x then some 0 else (find_idx p xs).map (fun i => i + 1)

/-- Modelled from the spec: the ranked position of a new member: before the
first member that does not come before it. -/
def zset_place (x : ZNode) : List ZNode → List ZNode
  | [] => [x]
  | y :: ys => if znode_lt y x then y :: zset_place x ys else x :: y :: ys

/-- Modelled from the spec: `zset_lookup` of the absent `zset.h`,
"lookup(name) → node-or-none". -/
def zset_lookup (zset : ZSet) (name : Bytes) : Option Nat :=
  find_idx (fun n => n.name == name) zset.nodes

/-- Modelled from the spec: `zset_delete` of the absent `zset.h`,
"delete(node)". -/
def zset_delete (zset : ZSet) (node : Nat) : ZSet :=
  { nodes := zset.nodes.eraseIdx node }

/-- Modelled from the spec: `zset_insert` of the absent `zset.h`,
"insert(name, score): returns true if newly added, false if updated; moves
the ranked position if score changed". -/
def zset_insert (zset : ZSet) (name : Bytes) (score : Dbl) : Bool × ZSet :=
  match zset_lookup zset name with
  | some i => (false, { nodes := zset_place { score := score, name := name } (zset.nodes.eraseIdx i) })
  | none => (true, { nodes := zset_place { score := score, name := name } zset.nodes })

/-- Modelled from the spec: `zset_seekge` of the absent `zset.h`,
"seek_ge(score, name) → node-or-none: first node with (score, name) ≥ given
pair". -/
def zset_seekge (zset : ZSet) (score : Dbl) (name : Bytes) : Option Nat :=
  find_idx (fun n => !znode_lt n { score := score, name := name }) zset.nodes

/-- Modelled from the spec: `znode_offset` of the absent `zset.h`,
"offset(node, k) → node-or-none: step forward (k>0) or back (k<0) in the
total order, clamped to none past either end".  The set is an argument because
a node is a position in it. -/
def znode_offset (zset : ZSet) (node : Option Nat) (offset : Int) : Option Nat :=
  match node with
  | none => none
  | some i =>
    if 0 ≤ (i : Int) + offset ∧ (i : Int) + offset < zset.nodes.length then
      some ((i : Int) + offset).toNat
    else none

/-! ## Entries, keyspace, TTL heap -/

def T_INIT : Nat := 0

def T_STR : Nat := 1

def T_ZSET : Nat := 2

/-- `struct Entry`.  `heap_idx` is `none` for `(size_t)-1`.  The hash node is
part of the keyspace model below. -/
structure Entry where
  key : Bytes
  heap_idx : Option Nat
  type : Nat
  str : Bytes
  zset : ZSet
deriving DecidableEq, Repr

/-- `entry_new(type)`; the key is filled in by the caller (`ent->key.swap`). -/
def entry_new (type : Nat) : Entry :=
  { key := [], heap_idx := none, type := type, str := [], zset := { nodes := [] } }

/-- Modelled from the spec: `HMap` of the absent `hashtable.h`, "mapping
key→Entry" with entries found by "a caller-supplied equality predicate".  The
entries are kept in a list; a chain is searched from its most recent node. -/
abbrev HMap := List Entry

/-- Modelled from the spec: `hm_lookup`, "lookup(key_node, eq_fn) →
node-or-none". -/
def hm_lookup (db : HMap) (eq : Entry → Bool) : Option Entry := db.find? eq

/-- Modelled from the spec: `hm_insert`, "insert(node)". -/
def hm_insert (db : HMap) (node : Entry) : HMap := node :: db

/-- Modelled from the spec: `hm_delete`, "delete(key_node, eq_fn) →
removed-node-or-none": the removed entry and the remaining table. -/
def hm_delete (db : HMap) (eq : Entry → Bool) : Option Entry × HMap :=
  (db.find? eq, db.eraseP eq)

/-- Modelled from the spec: `hm_size`, "size". -/
def hm_size (db : HMap) : Nat := db.length

/-- `entry_eq`: the equality used for keyspace lookups, `ent->key == keydata->key`. -/
def entry_eq (key : Bytes) (ent : Entry) : Bool := ent.key == key

/-- A store through an `Entry *`: the entry designated by `key` (the first one
with that key) is replaced by its image under `f`. -/
def entry_update (db : HMap) (key : Bytes) (f : Entry → Entry) : HMap :=
  match db with
  | [] => []
  | e :: rest => if e.key == key then f e :: rest else e :: entry_update rest key f

/-- Modelled from the spec: `HeapItem` of the absent `heap.h`, "(expire_at,
ref) pairs": `val` is the expiry time and `ref` designates the `heap_idx`
field of the owning entry. -/
structure HeapItem where
  val : Nat
  ref : Bytes
deriving DecidableEq, Repr

/-- The store `*ref = pos` through a heap item's back-pointer. -/
def ref_write (db : HMap) (ref : Bytes) (pos : Nat) : HMap :=
  entry_update db ref (fun e => { e with heap_idx := some pos })

/-- The item `a[i]` of a heap array. -/
def heap_at (a : List HeapItem) (i : Nat) : HeapItem :=
  (a[i]?).getD { val := 0, ref := [] }

def heap_parent (i : Nat) : Nat := (i + 1) / 2 - 1

def heap_left (i : Nat) : Nat := i * 2 + 1

def heap_right (i : Nat) : Nat := i * 2 + 2

/-- Exchange of the items at positions `i` and `j`. -/
def heap_swap (a : List HeapItem) (i j : Nat) : List HeapItem :=
  (a.set i (heap_at a j)).set j (heap_at a i)

/-- Modelled from the spec: sifting up of the absent `heap.h` ("binary
min-heap ... ordering key: expire_at ascending"): while the parent is later,
exchange with the parent; "after any sift, the owning entry's slot field must
be updated through ref", so each item is stored through its `ref` where it
lands.  The first argument bounds the iterations by the depth. -/
def heap_up : Nat → List HeapItem → HMap → Nat → List HeapItem × HMap
  | 0, a, db, pos => (a, ref_write db (heap_at a pos).ref pos)
  | fuel + 1, a, db, pos =>
    if pos > 0 ∧ (heap_at a (heap_parent pos)).val > (heap_at a pos).val then
      heap_up fuel (heap_swap a pos (heap_parent pos))
        (ref_write db (heap_at a (heap_parent pos)).ref pos) (heap_parent pos)
    else (a, ref_write db (heap_at a pos).ref pos)

/-- Modelled from the spec: the position of the earliest item among `pos` and
its children below `len` (the left child wins a tie with the right one, the
parent a tie with either). -/
def heap_min_pos (a : List HeapItem) (pos len : Nat) : Nat :=
  let l := heap_left pos
  let r := heap_right pos
  let min_pos := if l < len ∧ (heap_at a l).val < (heap_at a pos).val then l else pos
  if r < len ∧ (heap_at a r).val < (heap_at a min_pos).val then r else min_pos

/-- Modelled from the spec: sifting down of the absent `heap.h`: while a child
is earlier, exchange with the earliest child, storing each item's position
through its `ref` where it lands.  The first argument bounds the iterations. -/
def heap_down : Nat → List HeapItem → HMap → Nat → Nat → List HeapItem × HMap
  | 0, a, db, pos, _ => (a, ref_write db (heap_at a pos).ref pos)
  | fuel + 1, a, db, pos, len =>
    if heap_min_pos a pos len = pos then (a, ref_write db (heap_at a pos).ref pos)
    else
      heap_down fuel (heap_swap a pos (heap_min_pos a pos len))
        (ref_write db (heap_at a (heap_min_pos a pos len)).ref pos) (heap_min_pos a pos len) len

/-- Modelled from the spec: `heap_update(a, pos, len)` of the absent `heap.h`:
"re-heapifies" around `pos`, up when the parent is later, down otherwise. -/
def heap_update (a : List HeapItem) (db : HMap) (pos len : Nat) : List HeapItem × HMap :=
  if pos > 0 ∧ (heap_at a (heap_parent pos)).val > (heap_at a pos).val then
    heap_up pos a db pos
  else heap_down len a db pos len

/-- `struct Conn`.  The intrusive `idle_node` is the connection's place in
`idle_list`. -/
structure Conn where
  fd : Int
  want_read : Bool
  want_write : Bool
  want_close : Bool
  incoming : Buffer
  outgoing : Buffer
  last_active_ms : Nat
deriving DecidableEq, Repr

/-- The global `g_data`: the keyspace, the connection table indexed by fd,
the idle list (the connections' fds, least recently active first) and the TTL
heap.  The thread pool only runs destructors and carries no state here. -/
structure GData where
  db : HMap
  fd2conn : List (Option Conn)
  idle_list : List Nat
  heap : List HeapItem
deriving DecidableEq, Repr

/-- `heap_delete(a, pos)`; the stores through `ref` made by `heap_update` land
in the keyspace. -/
def heap_delete (a : List HeapItem) (db : HMap) (pos : Nat) : List HeapItem × HMap :=
  let a1 := (a.set pos (heap_at a (a.length - 1))).dropLast
  if pos < a1.length then heap_update a1 db pos a1.length
  else (a1, db)

/-- `heap_upsert(a, pos, t)`; `pos` is `none` for `(size_t)-1`, which is never
below `a.size()`. -/
def heap_upsert (a : List HeapItem) (db : HMap) (pos : Option Nat) (t : HeapItem) :
    List HeapItem × HMap :=
  match pos with
  | some p =>
    if p < a.length then heap_update (a.set p t) db p a.length
    else heap_update (a ++ [t]) db a.length (a.length + 1)
  | none => heap_update (a ++ [t]) db a.length (a.length + 1)

/-- `entry_set_ttl(ent, ttl_ms)` at clock reading `now`.  `ent` is the entry as
the pointer sees it; the store `ent->heap_idx = -1` goes through the pointer. -/
def entry_set_ttl (now : Nat) (ent : Entry) (ttl_ms : Int) (g : GData) : GData :=
  if ttl_ms < 0 ∧ ent.heap_idx ≠ none then
    let r := heap_delete g.heap g.db (ent.heap_idx.getD 0)
    { g with heap := r.1, db := entry_update r.2 ent.key (fun e => { e with heap_idx := none }) }
  else if ttl_ms ≥ 0 then
    let expire_at := (now + ttl_ms.toNat) % 2 ^ 64
    let r := heap_upsert g.heap g.db ent.heap_idx { val := expire_at, ref := ent.key }
    { g with heap := r.1, db := r.2 }
  else g

/-- `entry_del(ent)`: `ent` has been unlinked from the keyspace; its TTL is
cleared and the entry destroyed, inline or on the thread pool.  The clock is
not read on this path. -/
def entry_del (ent : Entry) (g : GData) : GData :=
  entry_set_ttl 0 ent (-1) g

/-! ## Command handlers

Each handler takes the argument vector `cmd`, the output buffer `out` and the
global state, and returns the new output buffer and state. -/

/-- The argument `cmd[i]`. -/
def arg (cmd : List Bytes) (i : Nat) : Bytes := (cmd[i]?).getD []

def do_get (cmd : List Bytes) (out : Buffer) (g : GData) : Buffer × GData :=
  match hm_lookup g.db (entry_eq (arg cmd 1)) with
  | none => (out_nil out, g)
  | some ent =>
    if ent.type ≠ T_STR then (out_err out ERR_BAD_TYP (ascii "not a string value"), g)
    else (out_str out ent.str, g)

def do_set (cmd : List Bytes) (out : Buffer) (g : GData) : Buffer × GData :=
  match hm_lookup g.db (entry_eq (arg cmd 1)) with
  | some ent =>
    if ent.type ≠ T_STR then
      (out_err out ERR_BAD_TYP (ascii "a non-string value exists"), g)
    else
      (out_nil out,
        { g with db := entry_update g.db (arg cmd 1) (fun e => { e with str := arg cmd 2 }) })
  | none =>
    let ent := { entry_new T_STR with key := arg cmd 1, str := arg cmd 2 }
    (out_nil out, { g with db := hm_insert g.db ent })

def do_del (cmd : List Bytes) (out : Buffer) (g : GData) : Buffer × GData :=
  let r := hm_delete g.db (entry_eq (arg cmd 1))
  match r.1 with
  | some ent => (out_int out 1, entry_del ent { g with db := r.2 })
  | none => (out_int out 0, { g with db := r.2 })

def do_expire (now : Nat) (cmd : List Bytes) (out : Buffer) (g : GData) : Buffer × GData :=
  let p := str2int (arg cmd 2)
  if !p.1 then (out_err out ERR_BAD_ARG (ascii "expect int64"), g)
  else
    match hm_lookup g.db (entry_eq (arg cmd 1)) with
    | some ent => (out_int out 1, entry_set_ttl now ent p.2 g)
    | none => (out_int out 0, g)

/-- `do_ttl`: the reply value is the `uint64_t` difference converted to
`int64_t`. -/
def do_ttl (now : Nat) (cmd : List Bytes) (out : Buffer) (g : GData) : Buffer × GData :=
  match hm_lookup g.db (entry_eq (arg cmd 1)) with
  | none => (out_int out (-2), g)
  | some ent =>
    match ent.heap_idx with
    | none => (out_int out (-1), g)
    | some idx =>
      let expire_at := (heap_at g.heap idx).val
      let now_ms := now
      let v : Nat := if expire_at > now_ms then expire_at - now_ms else 0
      (out_int out (if v < 2 ^ 63 then (v : Int) else (v : Int) - 2 ^ 64), g)

/-- `cb_keys` applied by `hm_foreach` to every entry: modelled from the spec,
"foreach(callback, arg)", in the order of the table. -/
def do_keys_each (db : HMap) (out : Buffer) : Buffer :=
  db.foldl (fun o e => out_str o e.key) out

def do_keys (_cmd : List Bytes) (out : Buffer) (g : GData) : Buffer × GData :=
  (do_keys_each g.db (out_arr out (hm_size g.db % 2 ^ 32)), g)

def do_zadd (strtod : Bytes → Dbl × Nat) (cmd : List Bytes) (out : Buffer) (g : GData) :
    Buffer × GData :=
  let p := str2dbl strtod (arg cmd 2)
  if !p.1 then (out_err out ERR_BAD_ARG (ascii "expect float"), g)
  else
    match hm_lookup g.db (entry_eq (arg cmd 1)) with
    | none =>
      let ent := { entry_new T_ZSET with key := arg cmd 1 }
      let r := zset_insert ent.zset (arg cmd 3) p.2
      (out_int out (if r.1 then 1 else 0),
        { g with db := hm_insert g.db { ent with zset := r.2 } })
    | some ent =>
      if ent.type ≠ T_ZSET then (out_err out ERR_BAD_TYP (ascii "expect zset"), g)
      else
        let r := zset_insert ent.zset (arg cmd 3) p.2
        (out_int out (if r.1 then 1 else 0),
          { g with db := entry_update g.db (arg cmd 1) (fun e => { e with zset := r.2 }) })

/-- The sorted set `expect_zset` points at: `null` for `NULL`, `empty` for the
shared `k_empty_zset`, `entry z` for the set `z` of the entry found. -/
inductive ZSetPtr where
  | null : ZSetPtr
  | empty : ZSetPtr
  | entry (z : ZSet) : ZSetPtr

/-- `expect_zset(s)`. -/
def expect_zset (g : GData) (s : Bytes) : ZSetPtr :=
  match hm_lookup g.db (entry_eq s) with
  | none => ZSetPtr.empty
  | some ent => if ent.type = T_ZSET then ZSetPtr.entry ent.zset else ZSetPtr.null

/-- The set behind a non-null `ZSet *`. -/
def ZSetPtr.deref : ZSetPtr → ZSet
  | .entry z => z
  | _ => { nodes := [] }

def do_zrem (cmd : List Bytes) (out : Buffer) (g : GData) : Buffer × GData :=
  match expect_zset g (arg cmd 1) with
  | .null => (out_err out ERR_BAD_TYP (ascii "expect zset"), g)
  | zp =>
    match zset_lookup zp.deref (arg cmd 2) with
    | some znode =>
      let z1 := zset_delete zp.deref znode
      (out_int out 1,
        { g with db := entry_update g.db (arg cmd 1) (fun e => { e with zset := z1 }) })
    | none => (out_int out 0, g)

def do_zscore (cmd : List Bytes) (out : Buffer) (g : GData) : Buffer × GData :=
  match expect_zset g (arg cmd 1) with
  | .null => (out_err out ERR_BAD_TYP (ascii "expect zset"), g)
  | zp =>
    match zset_lookup zp.deref (arg cmd 2) with
    | some znode => (out_dbl out ((zp.deref.nodes[znode]?).getD { score := { bits := 0 }, name := [] }).score, g)
    | none => (out_nil out, g)

/-- The children of a `zquery` reply for a run of members: for each member,
`STR name` then `DBL score`. -/
def zpairs : List ZNode → List Value
  | [] => []
  | nd :: rest => Value.str nd.name :: Value.dbl nd.score :: zpairs rest

/-- The members a `zquery` starts from: the members from the one reached by
stepping `offset` positions from the first member not before `(score, name)`;
none when there is no such member or the step leaves the set. -/
def zrange (zset : ZSet) (score : Dbl) (name : Bytes) (offset : Int) : List ZNode :=
  match znode_offset zset (zset_seekge zset score name) offset with
  | none => []
  | some i => zset.nodes.drop i

/-- The number of iterations of the `zquery` loop from the counter value `n`
on, when members do not run out: `n` grows by 2 while `n < limit`. -/
def zquery_count (limit n : Int) : Nat := ((limit - n + 1) / 2).toNat

/-- The loop `while (znode && n < limit) { ... }` of `do_zquery`: the buffer
and the final `n`.  The first argument bounds the iterations; the members left
from `znode` on are fewer than the set has. -/
def do_zquery_loop (zset : ZSet) (limit : Int) :
    Nat → Option Nat → Int → Buffer → Buffer × Int
  | 0, _, n, out => (out, n)
  | fuel + 1, znode, n, out =>
    match znode with
    | none => (out, n)
    | some i =>
      if n < limit then
        let nd := (zset.nodes[i]?).getD { score := { bits := 0 }, name := [] }
        do_zquery_loop zset limit fuel (znode_offset zset (some i) 1) (n + 2)
          (out_dbl (out_str out nd.name) nd.score)
      else (out, n)

def do_zquery (strtod : Bytes → Dbl × Nat) (cmd : List Bytes) (out : Buffer) (g : GData) :
    Buffer × GData :=
  let ps := str2dbl strtod (arg cmd 2)
  if !ps.1 then (out_err out ERR_BAD_ARG (ascii "expect fp number"), g)
  else
    let po := str2int (arg cmd 4)
    let pl := str2int (arg cmd 5)
    if !po.1 || !pl.1 then (out_err out ERR_BAD_ARG (ascii "expect int"), g)
    else
      match expect_zset g (arg cmd 1) with
      | .null => (out_err out ERR_BAD_TYP (ascii "expect zset"), g)
      | zp =>
        if pl.2 ≤ 0 then (out_arr out 0, g)
        else
          let zset := zp.deref
          let znode := znode_offset zset (zset_seekge zset ps.2 (arg cmd 3)) po.2
          let b := out_begin_arr out
          let r := do_zquery_loop zset pl.2 zset.nodes.length znode 0 b.1
          (out_end_arr r.1 b.2 (r.2 % 2 ^ 32).toNat, g)

def do_request (strtod : Bytes → Dbl × Nat) (now : Nat) (cmd : List Bytes) (out : Buffer)
    (g : GData) : Buffer × GData :=
  if cmd.length = 2 ∧ arg cmd 0 = ascii "get" then do_get cmd out g
  else if cmd.length = 3 ∧ arg cmd 0 = ascii "set" then do_set cmd out g
  else if cmd.length = 2 ∧ arg cmd 0 = ascii "del" then do_del cmd out g
  else if cmd.length = 3 ∧ arg cmd 0 = ascii "pexpire" then do_expire now cmd out g
  else if cmd.length = 2 ∧ arg cmd 0 = ascii "pttl" then do_ttl now cmd out g
  else if cmd.length = 1 ∧ arg cmd 0 = ascii "keys" then do_keys cmd out g
  else if cmd.length = 4 ∧ arg cmd 0 = ascii "zadd" then do_zadd strtod cmd out g
  else if cmd.length = 3 ∧ arg cmd 0 = ascii "zrem" then do_zrem cmd out g
  else if cmd.length = 3 ∧ arg cmd 0 = ascii "zscore" then do_zscore cmd out g
  else if cmd.length = 6 ∧ arg cmd 0 = ascii "zquery" then do_zquery strtod cmd out g
  else (out_err out ERR_UNKNOWN (ascii "unknown command."), g)

/-- A handler replies with one tagged value: it appends the encoding of a value
that does not depend on the buffer, and touches the state independently. -/
def Replies (h : Buffer → GData → Buffer × GData) (g : GData) : Prop :=
  ∃ v : Value, ∀ out, h out g = (out ++ v.encode, (h [] g).2)

/-! ## Response framing and the request loop -/

/-- `response_begin(out, &header)`: the buffer with the placeholder and the
header position. -/
def response_begin (out : Buffer) : Buffer × Nat :=
  (buf_append_u32 out 0, out.length)

def response_size (out : Buffer) (header : Nat) : Nat := out.length - header - 4

/-- `response_end(out, header)`.  `out.resize(header + 4)` shrinks the buffer,
the message being longer than `k_max_msg` there. -/
def response_end (out : Buffer) (header : Nat) : Buffer :=
  let msg_size := response_size out header
  let out1 :=
    if msg_size > k_max_msg then
      out_err (out.take (header + 4)) ERR_TOO_BIG (ascii "response is too big.")
    else out
  let msg_size1 := if msg_size > k_max_msg then response_size out1 header else msg_size
  let len := msg_size1 % 2 ^ 32
  out1.take header ++ le_bytes 4 len ++ out1.drop (header + 4)

/-- The reply body that leaves the server for an assembled body (spec,
response framing): a body above 32 MiB is replaced by `ERR(TOO_BIG, "response
is too big.")`. -/
def capped_body (body : Bytes) : Bytes :=
  if body.length > k_max_msg then
    (Value.err ERR_TOO_BIG (ascii "response is too big.")).encode
  else body

/-- The body of the reply to the request `cmd` in state `g`, as the handler
assembles it. -/
def reply_of (strtod : Bytes → Dbl × Nat) (now : Nat) (cmd : List Bytes) (g : GData) : Bytes :=
  (do_request strtod now cmd [] g).1

/-- The state after the request `cmd` in state `g`. -/
def state_after (strtod : Bytes → Dbl × Nat) (now : Nat) (cmd : List Bytes) (g : GData) : GData :=
  (do_request strtod now cmd [] g).2

/-- `try_one_request(conn)` with the clock reading `now` seen by the handler:
the return value, the connection and the global state.  `4 + len` is computed
in `uint32_t`. -/
def try_one_request (strtod : Bytes → Dbl × Nat) (now : Nat) (conn : Conn) (g : GData) :
    Bool × Conn × GData :=
  if conn.incoming.length < 4 then (false, conn, g)
  else
    let len := le_val (conn.incoming.take 4)
    if len > k_max_msg then (false, { conn with want_close := true }, g)
    else if (4 + len) % 2 ^ 32 > conn.incoming.length then (false, conn, g)
    else
      let request := conn.incoming.drop 4
      let p := parse_req request len []
      if p.1 < 0 then (false, { conn with want_close := true }, g)
      else
        let b := response_begin conn.outgoing
        let r := do_request strtod now p.2 b.1 g
        let out := response_end r.1 b.2
        (true,
          { conn with outgoing := out,
                      incoming := buf_consume conn.incoming ((4 + len) % 2 ^ 32) },
          r.2)

/-- The loop `while (try_one_request(conn)) {}` of `handle_read`.  `clock i` is
the clock reading during the `i`-th request; the first argument bounds the
iterations, each of which consumes at least four bytes of `incoming`. -/
def consume_loop (strtod : Bytes → Dbl × Nat) (clock : Nat → Nat) :
    Nat → Nat → Conn → GData → Conn × GData
  | 0, _, conn, g => (conn, g)
  | fuel + 1, i, conn, g =>
    let r := try_one_request strtod (clock i) conn g
    if r.1 then consume_loop strtod clock fuel (i + 1) r.2.1 r.2.2
    else (r.2.1, r.2.2)

/-- The reply bodies the server owes to a sequence of requests, in order: the
`j`-th is the (capped) reply of the handler to the `j`-th request in the state
the earlier requests left, at the clock reading of its turn. -/
def serve_replies (strtod : Bytes → Dbl × Nat) (clock : Nat → Nat) :
    Nat → List (List Bytes) → GData → List Bytes
  | _, [], _ => []
  | i, cmd :: rest, g =>
    capped_body (reply_of strtod (clock i) cmd g)
      :: serve_replies strtod clock (i + 1) rest (state_after strtod (clock i) cmd g)

/-- The state a sequence of requests leaves. -/
def serve_state (strtod : Bytes → Dbl × Nat) (clock : Nat → Nat) :
    Nat → List (List Bytes) → GData → GData
  | _, [], g => g
  | i, cmd :: rest, g =>
    serve_state strtod clock (i + 1) rest (state_after strtod (clock i) cmd g)

/-- The concatenation of byte strings. -/
def concat_bytes : List Bytes → Bytes
  | [] => []
  | b :: bs => b ++ concat_bytes bs

/-- An inbound remainder that holds no complete frame: fewer than 4 bytes, or
a header with `total_len ≤ 32 MiB` and fewer than `total_len` payload bytes. -/
def Incomplete (rem : Bytes) : Prop :=
  rem.length < 4 ∨
    (le_val (rem.take 4) ≤ k_max_msg ∧ rem.length < 4 + le_val (rem.take 4))

/-! ## Timers -/

def k_idle_timeout_ms : Nat := 5 * 1000

def k_max_works : Nat := 2000

/-- `conn_destroy(conn)`: the table slot is cleared and the connection leaves
the idle list. -/
def conn_destroy (g : GData) (fd : Nat) : GData :=
  { g with fd2conn := g.fd2conn.set fd none, idle_list := g.idle_list.erase fd }

/-- The first loop of `process_timers`: connections idle for longer than the
timeout are destroyed, oldest first.  The first argument bounds the iterations
by the length of the idle list. -/
def process_idle (now_ms : Nat) : Nat → GData → GData
  | 0, g => g
  | fuel + 1, g =>
    match g.idle_list with
    | [] => g
    | fd :: _ =>
      match (g.fd2conn[fd]?).getD none with
      | none => g
      | some conn =>
        let next_ms := (conn.last_active_ms + k_idle_timeout_ms) % 2 ^ 64
        if next_ms ≥ now_ms then g
        else process_idle now_ms fuel (conn_destroy g fd)

/-- The second loop of `process_timers`, on the TTL heap: `nworks` is the
counter, the first argument the number of iterations the cap still allows.
`none` is a failure of `assert(node == &ent->node)`. -/
def process_ttl (now_ms : Nat) : Nat → Nat → GData → Option GData
  | 0, _, g => some g
  | fuel + 1, nworks, g =>
    match g.heap with
    | [] => some g
    | top :: _ =>
      if top.val < now_ms then
        let r := hm_delete g.db (fun e => e.key == top.ref)
        match r.1 with
        | none => none
        | some ent =>
          let g1 := entry_del ent { g with db := r.2 }
          if nworks ≥ k_max_works then some g1
          else process_ttl now_ms fuel (nworks + 1) g1
      else some g

/-- `process_timers()` at clock reading `now_ms`. -/
def process_timers (now_ms : Nat) (g : GData) : Option GData :=
  process_ttl now_ms (k_max_works + 1) 0 (process_idle now_ms g.idle_list.length g)

/-! ## State invariants -/

/-- Keys of the keyspace are unique by byte equality (spec, data model). -/
def KeysNodup (db : HMap) : Prop := (db.map Entry.key).Nodup

/-- The min-heap order of the TTL heap: no item is earlier than its parent, so
the earliest is at position 0. -/
def HeapOrdered (a : List HeapItem) : Prop :=
  ∀ i, i < a.length → 0 < i → (heap_at a (heap_parent i)).val ≤ (heap_at a i).val

/-- The heap order with the item at `pos` possibly earlier than its parent:
every other item respects its parent, and the children of `pos` respect the
parent of `pos`. -/
def UpOk (a : List HeapItem) (pos : Nat) : Prop :=
  (∀ i, i < a.length → 0 < i → i ≠ pos →
      (heap_at a (heap_parent i)).val ≤ (heap_at a i).val)
  ∧ (∀ c, c < a.length → 0 < c → heap_parent c = pos → 0 < pos →
      (heap_at a (heap_parent pos)).val ≤ (heap_at a c).val)

/-- The heap order with the item at `pos` possibly later than its children:
every item whose parent is not `pos` respects its parent, and the children of
`pos` respect the parent of `pos`. -/
def DownOk (a : List HeapItem) (pos : Nat) : Prop :=
  (∀ i, i < a.length → 0 < i → heap_parent i ≠ pos →
      (heap_at a (heap_parent i)).val ≤ (heap_at a i).val)
  ∧ (∀ c, c < a.length → 0 < c → heap_parent c = pos → 0 < pos →
      (heap_at a (heap_parent pos)).val ≤ (heap_at a c).val)

/-- The heap order around a position whose item was replaced: the items away
from `pos` respect their parents, and the children of `pos` respect the parent
of `pos`. -/
def AroundOk (a : List HeapItem) (pos : Nat) : Prop :=
  (∀ i, i < a.length → 0 < i → i ≠ pos → heap_parent i ≠ pos →
      (heap_at a (heap_parent i)).val ≤ (heap_at a i).val)
  ∧ (∀ c, c < a.length → 0 < c → heap_parent c = pos → 0 < pos →
      (heap_at a (heap_parent pos)).val ≤ (heap_at a c).val)

/-- The heap slot recorded in the entry at key `k`, if there is such an entry
and it has one. -/
def slot_of (db : HMap) (k : Bytes) : Option Nat :=
  (hm_lookup db (entry_eq k)).bind Entry.heap_idx

/-- Every heap item refers to an entry of the keyspace. -/
def HasEntries (a : List HeapItem) (db : HMap) : Prop :=
  ∀ item ∈ a, item.ref ∈ db.map Entry.key

/-- Back-references during a sift: the slot function `s` of the keyspace
agrees with the heap `a` at every position but `pos`, whose item is the one
being moved, and on every key but the excepted ones (`ex`: the key of an entry
that is being unlinked). -/
def SyncExcept (a : List HeapItem) (s : Bytes → Option Nat) (pos : Nat)
    (ex : Bytes → Prop) : Prop :=
  (a.map HeapItem.ref).Nodup
  ∧ (∀ i, i < a.length → i ≠ pos → s (heap_at a i).ref = some i)
  ∧ (∀ k i, s k = some i →
      (i < a.length ∧ (heap_at a i).ref = k) ∨ k = (heap_at a pos).ref ∨ ex k)
  ∧ (∀ item ∈ a, ¬ ex item.ref)

/-- Back-references in agreement: the slot function `s` of the keyspace sends
the `ref` of each heap item to the item's position, and each key with a slot
is the `ref` of the item at that slot, the excepted keys apart. -/
def Sync (a : List HeapItem) (s : Bytes → Option Nat) (ex : Bytes → Prop) : Prop :=
  (∀ i, i < a.length → s (heap_at a i).ref = some i)
  ∧ (∀ k i, s k = some i → (i < a.length ∧ (heap_at a i).ref = k) ∨ ex k)
  ∧ (∀ item ∈ a, ¬ ex item.ref)

/-- The TTL back-reference invariant (spec, data model): the entry a heap item
refers to records the item's position, and an entry that records a position
owns the item there. -/
def RefsOk (g : GData) : Prop :=
  (∀ i, i < g.heap.length → slot_of g.db (heap_at g.heap i).ref = some i)
  ∧ (∀ e ∈ g.db, ∀ i ∈ e.heap_idx,
      i < g.heap.length ∧ (heap_at g.heap i).ref = e.key)

/-- The invariant of the global state: unique keys, back-references in
agreement, heap ordered. -/
def Inv (g : GData) : Prop :=
  KeysNodup g.db ∧ RefsOk g ∧ HeapOrdered g.heap

/-- The number of heap items that are expired at `now_ms`. -/
def expired_count (now_ms : Nat) (a : List HeapItem) : Nat :=
  a.countP (fun item => decide (item.val < now_ms))

/-- The sorted set stored at key `k`, the empty set when `k` is absent. -/
def zset_at (g : GData) (k : Bytes) : ZSet := (expect_zset g k).deref

/-- The key `k` is absent or holds a sorted set whose members have distinct
names. -/
def ZSetKey (g : GData) (k : Bytes) : Prop :=
  ∀ e, hm_lookup g.db (entry_eq k) = some e →
    e.type = T_ZSET ∧ (e.zset.nodes.map ZNode.name).Nodup

/-- The name `n` is a member of the sorted set at key `k`. -/
def zmember (g : GData) (k n : Bytes) : Prop := n ∈ (zset_at g k).nodes.map ZNode.name

/-- Modelled from the spec: the order kept by the absent sorted-set index,
members in strictly ascending (score, name) order. -/
def zset_sorted (zset : ZSet) : Prop :=
  zset.nodes.Pairwise (fun a b => znode_lt a b = true)

/-! ## Sample inputs

Concrete states and inputs at which the theorems below are instantiated. -/

/-- The global state at startup: nothing stored, nobody connected. -/
def g_init : GData := { db := [], fd2conn := [], idle_list := [], heap := [] }

/-- A connection as `handle_accept` creates it, with `incoming` received. -/
def conn_with (incoming : Buffer) : Conn :=
  { fd := 5, want_read := true, want_write := false, want_close := false,
    incoming := incoming, outgoing := [], last_active_ms := 0 }

/-- A small populated state: the string "1" at key "a" with a TTL expiring at
50, and at key "z" the sorted set {x ↦ 1.5, y ↦ 2.0} without TTL. -/
def g_sample : GData :=
  { db := [{ key := [122], heap_idx := none, type := T_ZSET, str := [],
             zset := { nodes := [{ score := { bits := 0x3FF8000000000000 }, name := [120] },
                                 { score := { bits := 0x4000000000000000 }, name := [121] }] } },
           { key := [97], heap_idx := some 0, type := T_STR, str := [49],
             zset := { nodes := [] } }],
    fd2conn := [], idle_list := [], heap := [{ val := 50, ref := [97] }] }

/-- The `n`-th filler key: `n + 1` letters "x". -/
def fill_key (n : Nat) : Bytes := List.replicate (n + 1) 120

/-- A finite excerpt of `strtod`: the values of the texts used in the sample
requests ("0", "1.0", "1.5", "2.0"), nothing parsed otherwise. -/
def sample_strtod (s : Bytes) : Dbl × Nat :=
  if s = ascii "0" then ({ bits := 0 }, 1)
  else if s = ascii "1.0" then ({ bits := 0x3FF0000000000000 }, 3)
  else if s = ascii "1.5" then ({ bits := 0x3FF8000000000000 }, 3)
  else if s = ascii "2.0" then ({ bits := 0x4000000000000000 }, 3)
  else ({ bits := 0 }, 0)

/-- The state reached from startup by `set` and `pexpire ... 0` at time 0 on
each of the first `n` filler keys: `n` entries, each with a TTL expiring at 0. -/
def fill_state : Nat → GData
  | 0 => g_init
  | n + 1 =>
    state_after sample_strtod 0 [ascii "pexpire", fill_key n, ascii "0"]
      (state_after sample_strtod 0 [ascii "set", fill_key n, []] (fill_state n))

/-- A crowded state: 2001 filler entries with a TTL of 0 set at time 0, and
the key "k" holding the empty string, without TTL. -/
def crowded_state : GData :=
  state_after sample_strtod 0 [ascii "set", [107], []] (fill_state 2001)

/-- The state of the ranked-set scenario: from startup, `zadd z 1.0 x`,
`zadd z 2.0 y`, `zadd z 1.5 x`. -/
def g_ranked : GData :=
  state_after sample_strtod 0 [ascii "zadd", [122], ascii "1.5", [120]]
    (state_after sample_strtod 0 [ascii "zadd", [122], ascii "2.0", [121]]
      (state_after sample_strtod 0 [ascii "zadd", [122], ascii "1.0", [120]] g_init))

/-- A finite excerpt of `strtod` that also reads the text "inf", which ISO C
has `strtod` convert to positive infinity (bit pattern `0x7FF0000000000000`),
and "nan", converted to a quiet NaN (`0x7FF8000000000000`). -/
def sample_strtod_inf (s : Bytes) : Dbl × Nat :=
  if s = ascii "inf" then ({ bits := 0x7FF0000000000000 }, 3)
  else if s = ascii "nan" then ({ bits := 0x7FF8000000000000 }, 3)
  else sample_strtod s

/-- `isinf`: exponent all ones and a zero fraction. -/
def Dbl.isinf (d : Dbl) : Bool :=
  d.bits / 2 ^ 52 % 2048 == 2047 && d.bits % 2 ^ 52 == 0

/-- The ten (keyword, argument count) pairs of the command table. -/
def known_commands : List (Bytes × Nat) :=
  [(ascii "get", 2), (ascii "set", 3), (ascii "del", 2), (ascii "pexpire", 3),
   (ascii "pttl", 2), (ascii "keys", 1), (ascii "zadd", 4), (ascii "zrem", 3),
   (ascii "zscore", 3), (ascii "zquery", 6)]

/-- The argument vector is one of the ten pairs: its first argument and its
length are a keyword and that keyword's argument count. -/
def KnownCommand (cmd : List Bytes) : Prop := (arg cmd 0, cmd.length) ∈ known_commands

/-- A reply value that is not `ERR(UNKNOWN, ...)`: any other kind of value, or
an error with the code BAD_TYP or BAD_ARG. -/
def Value.not_unknown : Value → Prop
  | .err code _ => code = ERR_BAD_TYP ∨ code = ERR_BAD_ARG
  | _ => True

/-- A handler answers with a value that is not `ERR(UNKNOWN, ...)`. -/
def Answers (h : Buffer → GData → Buffer × GData) (g : GData) : Prop :=
  ∃ v : Value, v.not_unknown ∧ ∀ out, (h out g).1 = out ++ v.encode

/-- The states the server reaches: from an empty keyspace and an empty TTL
heap, by requests (any argument vector, at any clock reading) and by runs of
`process_timers` (at any clock reading). -/
inductive Reachable (strtod : Bytes → Dbl × Nat) : GData → Prop
  | start (g : GData) : g.db = [] → g.heap = [] → Reachable strtod g
  | request (now : Nat) (cmd : List Bytes) (out : Buffer) (g : GData) :
      Reachable strtod g → Reachable strtod (do_request strtod now cmd out g).2
  | timers (now : Nat) (g g1 : GData) :
      Reachable strtod g → process_timers now g = some g1 → Reachable strtod g1

/-- The state after `set a 1` at time 0 and `pexpire a 50` at time 3, from
startup. -/
def g_expiring : GData :=
  state_after sample_strtod 3 [ascii "pexpire", [97], ascii "50"]
    (state_after sample_strtod 0 [ascii "set", [97], [49]] g_init)

/-- The connection at the head of the idle list (`container_of(idle_list.next,
Conn, idle_node)`), `none` when the list is empty (`dlist_empty`).  The list
holds descriptors here; a listed descriptor has its connection in the table,
and a missing one reads as an empty list, as in `process_idle`. -/
def idle_head (g : GData) : Option Conn :=
  match g.idle_list with
  | [] => none
  | fd :: _ => (g.fd2conn[fd]?).getD none

/-- The variable `next_ms` of `next_timer_ms()` after the idle list and the
TTL heap were consulted; `(uint64_t)-1` is `2^64 - 1`. -/
def timer_next_ms (g : GData) : Nat :=
  let next_ms0 : Nat := 2 ^ 64 - 1
  let next_ms1 : Nat :=
    match idle_head g with
    | some conn => (conn.last_active_ms + k_idle_timeout_ms) % 2 ^ 64
    | none => next_ms0
  if g.heap ≠ [] ∧ (heap_at g.heap 0).val < next_ms1 then (heap_at g.heap 0).val
  else next_ms1

/-- `next_timer_ms()` at clock reading `now_ms`: the `uint32_t` returned.
`return -1` yields `2^32 - 1`; the `(int32_t)` value of the difference converts
back to `uint32_t` as the difference modulo `2^32`. -/
def next_timer_ms (now_ms : Nat) (g : GData) : Nat :=
  let next_ms := timer_next_ms g
  if next_ms = 2 ^ 64 - 1 then 2 ^ 32 - 1
  else if next_ms ≤ now_ms then 0
  else (next_ms - now_ms) % 2 ^ 32

/-- The poll timeout of the main loop, `int32_t timeout_ms = next_timer_ms();`:
the returned `uint32_t` read as an `int32_t`. -/
def poll_timeout (now_ms : Nat) (g : GData) : Int :=
  if next_timer_ms now_ms g < 2 ^ 31 then (next_timer_ms now_ms g : Int)
  else (next_timer_ms now_ms g : Int) - 2 ^ 32

/-- The earliest deadline as the specification words it: the minimum of the
idle-list head's `last_active_ms + 5000` (a 64-bit sum) and `heap[0].expire_at`
over the sources that are not empty; `none` when both are empty. -/
def earliest_deadline (g : GData) : Option Nat :=
  match idle_head g, g.heap with
  | none, [] => none
  | some conn, [] => some ((conn.last_active_ms + k_idle_timeout_ms) % 2 ^ 64)
  | none, top :: _ => some top.val
  | some conn, top :: _ =>
    some (min ((conn.last_active_ms + k_idle_timeout_ms) % 2 ^ 64) top.val)

/-- A state with one TTL item expiring at `val` and nobody connected. -/
def g_one_ttl (val : Nat) : GData :=
  { db := [{ key := [107], heap_idx := some 0, type := T_STR, str := [],
             zset := { nodes := [] } }],
    fd2conn := [], idle_list := [], heap := [{ val := val, ref := [107] }] }

/-- The outcome of `read(conn->fd, buf, sizeof(buf))`: `rv < 0` with
`errno == EAGAIN`, `rv < 0` with another error, or the bytes read, none of
them when `rv == 0` (end of file). -/
inductive ReadResult where
  | eagain : ReadResult
  | error : ReadResult
  | data (bytes : Bytes) : ReadResult

/-- The outcome of `write(conn->fd, ...)`: `rv < 0` with `errno == EAGAIN`,
`rv < 0` with another error, or the number `rv` of bytes written, which may be
short of the buffer. -/
inductive WriteResult where
  | eagain : WriteResult
  | error : WriteResult
  | wrote (n : Nat) : WriteResult

/-- `handle_write(conn)` for the outcome `w` of the `write` call; `none` is a
failure of `assert(conn->outgoing.size() > 0)`. -/
def handle_write (w : WriteResult) (conn : Conn) : Option Conn :=
  if conn.outgoing.length > 0 then
    match w with
    | .eagain => some conn
    | .error => some { conn with want_close := true }
    | .wrote rv =>
      let conn1 := { conn with outgoing := buf_consume conn.outgoing rv }
      if conn1.outgoing.length = 0 then
        some { conn1 with want_read := true, want_write := false }
      else some conn1
  else none

/-- `handle_read(conn)` for the outcome `r` of the `read` call and the outcome
`w` of the `write` call made when there is something to send.  The loop
`while (try_one_request(conn)) {}` is bounded by the length of `incoming`, each
request consuming at least four bytes. -/
def handle_read (strtod : Bytes → Dbl × Nat) (clock : Nat → Nat) (r : ReadResult)
    (w : WriteResult) (conn : Conn) (g : GData) : Option (Conn × GData) :=
  match r with
  | .eagain => some (conn, g)
  | .error => some ({ conn with want_close := true }, g)
  | .data bytes =>
    if bytes.length = 0 then some ({ conn with want_close := true }, g)
    else
      let conn1 := { conn with incoming := buf_append conn.incoming bytes }
      let s := consume_loop strtod clock (conn1.incoming.length + 1) 0 conn1 g
      if s.1.outgoing.length > 0 then
        (handle_write w { s.1 with want_read := false, want_write := true }).map
          (fun c => (c, s.2))
      else some s

/-- The connection `handle_accept` creates for the descriptor `connfd` at
clock reading `now`. -/
def conn_accepted (connfd : Int) (now : Nat) : Conn :=
  { fd := connfd, want_read := true, want_write := false, want_close := false,
    incoming := [], outgoing := [], last_active_ms := now }

/-- Exactly one of `want_read` and `want_write` is true. -/
def OneWant (conn : Conn) : Prop :=
  (conn.want_read = true ∧ conn.want_write = false)
  ∨ (conn.want_read = false ∧ conn.want_write = true)

/-- The states a connection goes through: created by `handle_accept`, then any
number of calls of `handle_read` and `handle_write` with any outcome of the
underlying `read` and `write`, any bytes received, any global state and clock,
and the main loop's stores to `last_active_ms`. -/
inductive ConnReached (strtod : Bytes → Dbl × Nat) : Conn → Prop
  | accept (connfd : Int) (now : Nat) : ConnReached strtod (conn_accepted connfd now)
  | active (now : Nat) (conn : Conn) :
      ConnReached strtod conn → ConnReached strtod { conn with last_active_ms := now }
  | read (clock : Nat → Nat) (r : ReadResult) (w : WriteResult) (conn : Conn) (g : GData)
      (c1 : Conn) (g1 : GData) :
      ConnReached strtod conn → handle_read strtod clock r w conn g = some (c1, g1) →
      ConnReached strtod c1
  | write (w : WriteResult) (conn c1 : Conn) :
      ConnReached strtod conn → handle_write w conn = some c1 → ConnReached strtod c1

/-- What an entry holds apart from its heap slot: the key, the kind, the
string and the sorted set. -/
def Entry.content (e : Entry) : Entry := { e with heap_idx := none }

/-- The expiry time of an entry in the state `g`: `heap[heap_idx].val`, `none`
for an entry without a TTL. -/
def expire_at (g : GData) (e : Entry) : Option Nat :=
  e.heap_idx.map (fun i => (heap_at g.heap i).val)

/-- The main loop's dispatch of a writable connection,
`assert(conn->want_write); handle_write(conn);`: `none` is a failure of either
assertion. -/
def on_pollout (w : WriteResult) (conn : Conn) : Option Conn :=
  if conn.want_write then handle_write w conn else none

/-! ## Facts about the integer codec -/

theorem le_bytes_length (w n : Nat) : (le_bytes w n).length = w := by
  induction w generalizing n with
  | zero => rfl
  | succ w ih => simp [le_bytes, ih]

theorem UInt8_toNat_ofNat (n : Nat) : (UInt8.ofNat n).toNat = n % 256 := rfl

theorem le_val_le_bytes (w n : Nat) : le_val (le_bytes w n) = n % 256 ^ w := by
  induction w generalizing n with
  | zero => simp [le_bytes, le_val, Nat.mod_one]
  | succ w ih =>
    simp only [le_bytes, le_val, ih, UInt8_toNat_ofNat]
    rw [Nat.mod_mod, pow_succ, Nat.mul_comm (256 ^ w) 256, Nat.mod_mul]

theorem le_val_le_bytes_of_lt (w n : Nat) (h : n < 256 ^ w) :
    le_val (le_bytes w n) = n := by
  rw [le_val_le_bytes, Nat.mod_eq_of_lt h]

theorem read_u32_append (pre post : Bytes) (n end_ : Nat)
    (h : pre.length + 4 ≤ end_) :
    read_u32 (pre ++ (le_bytes 4 n ++ post)) pre.length end_
      = some (pre.length + 4, n % 2 ^ 32) := by
  unfold read_u32
  rw [if_neg (by omega)]
  have h4 : (le_bytes 4 n).length = 4 := le_bytes_length 4 n
  rw [List.drop_left, List.take_left' h4, le_val_le_bytes]
  norm_num

theorem read_str_append (pre s post : Bytes) (end_ : Nat)
    (h : pre.length + s.length ≤ end_) :
    read_str (pre ++ (s ++ post)) pre.length end_ s.length
      = some (pre.length + s.length, s) := by
  unfold read_str
  rw [if_neg (by omega), List.drop_left, List.take_left]

theorem encode_strs_append (xs ys : List Bytes) :
    encode_strs (xs ++ ys) = encode_strs xs ++ encode_strs ys := by
  induction xs with
  | nil => rfl
  | cons s xs ih => simp [encode_strs, ih]

/-- The parse loop, started at the end of `pre` with `out` already read, reads
the strings `rest` encoded behind `pre`, whatever follows the end. -/
theorem parse_req_loop_encode (rest : List Bytes) :
    ∀ (pre post : Bytes) (out : List Bytes) (nstr : Nat),
      (∀ s ∈ rest, s.length < 2 ^ 32) →
      nstr = out.length + rest.length →
      parse_req_loop (pre ++ (encode_strs rest ++ post))
          (pre.length + (encode_strs rest).length) nstr rest.length pre.length out
        = (0, out ++ rest) := by
  induction rest with
  | nil =>
    intro pre post out nstr _ _
    simp [parse_req_loop, encode_strs]
  | cons s rest ih =>
    intro pre post out nstr hlen hn
    have hs : s.length < 2 ^ 32 := hlen s (List.mem_cons_self _ _)
    have hrest : ∀ x ∈ rest, x.length < 2 ^ 32 :=
      fun x hx => hlen x (List.mem_cons_of_mem _ hx)
    have hn1 : out.length < nstr := by simp at hn; omega
    have e1 : encode_strs (s :: rest) ++ post
        = le_bytes 4 s.length ++ (s ++ (encode_strs rest ++ post)) := by
      simp [encode_strs]
    have l1 : (encode_strs (s :: rest)).length
        = 4 + s.length + (encode_strs rest).length := by
      simp [encode_strs, le_bytes_length]; omega
    simp only [List.length_cons, parse_req_loop, if_pos hn1]
    rw [l1, e1, read_u32_append pre _ _ _ (by omega), Nat.mod_eq_of_lt hs]
    have e2 : pre ++ (le_bytes 4 s.length ++ (s ++ (encode_strs rest ++ post)))
        = (pre ++ le_bytes 4 s.length) ++ (s ++ (encode_strs rest ++ post)) := by simp
    have l2 : (pre ++ le_bytes 4 s.length).length = pre.length + 4 := by
      simp [le_bytes_length]
    simp only []
    rw [e2, ← l2, read_str_append _ _ _ _ (by rw [l2]; omega)]
    simp only []
    have e3 : (pre ++ le_bytes 4 s.length) ++ (s ++ (encode_strs rest ++ post))
        = ((pre ++ le_bytes 4 s.length) ++ s) ++ (encode_strs rest ++ post) := by simp
    have l3 : ((pre ++ le_bytes 4 s.length) ++ s).length
        = (pre ++ le_bytes 4 s.length).length + s.length := List.length_append _ _
    have l4 : pre.length + (4 + s.length + (encode_strs rest).length)
        = ((pre ++ le_bytes 4 s.length) ++ s).length + (encode_strs rest).length := by
      rw [l3, l2]; omega
    rw [e3, ← l3, l4, ih _ post (out ++ [s]) nstr hrest (by simp at hn ⊢; omega)]
    simp

/-- Parsing a payload that is followed by further bytes (the next frames)
within its own length. -/
theorem parse_req_payload_append (args : List Bytes) (post : Bytes)
    (hn : args.length ≤ 200000)
    (hlen : ∀ s ∈ args, s.length < 2 ^ 32) :
    parse_req (encode_payload args ++ post) (encode_payload args).length [] = (0, args) := by
  unfold parse_req encode_payload
  have h4 : (le_bytes 4 args.length).length = 4 := le_bytes_length _ _
  have h0 := read_u32_append [] (encode_strs args ++ post) args.length
    ((le_bytes 4 args.length ++ encode_strs args).length)
    (by simp [le_bytes_length])
  simp only [List.nil_append, List.length_nil, Nat.zero_add] at h0
  rw [List.append_assoc, h0]
  have hm : args.length % 2 ^ 32 = args.length := Nat.mod_eq_of_lt (by omega)
  simp only [hm]
  rw [if_neg (by unfold k_max_args; omega)]
  have := parse_req_loop_encode args (le_bytes 4 args.length) post [] args.length hlen (by simp)
  rw [h4] at this
  simpa [h4] using this

/-- C2: `parse_req` undoes the request payload encoding.  For every list `args`
of at most 200000 byte strings, each shorter than `2^32` bytes, parsing the
payload (the `u32` count, then each string as `u32` length and bytes) with
`out` initially empty returns 0 and leaves `out` equal to `args`, in order. -/
theorem parse_req_encode_payload (args : List Bytes)
    (hn : args.length ≤ 200000)
    (hlen : ∀ s ∈ args, s.length < 2 ^ 32) :
    parse_req (encode_payload args) (encode_payload args).length [] = (0, args) := by
  have := parse_req_payload_append args [] hn hlen
  simpa using this

/-- C2 at a concrete input: the payload of `["get", "a"]` parses back. -/
theorem parse_req_encode_payload_witness :
    parse_req (encode_payload [[103, 101, 116], [97]])
        (encode_payload [[103, 101, 116], [97]]).length []
      = (0, [[103, 101, 116], [97]]) :=
  parse_req_encode_payload [[103, 101, 116], [97]] (by decide) (by decide)

theorem le_bytes_mod (w n : Nat) : le_bytes w (n % 256 ^ w) = le_bytes w n := by
  induction w generalizing n with
  | zero => rfl
  | succ w ih =>
    simp only [le_bytes]
    have h1 : n % 256 ^ (w + 1) % 256 = n % 256 := by
      rw [pow_succ, Nat.mul_comm]
      exact Nat.mod_mul_right_mod n 256 (256 ^ w)
    have h2 : n % 256 ^ (w + 1) / 256 = (n / 256) % 256 ^ w := by
      rw [pow_succ, Nat.mul_comm, Nat.mod_mul_right_div_self]
    rw [h1, h2, ih]

theorem le_bytes4_mod (n : Nat) : le_bytes 4 (n % 2 ^ 32) = le_bytes 4 n := by
  have := le_bytes_mod 4 n
  norm_num at this ⊢
  exact this

theorem le_bytes4_mod_lit (n : Nat) : le_bytes 4 (n % 4294967296) = le_bytes 4 n :=
  le_bytes4_mod n

theorem out_nil_eq (out : Buffer) : out_nil out = out ++ Value.nil.encode := rfl

theorem out_str_eq (out : Buffer) (s : Bytes) : out_str out s = out ++ (Value.str s).encode := by
  simp [out_str, buf_append, buf_append_u32, buf_append_u8, Value.encode, le_bytes4_mod_lit, TAG_STR]

theorem out_int_eq (out : Buffer) (v : Int) : out_int out v = out ++ (Value.int v).encode := by
  simp [out_int, buf_append, buf_append_i64, buf_append_u8, Value.encode, TAG_INT]

theorem out_dbl_eq (out : Buffer) (d : Dbl) : out_dbl out d = out ++ (Value.dbl d).encode := by
  simp [out_dbl, buf_append, buf_append_dbl, buf_append_u8, Value.encode, TAG_DBL]

theorem out_err_eq (out : Buffer) (code : Nat) (msg : Bytes) :
    out_err out code msg = out ++ (Value.err code msg).encode := by
  simp [out_err, buf_append, buf_append_u32, buf_append_u8, Value.encode, le_bytes4_mod_lit, TAG_ERR]

theorem encode_list_append (xs ys : List Value) :
    Value.encode_list (xs ++ ys) = Value.encode_list xs ++ Value.encode_list ys := by
  induction xs with
  | nil => simp [Value.encode_list]
  | cons x xs ih => simp [Value.encode_list, ih]

theorem zpairs_length (l : List ZNode) : (zpairs l).length = 2 * l.length := by
  induction l with
  | nil => rfl
  | cons x xs ih => simp [zpairs, ih]; omega

theorem zpairs_append (xs ys : List ZNode) : zpairs (xs ++ ys) = zpairs xs ++ zpairs ys := by
  induction xs with
  | nil => rfl
  | cons x xs ih => simp [zpairs, ih]

theorem do_keys_each_eq (db : HMap) (out : Buffer) :
    do_keys_each db out
      = out ++ Value.encode_list (db.map (fun e => Value.str e.key)) := by
  unfold do_keys_each
  induction db generalizing out with
  | nil => simp [Value.encode_list]
  | cons e db ih =>
    simp only [List.foldl_cons, List.map_cons, Value.encode_list]
    rw [ih, out_str_eq, List.append_assoc]

theorem do_keys_eq (cmd : List Bytes) (out : Buffer) (g : GData) :
    do_keys cmd out g
      = (out ++ (Value.arr (g.db.map (fun e => Value.str e.key))).encode, g) := by
  unfold do_keys
  rw [do_keys_each_eq]
  simp [out_arr, buf_append_u32, buf_append_u8, buf_append, Value.encode, hm_size,
    le_bytes4_mod_lit, TAG_ARR]

theorem do_zquery_loop_eq (zset : ZSet) (limit : Int) :
    ∀ (fuel i : Nat) (n : Int) (out : Buffer),
      i < zset.nodes.length → zset.nodes.length - i ≤ fuel →
      do_zquery_loop zset limit fuel (some i) n out
        = (out ++ Value.encode_list
              (zpairs ((zset.nodes.drop i).take (zquery_count limit n))),
           n + 2 * (min (zset.nodes.length - i) (zquery_count limit n) : Nat)) := by
  intro fuel
  induction fuel with
  | zero => intro i n out hi hf; omega
  | succ fuel ih =>
    intro i n out hi hf
    simp only [do_zquery_loop]
    by_cases hn : n < limit
    · rw [if_pos hn]
      have hc : zquery_count limit n = zquery_count limit (n + 2) + 1 := by
        unfold zquery_count; omega
      have hget : zset.nodes[i]? = some (zset.nodes[i]) := List.getElem?_eq_getElem hi
      have hdrop : zset.nodes.drop i = zset.nodes[i] :: zset.nodes.drop (i + 1) :=
        (List.drop_eq_getElem_cons hi)
      by_cases hi1 : i + 1 < zset.nodes.length
      · have hoff : znode_offset zset (some i) 1 = some (i + 1) := by
          unfold znode_offset
          simp only []
          rw [if_pos (by constructor <;> omega)]
          congr 1
        rw [hoff, ih (i + 1) (n + 2) _ hi1 (by omega), hc, hdrop, hget]
        simp only [List.take_succ_cons, zpairs, Value.encode_list, Option.getD_some,
          out_str_eq, out_dbl_eq, List.append_assoc]
        congr 1
        have : min (zset.nodes.length - i) (zquery_count limit (n + 2) + 1)
            = min (zset.nodes.length - (i + 1)) (zquery_count limit (n + 2)) + 1 := by
          omega
        rw [this]; push_cast; ring
      · have hoff : znode_offset zset (some i) 1 = none := by
          unfold znode_offset
          simp only []
          rw [if_neg (by omega)]
        have hnil : zset.nodes.drop (i + 1) = [] := List.drop_eq_nil_of_le (by omega)
        have hloop : ∀ m out1, do_zquery_loop zset limit fuel none m out1 = (out1, m) := by
          intro m out1; cases fuel <;> rfl
        rw [hoff, hloop, hc, hdrop, hget, hnil]
        simp only [List.take_succ_cons, List.take_nil, zpairs, Value.encode_list,
          Option.getD_some, out_str_eq, out_dbl_eq, List.append_assoc, List.append_nil]
        congr 1
        have : min (zset.nodes.length - i) (zquery_count limit (n + 2) + 1) = 1 := by omega
        rw [this]; push_cast; ring
    · rw [if_neg hn]
      have hc : zquery_count limit n = 0 := by unfold zquery_count; omega
      simp [hc, zpairs, Value.encode_list]

theorem out_end_arr_begin (out enc : Bytes) (m : Nat) :
    out_end_arr ((out_begin_arr out).1 ++ enc) (out_begin_arr out).2 m
      = out ++ ([5] ++ le_bytes 4 m ++ enc) := by
  have h4 : (le_bytes 4 0).length = 4 := le_bytes_length 4 0
  have hm : (le_bytes 4 m).length = 4 := le_bytes_length 4 m
  have e1 : (out_begin_arr out).1 = (out ++ [5]) ++ le_bytes 4 0 := by
    simp [out_begin_arr, buf_append_u32, buf_append, TAG_ARR]
  have e2 : (out_begin_arr out).2 = (out ++ [5]).length := by
    simp [out_begin_arr, buf_append_u32, buf_append, TAG_ARR, h4]
  unfold out_end_arr
  rw [e2, e1]
  have t1 : ((out ++ [5]) ++ le_bytes 4 0 ++ enc).take (out ++ [5]).length = out ++ [5] := by
    rw [List.append_assoc, List.take_left]
  have t2 : ((out ++ [5]) ++ le_bytes 4 0 ++ enc).drop ((out ++ [5]).length + 4) = enc := by
    have : (out ++ [5]).length + 4 = ((out ++ [5]) ++ le_bytes 4 0).length := by
      simp [h4]
    rw [this, List.drop_left]
  rw [t1, t2]
  simp

theorem znode_offset_lt (zset : ZSet) (node : Option Nat) (offset : Int) (i : Nat)
    (h : znode_offset zset node offset = some i) : i < zset.nodes.length := by
  unfold znode_offset at h
  cases node with
  | none => simp at h
  | some j =>
    simp only [] at h
    split at h
    · injection h with h; omega
    · simp at h

/-- The body of `do_zquery` after the argument and type checks, for a positive
limit. -/
theorem do_zquery_body_eq (zset : ZSet) (score : Dbl) (name : Bytes) (offset limit : Int)
    (out : Buffer) :
    out_end_arr
        (do_zquery_loop zset limit zset.nodes.length
          (znode_offset zset (zset_seekge zset score name) offset) 0 (out_begin_arr out).1).1
        (out_begin_arr out).2
        ((do_zquery_loop zset limit zset.nodes.length
          (znode_offset zset (zset_seekge zset score name) offset) 0 (out_begin_arr out).1).2
            % 2 ^ 32).toNat
      = out ++ (Value.arr
          (zpairs ((zrange zset score name offset).take (zquery_count limit 0)))).encode := by
  unfold zrange
  cases h : znode_offset zset (zset_seekge zset score name) offset with
  | none =>
    have hloop : ∀ fuel m out1, do_zquery_loop zset limit fuel none m out1 = (out1, m) := by
      intro fuel m out1; cases fuel <;> rfl
    rw [hloop]
    have := out_end_arr_begin out [] 0
    simp only [List.append_nil] at this
    simp only [List.take_nil, zpairs, Value.encode, Value.encode_list, List.length_nil]
    simpa using this
  | some i =>
    have hi := znode_offset_lt _ _ _ _ h
    rw [do_zquery_loop_eq zset limit _ i 0 _ hi (by omega)]
    simp only []
    rw [out_end_arr_begin]
    congr 1
    simp only [Value.encode, zpairs_length, List.length_take, List.length_drop]
    congr 2
    have e : ((0 + 2 * ((min (zset.nodes.length - i) (zquery_count limit 0) : Nat) : Int))
        % 2 ^ 32).toNat
        = (2 * min (zquery_count limit 0) (zset.nodes.length - i)) % 2 ^ 32 := by
      rw [Nat.min_comm]
      omega
    rw [e]
    exact le_bytes4_mod _

theorem do_get_replies (cmd : List Bytes) (g : GData) : Replies (do_get cmd) g := by
  unfold Replies do_get
  cases hm_lookup g.db (entry_eq (arg cmd 1)) with
  | none => exact ⟨.nil, fun out => by simp [out_nil_eq]⟩
  | some ent =>
    by_cases h : ent.type ≠ T_STR
    · exact ⟨.err ERR_BAD_TYP (ascii "not a string value"), fun out => by
        simp only [if_pos h, out_err_eq]⟩
    · exact ⟨.str ent.str, fun out => by simp only [if_neg h, out_str_eq]⟩

theorem do_set_replies (cmd : List Bytes) (g : GData) : Replies (do_set cmd) g := by
  unfold Replies do_set
  cases hm_lookup g.db (entry_eq (arg cmd 1)) with
  | none => exact ⟨.nil, fun out => by simp [out_nil_eq]⟩
  | some ent =>
    by_cases h : ent.type ≠ T_STR
    · exact ⟨.err ERR_BAD_TYP (ascii "a non-string value exists"), fun out => by
        simp only [if_pos h, out_err_eq]⟩
    · exact ⟨.nil, fun out => by simp only [if_neg h, out_nil_eq]⟩

theorem do_del_replies (cmd : List Bytes) (g : GData) : Replies (do_del cmd) g := by
  unfold Replies do_del
  cases h : (hm_delete g.db (entry_eq (arg cmd 1))).1 with
  | none => exact ⟨.int 0, fun out => by simp [h, out_int_eq]⟩
  | some ent => exact ⟨.int 1, fun out => by simp [h, out_int_eq]⟩

theorem do_expire_replies (now : Nat) (cmd : List Bytes) (g : GData) :
    Replies (do_expire now cmd) g := by
  unfold Replies do_expire
  by_cases hp : (str2int (arg cmd 2)).1 = true
  · cases hm_lookup g.db (entry_eq (arg cmd 1)) with
    | none => exact ⟨.int 0, fun out => by simp [hp, out_int_eq]⟩
    | some ent => exact ⟨.int 1, fun out => by simp [hp, out_int_eq]⟩
  · exact ⟨.err ERR_BAD_ARG (ascii "expect int64"), fun out => by simp [hp, out_err_eq]⟩

theorem do_ttl_replies (now : Nat) (cmd : List Bytes) (g : GData) :
    Replies (do_ttl now cmd) g := by
  unfold Replies do_ttl
  cases hm_lookup g.db (entry_eq (arg cmd 1)) with
  | none => exact ⟨.int (-2), fun out => by simp [out_int_eq]⟩
  | some ent =>
    cases h : ent.heap_idx with
    | none => exact ⟨.int (-1), fun out => by simp [h, out_int_eq]⟩
    | some idx =>
      exact ⟨.int (if (if (heap_at g.heap idx).val > now then (heap_at g.heap idx).val - now
          else 0) < 2 ^ 63 then
            ((if (heap_at g.heap idx).val > now then (heap_at g.heap idx).val - now else 0 : Nat) : Int)
          else ((if (heap_at g.heap idx).val > now then (heap_at g.heap idx).val - now
            else 0 : Nat) : Int) - 2 ^ 64),
        fun out => by simp only [h, out_int_eq]⟩

theorem do_keys_replies (cmd : List Bytes) (g : GData) : Replies (do_keys cmd) g :=
  ⟨_, fun out => by rw [do_keys_eq, do_keys_eq]⟩

theorem do_zadd_replies (strtod : Bytes → Dbl × Nat) (cmd : List Bytes) (g : GData) :
    Replies (do_zadd strtod cmd) g := by
  unfold Replies do_zadd
  by_cases hp : (str2dbl strtod (arg cmd 2)).1 = true
  · cases hm_lookup g.db (entry_eq (arg cmd 1)) with
    | none => exact ⟨_, fun out => by simp only [hp, out_int_eq]; rfl⟩
    | some ent =>
      by_cases h : ent.type ≠ T_ZSET
      · exact ⟨.err ERR_BAD_TYP (ascii "expect zset"), fun out => by
          simp [hp, h, out_err_eq]⟩
      · exact ⟨_, fun out => by simp only [hp, if_neg h, out_int_eq]; rfl⟩
  · exact ⟨.err ERR_BAD_ARG (ascii "expect float"), fun out => by simp [hp, out_err_eq]⟩

theorem do_zrem_replies (cmd : List Bytes) (g : GData) : Replies (do_zrem cmd) g := by
  unfold Replies do_zrem
  cases expect_zset g (arg cmd 1) with
  | null => exact ⟨.err ERR_BAD_TYP (ascii "expect zset"), fun out => by simp [out_err_eq]⟩
  | empty =>
    simp only []
    cases zset_lookup ZSetPtr.empty.deref (arg cmd 2) with
    | none => exact ⟨.int 0, fun out => by simp [out_int_eq]⟩
    | some i => exact ⟨.int 1, fun out => by simp [out_int_eq]⟩
  | entry z =>
    simp only []
    cases zset_lookup (ZSetPtr.entry z).deref (arg cmd 2) with
    | none => exact ⟨.int 0, fun out => by simp [out_int_eq]⟩
    | some i => exact ⟨.int 1, fun out => by simp [out_int_eq]⟩

theorem do_zscore_replies (cmd : List Bytes) (g : GData) : Replies (do_zscore cmd) g := by
  unfold Replies do_zscore
  cases expect_zset g (arg cmd 1) with
  | null => exact ⟨.err ERR_BAD_TYP (ascii "expect zset"), fun out => by simp [out_err_eq]⟩
  | empty =>
    simp only []
    cases zset_lookup ZSetPtr.empty.deref (arg cmd 2) with
    | none => exact ⟨.nil, fun out => by simp [out_nil_eq]⟩
    | some i =>
      exact ⟨.dbl ((ZSetPtr.empty.deref.nodes[i]?).getD { score := { bits := 0 }, name := [] }).score,
        fun out => by simp only [out_dbl_eq]⟩
  | entry z =>
    simp only []
    cases zset_lookup (ZSetPtr.entry z).deref (arg cmd 2) with
    | none => exact ⟨.nil, fun out => by simp [out_nil_eq]⟩
    | some i =>
      exact ⟨.dbl (((ZSetPtr.entry z).deref.nodes[i]?).getD { score := { bits := 0 }, name := [] }).score,
        fun out => by simp only [out_dbl_eq]⟩

theorem out_arr_zero (out : Buffer) : out_arr out 0 = out ++ (Value.arr []).encode := by
  simp [out_arr, buf_append_u32, buf_append_u8, buf_append, Value.encode, Value.encode_list,
    TAG_ARR]

theorem do_zquery_replies (strtod : Bytes → Dbl × Nat) (cmd : List Bytes) (g : GData) :
    Replies (do_zquery strtod cmd) g := by
  unfold Replies do_zquery
  by_cases hp : (str2dbl strtod (arg cmd 2)).1 = true
  · by_cases hq : (!(str2int (arg cmd 4)).1 || !(str2int (arg cmd 5)).1) = true
    · exact ⟨.err ERR_BAD_ARG (ascii "expect int"), fun out => by simp [hp, hq, out_err_eq]⟩
    · cases expect_zset g (arg cmd 1) with
      | null =>
        exact ⟨.err ERR_BAD_TYP (ascii "expect zset"), fun out => by
          simp [hp, hq, out_err_eq]⟩
      | empty =>
        by_cases hl : (str2int (arg cmd 5)).2 ≤ 0
        · exact ⟨.arr [], fun out => by simp [hp, hq, hl, out_arr_zero]⟩
        · exact ⟨.arr (zpairs ((zrange ZSetPtr.empty.deref (str2dbl strtod (arg cmd 2)).2 (arg cmd 3)
              (str2int (arg cmd 4)).2).take (zquery_count (str2int (arg cmd 5)).2 0))),
            fun out => by simp only [hp, hq, if_neg hl, do_zquery_body_eq]; simp⟩
      | entry z =>
        by_cases hl : (str2int (arg cmd 5)).2 ≤ 0
        · exact ⟨.arr [], fun out => by simp [hp, hq, hl, out_arr_zero]⟩
        · exact ⟨.arr (zpairs ((zrange (ZSetPtr.entry z).deref (str2dbl strtod (arg cmd 2)).2 (arg cmd 3)
              (str2int (arg cmd 4)).2).take (zquery_count (str2int (arg cmd 5)).2 0))),
            fun out => by simp only [hp, hq, if_neg hl, do_zquery_body_eq]; simp⟩
  · exact ⟨.err ERR_BAD_ARG (ascii "expect fp number"), fun out => by
      simp [hp, out_err_eq]⟩

theorem do_request_replies (strtod : Bytes → Dbl × Nat) (now : Nat) (cmd : List Bytes)
    (g : GData) : Replies (do_request strtod now cmd) g := by
  unfold do_request
  split
  · exact do_get_replies cmd g
  split
  · exact do_set_replies cmd g
  split
  · exact do_del_replies cmd g
  split
  · exact do_expire_replies now cmd g
  split
  · exact do_ttl_replies now cmd g
  split
  · exact do_keys_replies cmd g
  split
  · exact do_zadd_replies strtod cmd g
  split
  · exact do_zrem_replies cmd g
  split
  · exact do_zscore_replies cmd g
  split
  · exact do_zquery_replies strtod cmd g
  · exact ⟨.err ERR_UNKNOWN (ascii "unknown command."), fun out => by simp [out_err_eq]⟩

theorem do_request_append (strtod : Bytes → Dbl × Nat) (now : Nat) (cmd : List Bytes)
    (out : Buffer) (g : GData) :
    do_request strtod now cmd out g
      = (out ++ reply_of strtod now cmd g, state_after strtod now cmd g) := by
  obtain ⟨v, hv⟩ := do_request_replies strtod now cmd g
  unfold reply_of state_after
  rw [hv out, hv []]
  simp

theorem capped_body_length_le (body : Bytes) : (capped_body body).length ≤ k_max_msg := by
  unfold capped_body
  split
  · decide
  · omega

theorem response_end_eq (out body : Bytes) :
    response_end ((response_begin out).1 ++ body) (response_begin out).2
      = out ++ frame_body (capped_body body) := by
  have h4 : (le_bytes 4 0).length = 4 := le_bytes_length 4 0
  have hb1 : (response_begin out).1 = out ++ le_bytes 4 0 := rfl
  have hb2 : (response_begin out).2 = out.length := rfl
  rw [hb1, hb2]
  have hsz : ∀ b : Bytes, response_size (out ++ le_bytes 4 0 ++ b) out.length = b.length := by
    intro b; simp [response_size, h4]
  have htake : ∀ b : Bytes, (out ++ le_bytes 4 0 ++ b).take out.length = out := by
    intro b; rw [List.append_assoc, List.take_left]
  have hdrop : ∀ b : Bytes, (out ++ le_bytes 4 0 ++ b).drop (out.length + 4) = b := by
    intro b
    have : out.length + 4 = (out ++ le_bytes 4 0).length := by simp [h4]
    rw [this, List.drop_left]
  have htake4 : ∀ b : Bytes, (out ++ le_bytes 4 0 ++ b).take (out.length + 4)
      = out ++ le_bytes 4 0 := by
    intro b
    have : out.length + 4 = (out ++ le_bytes 4 0).length := by simp [h4]
    rw [this, List.take_left]
  unfold response_end
  simp only [hsz]
  by_cases hbig : body.length > k_max_msg
  · simp only [if_pos hbig, htake4, out_err_eq, hsz, htake, hdrop]
    unfold frame_body capped_body
    rw [if_pos hbig, le_bytes4_mod, List.append_assoc]
  · simp only [if_neg hbig, htake, hdrop]
    unfold frame_body capped_body
    rw [if_neg hbig, le_bytes4_mod, List.append_assoc]

theorem length_le_encode_strs (args : List Bytes) (s : Bytes) (h : s ∈ args) :
    s.length ≤ (encode_strs args).length := by
  induction args with
  | nil => simp at h
  | cons a rest ih =>
    simp only [encode_strs, List.length_append]
    rcases List.mem_cons.mp h with h | h
    · subst h; omega
    · have := ih h; omega

theorem encode_payload_length (args : List Bytes) :
    (encode_payload args).length = 4 + (encode_strs args).length := by
  simp [encode_payload, le_bytes_length]

theorem le_val_take_le_bytes (n : Nat) (rest : Bytes) (h : n < 2 ^ 32) :
    le_val ((le_bytes 4 n ++ rest).take 4) = n := by
  have h4 : (le_bytes 4 n).length = 4 := le_bytes_length 4 n
  rw [List.take_left' h4, le_val_le_bytes_of_lt 4 n (by norm_num at h ⊢; exact h)]

/-- One complete well-formed frame at the head of `incoming` is parsed,
answered and consumed. -/
theorem try_one_request_frame (strtod : Bytes → Dbl × Nat) (now : Nat) (conn : Conn)
    (g : GData) (args : List Bytes) (rest : Bytes)
    (hn : args.length ≤ k_max_args)
    (hp : (encode_payload args).length ≤ k_max_msg)
    (hin : conn.incoming = encode_frame args ++ rest) :
    try_one_request strtod now conn g
      = (true,
         { conn with
             outgoing := conn.outgoing ++ frame_body (capped_body (reply_of strtod now args g)),
             incoming := rest },
         state_after strtod now args g) := by
  have hk : k_max_msg = 33554432 := by decide
  have hka : k_max_args = 200000 := by decide
  have h4 : (le_bytes 4 (encode_payload args).length).length = 4 := le_bytes_length _ _
  have hlen32 : (encode_payload args).length < 2 ^ 32 := by omega
  have hstr : ∀ s ∈ args, s.length < 2 ^ 32 := by
    intro s hs
    have := length_le_encode_strs args s hs
    have := encode_payload_length args
    omega
  have hinlen : conn.incoming.length = 4 + (encode_payload args).length + rest.length := by
    rw [hin]; simp [encode_frame, h4]; omega
  have hlen : le_val (conn.incoming.take 4) = (encode_payload args).length := by
    rw [hin, encode_frame, List.append_assoc, le_val_take_le_bytes _ _ hlen32]
  have hdrop4 : conn.incoming.drop 4 = encode_payload args ++ rest := by
    rw [hin, encode_frame, List.append_assoc]
    exact List.drop_left' h4
  have hdropall : conn.incoming.drop (4 + (encode_payload args).length) = rest := by
    rw [hin]
    have : 4 + (encode_payload args).length = (encode_frame args).length := by
      simp [encode_frame, h4]
    rw [this, List.drop_left]
  have hmod : (4 + (encode_payload args).length) % 2 ^ 32 = 4 + (encode_payload args).length :=
    Nat.mod_eq_of_lt (by omega)
  unfold try_one_request
  rw [if_neg (by omega)]
  simp only [hlen]
  rw [if_neg (by omega), hmod, if_neg (by omega), hdrop4,
    parse_req_payload_append args rest (by omega) hstr]
  simp only []
  rw [if_neg (by decide), do_request_append, response_end_eq]
  simp only [buf_consume, hdropall]

theorem do_request_get (strtod : Bytes → Dbl × Nat) (now : Nat) (k : Bytes) (out : Buffer)
    (g : GData) :
    do_request strtod now [ascii "get", k] out g = do_get [ascii "get", k] out g := by
  simp [do_request, arg]

theorem do_request_set (strtod : Bytes → Dbl × Nat) (now : Nat) (k v : Bytes) (out : Buffer)
    (g : GData) :
    do_request strtod now [ascii "set", k, v] out g = do_set [ascii "set", k, v] out g := by
  have h : ¬ (ascii "set" = ascii "get") := by decide
  simp [do_request, arg, h]

theorem do_request_del (strtod : Bytes → Dbl × Nat) (now : Nat) (k : Bytes) (out : Buffer)
    (g : GData) :
    do_request strtod now [ascii "del", k] out g = do_del [ascii "del", k] out g := by
  have h : ¬ (ascii "del" = ascii "get") := by decide
  simp [do_request, arg, h]

theorem do_request_pexpire (strtod : Bytes → Dbl × Nat) (now : Nat) (k t : Bytes)
    (out : Buffer) (g : GData) :
    do_request strtod now [ascii "pexpire", k, t] out g
      = do_expire now [ascii "pexpire", k, t] out g := by
  have h : ¬ (ascii "pexpire" = ascii "set") := by decide
  simp [do_request, arg, h]

theorem do_request_pttl (strtod : Bytes → Dbl × Nat) (now : Nat) (k : Bytes) (out : Buffer)
    (g : GData) :
    do_request strtod now [ascii "pttl", k] out g = do_ttl now [ascii "pttl", k] out g := by
  have h1 : ¬ (ascii "pttl" = ascii "get") := by decide
  have h2 : ¬ (ascii "pttl" = ascii "del") := by decide
  simp [do_request, arg, h1, h2]

theorem do_request_zadd (strtod : Bytes → Dbl × Nat) (now : Nat) (k s n : Bytes)
    (out : Buffer) (g : GData) :
    do_request strtod now [ascii "zadd", k, s, n] out g
      = do_zadd strtod [ascii "zadd", k, s, n] out g := by
  simp [do_request, arg]

theorem do_request_zrem (strtod : Bytes → Dbl × Nat) (now : Nat) (k n : Bytes)
    (out : Buffer) (g : GData) :
    do_request strtod now [ascii "zrem", k, n] out g = do_zrem [ascii "zrem", k, n] out g := by
  have h1 : ¬ (ascii "zrem" = ascii "set") := by decide
  have h2 : ¬ (ascii "zrem" = ascii "pexpire") := by decide
  simp [do_request, arg, h1, h2]

theorem do_request_zscore (strtod : Bytes → Dbl × Nat) (now : Nat) (k n : Bytes)
    (out : Buffer) (g : GData) :
    do_request strtod now [ascii "zscore", k, n] out g
      = do_zscore [ascii "zscore", k, n] out g := by
  have h1 : ¬ (ascii "zscore" = ascii "set") := by decide
  have h2 : ¬ (ascii "zscore" = ascii "pexpire") := by decide
  have h3 : ¬ (ascii "zscore" = ascii "zrem") := by decide
  simp [do_request, arg, h1, h2, h3]

theorem do_request_zquery (strtod : Bytes → Dbl × Nat) (now : Nat) (k s n o l : Bytes)
    (out : Buffer) (g : GData) :
    do_request strtod now [ascii "zquery", k, s, n, o, l] out g
      = do_zquery strtod [ascii "zquery", k, s, n, o, l] out g := by
  simp [do_request, arg]

theorem find_entry_update (db : HMap) (k : Bytes) (f : Entry → Entry) (e : Entry)
    (hf : ∀ x, (f x).key = x.key)
    (h : db.find? (entry_eq k) = some e) :
    (entry_update db k f).find? (entry_eq k) = some (f e) := by
  induction db with
  | nil => simp at h
  | cons x rest ih =>
    simp only [entry_update]
    by_cases hx : x.key == k
    · simp only [hx, if_true]
      have hx1 : entry_eq k x = true := hx
      have hx2 : entry_eq k (f x) = true := by
        unfold entry_eq; rw [hf]; exact hx
      rw [List.find?_cons_of_pos _ hx1] at h
      rw [List.find?_cons_of_pos _ hx2]
      injection h with h; rw [h]
    · have hx1 : ¬ (entry_eq k x = true) := hx
      simp only [hx, Bool.false_eq_true, if_false]
      rw [List.find?_cons_of_neg _ hx1] at h ⊢
      exact ih h

/-- C1 (set then get).  For every keyspace state, every key `k` that is absent
or holds a string, and every byte string `v` such that the framed request
`set k v` has `total_len ≤ 32 MiB`: processing the frames `set k v` and
`get k` yields the framed replies NIL and then STR `v`, byte for byte (also for
the empty `v`); the reply to `get` is the sized value STR `v`, not
ERR(TOO_BIG). -/
theorem set_then_get (strtod : Bytes → Dbl × Nat) (now1 now2 : Nat) (conn : Conn) (g : GData)
    (k v rest : Bytes)
    (hk : ∀ e, hm_lookup g.db (entry_eq k) = some e → e.type = T_STR)
    (hlen : (encode_payload [ascii "set", k, v]).length ≤ k_max_msg)
    (hin : conn.incoming
      = encode_frame [ascii "set", k, v] ++ (encode_frame [ascii "get", k] ++ rest)) :
    (try_one_request strtod now1 conn g).1 = true
    ∧ (try_one_request strtod now1 conn g).2.1.outgoing
        = conn.outgoing ++ frame_body Value.nil.encode
    ∧ (try_one_request strtod now2 (try_one_request strtod now1 conn g).2.1
          (try_one_request strtod now1 conn g).2.2).1 = true
    ∧ (try_one_request strtod now2 (try_one_request strtod now1 conn g).2.1
          (try_one_request strtod now1 conn g).2.2).2.1.outgoing
        = conn.outgoing ++ frame_body Value.nil.encode ++ frame_body (Value.str v).encode
    ∧ (Value.str v).Sized
    ∧ (try_one_request strtod now2 (try_one_request strtod now1 conn g).2.1
          (try_one_request strtod now1 conn g).2.2).2.1.incoming = rest := by
  have hk0 : k_max_msg = 33554432 := by decide
  have hsetlen : (encode_payload [ascii "set", k, v]).length = 19 + k.length + v.length := by
    simp [encode_payload, encode_strs, le_bytes_length, ascii]; omega
  have hgetlen : (encode_payload [ascii "get", k]).length = 15 + k.length := by
    simp [encode_payload, encode_strs, le_bytes_length, ascii]; omega
  -- the reply to `set` and the state after it
  have hset : reply_of strtod now1 [ascii "set", k, v] g = Value.nil.encode
      ∧ ∃ e, hm_lookup (state_after strtod now1 [ascii "set", k, v] g).db (entry_eq k) = some e
          ∧ e.type = T_STR ∧ e.str = v := by
    unfold reply_of state_after
    rw [do_request_set]
    unfold do_set
    simp only [arg, List.getElem?_cons_succ, List.getElem?_cons_zero, Option.getD_some]
    cases hl : hm_lookup g.db (entry_eq k) with
    | none =>
      refine ⟨by simp [out_nil_eq], ?_⟩
      simp [hm_lookup, hm_insert, entry_eq, entry_new]
    | some e =>
      have ht := hk e hl
      simp only [ht, ne_eq, not_true_eq_false, if_false]
      refine ⟨by simp [out_nil_eq], ?_⟩
      refine ⟨{ e with str := v }, ?_, ht, rfl⟩
      exact find_entry_update g.db k _ e (fun _ => rfl) hl
  obtain ⟨hset1, e, he, het, hes⟩ := hset
  have hget : reply_of strtod now2 [ascii "get", k]
      (state_after strtod now1 [ascii "set", k, v] g) = (Value.str v).encode := by
    unfold reply_of
    rw [do_request_get]
    unfold do_get
    simp only [arg, List.getElem?_cons_succ, List.getElem?_cons_zero, Option.getD_some]
    rw [he]
    simp [het, hes, out_str_eq]
  have hstrlen : (Value.str v).encode.length = 5 + v.length := by
    simp [Value.encode, le_bytes_length]; omega
  have h1 := try_one_request_frame strtod now1 conn g [ascii "set", k, v]
    (encode_frame [ascii "get", k] ++ rest) (by simp [k_max_args]) hlen hin
  rw [h1]
  simp only []
  have h2 := try_one_request_frame strtod now2
    { conn with
        outgoing := conn.outgoing
          ++ frame_body (capped_body (reply_of strtod now1 [ascii "set", k, v] g)),
        incoming := encode_frame [ascii "get", k] ++ rest }
    (state_after strtod now1 [ascii "set", k, v] g) [ascii "get", k] rest (by simp [k_max_args])
    (by omega) rfl
  rw [h2]
  simp only [hset1, hget]
  have c1 : capped_body Value.nil.encode = Value.nil.encode := by decide
  have c2 : capped_body (Value.str v).encode = (Value.str v).encode := by
    unfold capped_body; rw [if_neg (by omega)]
  rw [c1, c2]
  refine ⟨trivial, rfl, trivial, rfl, ?_, trivial⟩
  show v.length < 2 ^ 32
  omega


/-- C1 at a concrete input: `set a 1` then `get a` on the empty keyspace. -/
theorem set_then_get_witness :
    (encode_payload [ascii "set", [97], [49]]).length ≤ k_max_msg
    ∧ (try_one_request sample_strtod 0
          (try_one_request sample_strtod 0
            (conn_with (encode_frame [ascii "set", [97], [49]]
              ++ (encode_frame [ascii "get", [97]] ++ []))) g_init).2.1
          (try_one_request sample_strtod 0
            (conn_with (encode_frame [ascii "set", [97], [49]]
              ++ (encode_frame [ascii "get", [97]] ++ []))) g_init).2.2).2.1.outgoing
        = [] ++ frame_body Value.nil.encode ++ frame_body (Value.str [49]).encode :=
  ⟨by decide,
   (set_then_get sample_strtod 0 0
      (conn_with (encode_frame [ascii "set", [97], [49]]
        ++ (encode_frame [ascii "get", [97]] ++ []))) g_init [97] [49] []
      (by intro e h; simp [hm_lookup, g_init] at h) (by decide) rfl).2.2.2.1⟩

/-- The parse loop reads the strings `rest` encoded behind `pre` and goes on
with what is left. -/
theorem parse_req_loop_progress (rest : List Bytes) :
    ∀ (pre post : Bytes) (out : List Bytes) (nstr end_ left : Nat),
      (∀ s ∈ rest, s.length < 2 ^ 32) →
      out.length + rest.length ≤ nstr →
      pre.length + (encode_strs rest).length ≤ end_ →
      parse_req_loop (pre ++ (encode_strs rest ++ post)) end_ nstr (rest.length + left)
          pre.length out
        = parse_req_loop (pre ++ (encode_strs rest ++ post)) end_ nstr left
            (pre.length + (encode_strs rest).length) (out ++ rest) := by
  induction rest with
  | nil =>
    intro pre post out nstr end_ left _ _ _
    simp [encode_strs]
  | cons s rest ih =>
    intro pre post out nstr end_ left hlen hn hend
    have hs : s.length < 2 ^ 32 := hlen s (List.mem_cons_self _ _)
    have hrest : ∀ x ∈ rest, x.length < 2 ^ 32 :=
      fun x hx => hlen x (List.mem_cons_of_mem _ hx)
    have hn1 : out.length < nstr := by simp at hn; omega
    have e1 : encode_strs (s :: rest) ++ post
        = le_bytes 4 s.length ++ (s ++ (encode_strs rest ++ post)) := by
      simp [encode_strs]
    have l1 : (encode_strs (s :: rest)).length
        = 4 + s.length + (encode_strs rest).length := by
      simp [encode_strs, le_bytes_length]; omega
    have hf : (s :: rest).length + left = (rest.length + left) + 1 := by
      simp; omega
    rw [hf]
    simp only [parse_req_loop, if_pos hn1]
    rw [l1] at hend ⊢
    rw [e1, read_u32_append pre _ _ _ (by omega), Nat.mod_eq_of_lt hs]
    have e2 : pre ++ (le_bytes 4 s.length ++ (s ++ (encode_strs rest ++ post)))
        = (pre ++ le_bytes 4 s.length) ++ (s ++ (encode_strs rest ++ post)) := by simp
    have l2 : (pre ++ le_bytes 4 s.length).length = pre.length + 4 := by
      simp [le_bytes_length]
    simp only []
    rw [e2, ← l2, read_str_append _ _ _ _ (by rw [l2]; omega)]
    simp only []
    have e3 : (pre ++ le_bytes 4 s.length) ++ (s ++ (encode_strs rest ++ post))
        = ((pre ++ le_bytes 4 s.length) ++ s) ++ (encode_strs rest ++ post) := by simp
    have l3 : ((pre ++ le_bytes 4 s.length) ++ s).length
        = (pre ++ le_bytes 4 s.length).length + s.length := List.length_append _ _
    have l4 : pre.length + (4 + s.length + (encode_strs rest).length)
        = ((pre ++ le_bytes 4 s.length) ++ s).length + (encode_strs rest).length := by
      rw [l3, l2]; omega
    rw [e3, ← l3, l4, ih _ post (out ++ [s]) nstr end_ left hrest
      (by simp at hn ⊢; omega) (by rw [l3, l2]; omega)]
    simp

theorem bad_payload_rejected (payload : Bytes) (hb : BadPayload payload) (rest : Bytes) :
    (parse_req (payload ++ rest) payload.length []).1 = -1 := by
  have hka : k_max_args = 200000 := by decide
  cases hb with
  | too_many nstr tail h1 h2 =>
    unfold parse_req
    have h0 := read_u32_append [] (tail ++ rest) nstr (le_bytes 4 nstr ++ tail).length
      (by simp [le_bytes_length])
    simp only [List.nil_append, List.length_nil, Nat.zero_add] at h0
    rw [List.append_assoc, h0, Nat.mod_eq_of_lt h2]
    simp only []
    rw [if_pos h1]
  | cut_count h1 =>
    unfold parse_req read_u32
    rw [if_pos (by omega)]
  | cut_length nstr args part h1 h2 h3 h4 =>
    unfold parse_req
    have hl4 : (le_bytes 4 nstr).length = 4 := le_bytes_length _ _
    have h0 := read_u32_append [] (encode_strs args ++ part ++ rest) nstr
      (le_bytes 4 nstr ++ (encode_strs args ++ part)).length (by simp [le_bytes_length])
    simp only [List.nil_append, List.length_nil, Nat.zero_add] at h0
    have ea : le_bytes 4 nstr ++ (encode_strs args ++ part) ++ rest
        = le_bytes 4 nstr ++ (encode_strs args ++ part ++ rest) := by simp
    rw [ea, h0, Nat.mod_eq_of_lt (by omega)]
    simp only []
    rw [if_neg (by omega)]
    have hf : nstr - ([] : List Bytes).length = args.length + (nstr - args.length - 1 + 1) := by
      simp; omega
    have ea2 : le_bytes 4 nstr ++ (encode_strs args ++ part ++ rest)
        = le_bytes 4 nstr ++ (encode_strs args ++ (part ++ rest)) := by simp
    have hp := parse_req_loop_progress args (le_bytes 4 nstr) (part ++ rest) [] nstr
      (le_bytes 4 nstr ++ (encode_strs args ++ part)).length (nstr - args.length - 1 + 1)
      h3 (by simp; omega) (by simp)
    rw [hl4] at hp
    rw [hf, ea2, hp]
    simp only [parse_req_loop, List.nil_append]
    rw [if_pos h2]
    have : read_u32 (le_bytes 4 nstr ++ (encode_strs args ++ (part ++ rest)))
        (4 + (encode_strs args).length)
        (le_bytes 4 nstr ++ (encode_strs args ++ part)).length = none := by
      unfold read_u32
      rw [if_pos (by simp [hl4]; omega)]
    rw [this]
  | cut_string nstr args n part h1 h2 h3 h4 h5 =>
    unfold parse_req
    have hl4 : (le_bytes 4 nstr).length = 4 := le_bytes_length _ _
    have hn4 : (le_bytes 4 n).length = 4 := le_bytes_length _ _
    have h0 := read_u32_append [] (encode_strs args ++ (le_bytes 4 n ++ part) ++ rest) nstr
      (le_bytes 4 nstr ++ (encode_strs args ++ (le_bytes 4 n ++ part))).length
      (by simp [le_bytes_length])
    simp only [List.nil_append, List.length_nil, Nat.zero_add] at h0
    have ea : le_bytes 4 nstr ++ (encode_strs args ++ (le_bytes 4 n ++ part)) ++ rest
        = le_bytes 4 nstr ++ (encode_strs args ++ (le_bytes 4 n ++ part) ++ rest) := by simp
    rw [ea, h0, Nat.mod_eq_of_lt (by omega)]
    simp only []
    rw [if_neg (by omega)]
    have hf : nstr - ([] : List Bytes).length = args.length + (nstr - args.length - 1 + 1) := by
      simp; omega
    have ea2 : le_bytes 4 nstr ++ (encode_strs args ++ (le_bytes 4 n ++ part) ++ rest)
        = le_bytes 4 nstr ++ (encode_strs args ++ (le_bytes 4 n ++ (part ++ rest))) := by simp
    have hp := parse_req_loop_progress args (le_bytes 4 nstr) (le_bytes 4 n ++ (part ++ rest))
      [] nstr (le_bytes 4 nstr ++ (encode_strs args ++ (le_bytes 4 n ++ part))).length
      (nstr - args.length - 1 + 1) h3 (by simp; omega) (by simp)
    rw [hl4] at hp
    rw [hf, ea2, hp]
    simp only [parse_req_loop, List.nil_append]
    rw [if_pos h2]
    have e3 : le_bytes 4 nstr ++ (encode_strs args ++ (le_bytes 4 n ++ (part ++ rest)))
        = (le_bytes 4 nstr ++ encode_strs args) ++ (le_bytes 4 n ++ (part ++ rest)) := by simp
    have l3 : (le_bytes 4 nstr ++ encode_strs args).length = 4 + (encode_strs args).length := by
      simp [hl4]
    have hend : (le_bytes 4 nstr ++ (encode_strs args ++ (le_bytes 4 n ++ part))).length
        = 4 + (encode_strs args).length + 4 + part.length := by
      simp [hl4, hn4]; omega
    rw [e3, ← l3, read_u32_append _ _ _ _ (by rw [l3, hend]; omega), Nat.mod_eq_of_lt h4]
    simp only []
    have : read_str ((le_bytes 4 nstr ++ encode_strs args) ++ (le_bytes 4 n ++ (part ++ rest)))
        ((le_bytes 4 nstr ++ encode_strs args).length + 4)
        (le_bytes 4 nstr ++ (encode_strs args ++ (le_bytes 4 n ++ part))).length n = none := by
      unfold read_str
      rw [if_pos (by rw [l3, hend]; omega)]
    rw [this]
  | trailing args extra h1 h2 h3 =>
    unfold parse_req encode_payload
    have hl4 : (le_bytes 4 args.length).length = 4 := le_bytes_length _ _
    have h0 := read_u32_append [] (encode_strs args ++ extra ++ rest) args.length
      (le_bytes 4 args.length ++ encode_strs args ++ extra).length (by simp [le_bytes_length])
    simp only [List.nil_append, List.length_nil, Nat.zero_add] at h0
    have ea : le_bytes 4 args.length ++ encode_strs args ++ extra ++ rest
        = le_bytes 4 args.length ++ (encode_strs args ++ extra ++ rest) := by simp
    rw [ea, h0, Nat.mod_eq_of_lt (by omega)]
    simp only []
    rw [if_neg (by omega)]
    have ea2 : le_bytes 4 args.length ++ (encode_strs args ++ extra ++ rest)
        = le_bytes 4 args.length ++ (encode_strs args ++ (extra ++ rest)) := by simp
    have hp := parse_req_loop_progress args (le_bytes 4 args.length) (extra ++ rest) []
      args.length (le_bytes 4 args.length ++ encode_strs args ++ extra).length 0
      h2 (by simp) (by simp)
    rw [hl4] at hp
    simp only [Nat.add_zero] at hp
    simp only [List.length_nil, Nat.sub_zero]
    rw [ea2, hp]
    simp only [parse_req_loop]
    have hne : extra.length ≠ 0 := by
      intro h; exact h3 (List.length_eq_zero.mp h)
    have hlen : (le_bytes 4 args.length ++ encode_strs args ++ extra).length
        = 4 + (encode_strs args).length + extra.length := by
      simp [hl4]; omega
    rw [if_pos (by rw [hlen]; omega)]

/-- C3 (framing violations).  For every connection whose inbound buffer starts
with a length header `total_len > 32 MiB`, or with a complete frame whose
payload has `nstr > 200000`, or is cut short inside the count, a length or a
string, or has bytes left over after the last string, `try_one_request` returns
false, sets `want_close` and leaves the outbound buffer, the rest of the
connection and the global state unchanged.  A header with `total_len` exactly
32 MiB is not rejected for its size: an incomplete such frame waits with
`want_close` untouched, a complete well-formed one is answered. -/
theorem framing_violation_closes (strtod : Bytes → Dbl × Nat) (now : Nat) (conn : Conn)
    (g : GData) (hv : FramingViolation conn.incoming) :
    try_one_request strtod now conn g = (false, { conn with want_close := true }, g)
    ∧ (∀ c : Conn, 4 ≤ c.incoming.length → le_val (c.incoming.take 4) = k_max_msg →
        c.incoming.length < 4 + k_max_msg →
        try_one_request strtod now c g = (false, c, g))
    ∧ (∀ (c : Conn) (args : List Bytes) (rest : Bytes), args.length ≤ k_max_args →
        (encode_payload args).length = k_max_msg →
        c.incoming = encode_frame args ++ rest →
        (try_one_request strtod now c g).1 = true) := by
  have hk : k_max_msg = 33554432 := by decide
  refine ⟨?_, ?_, ?_⟩
  · generalize hinc : conn.incoming = inc at hv
    cases hv with
    | too_long len rest h1 h2 =>
      have h4 : (le_bytes 4 len).length = 4 := le_bytes_length _ _
      unfold try_one_request
      rw [hinc, if_neg (by simp [h4])]
      simp only [le_val_take_le_bytes len rest h2]
      rw [if_pos h1]
    | bad_payload payload rest h1 h2 =>
      have h4 : (le_bytes 4 payload.length).length = 4 := le_bytes_length _ _
      have hrej := bad_payload_rejected payload h2 rest
      unfold try_one_request
      rw [hinc, if_neg (by simp [h4])]
      simp only [le_val_take_le_bytes payload.length _ (by omega : payload.length < 2 ^ 32)]
      rw [if_neg (by omega), Nat.mod_eq_of_lt (by omega), if_neg (by simp [h4]),
        List.drop_left' h4]
      rw [if_pos (by rw [hrej]; decide)]
  · intro c h4 hlen hshort
    unfold try_one_request
    rw [if_neg (by omega)]
    simp only [hlen]
    rw [if_neg (by omega), if_pos (by rw [hk]; omega)]
  · intro c args rest hn hp hin
    rw [try_one_request_frame strtod now c g args rest hn (by omega) hin]

/-- C3 at the spec's scenario: a header announcing `32·2^20 + 1` bytes. -/
theorem framing_violation_closes_witness :
    try_one_request sample_strtod 0 (conn_with (le_bytes 4 (32 * 2 ^ 20 + 1) ++ [])) g_init
      = (false,
         { conn_with (le_bytes 4 (32 * 2 ^ 20 + 1) ++ []) with want_close := true }, g_init) :=
  (framing_violation_closes sample_strtod 0 (conn_with (le_bytes 4 (32 * 2 ^ 20 + 1) ++ []))
    g_init (FramingViolation.too_long (32 * 2 ^ 20 + 1) [] (by decide) (by decide))).1

theorem le_bytes_ne_nil_len (v : Value) : 1 ≤ v.encode.length := by
  cases v <;> simp [Value.encode]

mutual
theorem sized_of_encode_length : ∀ v : Value, v.encode.length < 2 ^ 32 → v.Sized
  | .nil, _ => trivial
  | .err code msg, h => by
    simp [Value.encode, le_bytes_length] at h
    show msg.length < 2 ^ 32
    omega
  | .str s, h => by
    simp [Value.encode, le_bytes_length] at h
    show s.length < 2 ^ 32
    omega
  | .int _, _ => trivial
  | .dbl _, _ => trivial
  | .arr xs, h => by
    simp [Value.encode, le_bytes_length] at h
    have := sized_list_of_encode_length xs (by omega)
    exact ⟨by have := this.2; show xs.length < 2 ^ 32; omega, this.1⟩
theorem sized_list_of_encode_length : ∀ xs : List Value,
    (Value.encode_list xs).length < 2 ^ 32 →
      Value.Sized_list xs ∧ xs.length ≤ (Value.encode_list xs).length
  | [], _ => ⟨trivial, by simp⟩
  | v :: vs, h => by
    simp [Value.encode_list] at h
    have h1 := sized_of_encode_length v (by omega)
    have h2 := sized_list_of_encode_length vs (by omega)
    have h3 := le_bytes_ne_nil_len v
    refine ⟨⟨h1, h2.1⟩, ?_⟩
    simp [Value.encode_list]
    omega
end

/-- Every reply body that leaves the server is the encoding of one sized
tagged value, at most 32 MiB long. -/
theorem capped_reply_is_value (strtod : Bytes → Dbl × Nat) (now : Nat) (cmd : List Bytes)
    (g : GData) :
    ∃ v : Value, v.Sized ∧ capped_body (reply_of strtod now cmd g) = v.encode := by
  obtain ⟨v, hv⟩ := do_request_replies strtod now cmd g
  have hr : reply_of strtod now cmd g = v.encode := by
    unfold reply_of; rw [hv []]; simp
  rw [hr]
  unfold capped_body
  by_cases hbig : v.encode.length > k_max_msg
  · rw [if_pos hbig]
    refine ⟨_, ?_, rfl⟩
    show (ascii "response is too big.").length < 2 ^ 32
    decide
  · rw [if_neg hbig]
    have hk : k_max_msg = 33554432 := by decide
    exact ⟨v, sized_of_encode_length v (by omega), rfl⟩

theorem try_one_request_incomplete (strtod : Bytes → Dbl × Nat) (now : Nat) (conn : Conn)
    (g : GData) (h : Incomplete conn.incoming) :
    try_one_request strtod now conn g = (false, conn, g) := by
  have hk : k_max_msg = 33554432 := by decide
  unfold try_one_request
  rcases h with h | ⟨h1, h2⟩
  · rw [if_pos h]
  · by_cases h4 : conn.incoming.length < 4
    · rw [if_pos h4]
    · rw [if_neg h4]
      simp only []
      rw [if_neg (by omega), if_pos (by rw [Nat.mod_eq_of_lt (by omega)]; omega)]

theorem consume_loop_serves (strtod : Bytes → Dbl × Nat) (clock : Nat → Nat)
    (reqs : List (List Bytes)) :
    ∀ (rem : Bytes) (conn : Conn) (g : GData) (fuel i : Nat),
      (∀ args ∈ reqs, args.length ≤ k_max_args ∧ (encode_payload args).length ≤ k_max_msg) →
      Incomplete rem →
      conn.incoming = concat_bytes (reqs.map encode_frame) ++ rem →
      reqs.length < fuel →
      consume_loop strtod clock fuel i conn g
        = ({ conn with
              outgoing := conn.outgoing
                ++ concat_bytes ((serve_replies strtod clock i reqs g).map frame_body),
              incoming := rem },
           serve_state strtod clock i reqs g) := by
  induction reqs with
  | nil =>
    intro rem conn g fuel i _ hrem hin hfuel
    obtain ⟨fuel, rfl⟩ : ∃ f, fuel = f + 1 := ⟨fuel - 1, by simp at hfuel; omega⟩
    simp only [List.map_nil, concat_bytes, List.nil_append] at hin
    simp only [consume_loop, try_one_request_incomplete strtod (clock i) conn g (hin ▸ hrem)]
    simp [serve_replies, serve_state, concat_bytes, ← hin]
  | cons args reqs ih =>
    intro rem conn g fuel i hwf hrem hin hfuel
    obtain ⟨fuel, rfl⟩ : ∃ f, fuel = f + 1 := ⟨fuel - 1, by simp at hfuel; omega⟩
    have ha := hwf args (List.mem_cons_self _ _)
    have hin1 : conn.incoming
        = encode_frame args ++ (concat_bytes (reqs.map encode_frame) ++ rem) := by
      rw [hin]; simp [concat_bytes]
    simp only [consume_loop, try_one_request_frame strtod (clock i) conn g args _ ha.1 ha.2 hin1]
    simp only [if_true]
    rw [ih rem _ _ fuel (i + 1) (fun a h => hwf a (List.mem_cons_of_mem _ h)) hrem rfl
      (by simp at hfuel; omega)]
    simp [serve_replies, serve_state, concat_bytes]

theorem serve_replies_length (strtod : Bytes → Dbl × Nat) (clock : Nat → Nat)
    (reqs : List (List Bytes)) :
    ∀ (i : Nat) (g : GData), (serve_replies strtod clock i reqs g).length = reqs.length := by
  induction reqs with
  | nil => intro i g; rfl
  | cons a reqs ih => intro i g; simp [serve_replies, ih]

theorem serve_replies_values (strtod : Bytes → Dbl × Nat) (clock : Nat → Nat)
    (reqs : List (List Bytes)) :
    ∀ (i : Nat) (g : GData), ∀ body ∈ serve_replies strtod clock i reqs g,
      ∃ v : Value, v.Sized ∧ body = v.encode ∧ body.length ≤ k_max_msg := by
  induction reqs with
  | nil => intro i g body h; simp [serve_replies] at h
  | cons a reqs ih =>
    intro i g body h
    simp only [serve_replies, List.mem_cons] at h
    rcases h with h | h
    · obtain ⟨v, hv1, hv2⟩ := capped_reply_is_value strtod (clock i) a g
      exact ⟨v, hv1, by rw [h, hv2], by rw [h]; exact capped_body_length_le _⟩
    · exact ih _ _ body h

/-- C4 (the consume loop).  For every connection whose inbound buffer is the
concatenation of `n ≥ 0` complete well-formed request frames followed by an
incomplete remainder, the loop `while (try_one_request(conn)) {}`, given room
for `n + 1` iterations, appends to the outbound buffer exactly `n` responses,
the `j`-th being the reply to the `j`-th request (in the state the earlier
requests left), each a `u32` length followed by exactly that many bytes, which
encode a single sized tagged value; it leaves exactly the remainder in the
inbound buffer, does not touch `want_close`, and leaves the state the requests
produce. -/
theorem consume_loop_frames (strtod : Bytes → Dbl × Nat) (clock : Nat → Nat)
    (reqs : List (List Bytes)) (rem : Bytes) (conn : Conn) (g : GData) (fuel i : Nat)
    (hwf : ∀ args ∈ reqs,
      args.length ≤ k_max_args ∧ (encode_payload args).length ≤ k_max_msg)
    (hrem : Incomplete rem)
    (hin : conn.incoming = concat_bytes (reqs.map encode_frame) ++ rem)
    (hfuel : reqs.length < fuel) :
    (consume_loop strtod clock fuel i conn g).1.outgoing
        = conn.outgoing
          ++ concat_bytes ((serve_replies strtod clock i reqs g).map
              (fun body => le_bytes 4 body.length ++ body))
    ∧ (serve_replies strtod clock i reqs g).length = reqs.length
    ∧ (∀ body ∈ serve_replies strtod clock i reqs g,
        le_val (le_bytes 4 body.length) = body.length
        ∧ ∃ v : Value, v.Sized ∧ body = v.encode)
    ∧ (consume_loop strtod clock fuel i conn g).1.incoming = rem
    ∧ (consume_loop strtod clock fuel i conn g).1.want_close = conn.want_close
    ∧ (consume_loop strtod clock fuel i conn g).2 = serve_state strtod clock i reqs g := by
  have hk : k_max_msg = 33554432 := by decide
  rw [consume_loop_serves strtod clock reqs rem conn g fuel i hwf hrem hin hfuel]
  refine ⟨rfl, serve_replies_length strtod clock reqs i g, ?_, rfl, rfl, rfl⟩
  intro body hb
  obtain ⟨v, hv1, hv2, hv3⟩ := serve_replies_values strtod clock reqs i g body hb
  exact ⟨le_val_le_bytes_of_lt 4 _ (by norm_num; omega), v, hv1, hv2⟩

/-- C4 at a concrete input: `set a 1`, `get a`, then two stray bytes. -/
theorem consume_loop_frames_witness :
    (consume_loop sample_strtod (fun _ => 0) 3 0
        (conn_with (concat_bytes
          ([[ascii "set", [97], [49]], [ascii "get", [97]]].map encode_frame) ++ [1, 2]))
        g_init).1.outgoing
      = [1, 0, 0, 0, 0, 6, 0, 0, 0, 2, 1, 0, 0, 0, 49]
    ∧ (consume_loop sample_strtod (fun _ => 0) 3 0
        (conn_with (concat_bytes
          ([[ascii "set", [97], [49]], [ascii "get", [97]]].map encode_frame) ++ [1, 2]))
        g_init).1.incoming = [1, 2] :=
  have h := consume_loop_frames sample_strtod (fun _ => 0)
    [[ascii "set", [97], [49]], [ascii "get", [97]]] [1, 2]
    (conn_with (concat_bytes
      ([[ascii "set", [97], [49]], [ascii "get", [97]]].map encode_frame) ++ [1, 2]))
    g_init 3 0 (by decide) (Or.inl (by decide)) rfl (by decide)
  ⟨h.1.trans (by decide), h.2.2.2.1⟩

theorem entry_update_keys (db : HMap) (k : Bytes) (f : Entry → Entry)
    (hf : ∀ x, (f x).key = x.key) :
    (entry_update db k f).map Entry.key = db.map Entry.key := by
  induction db with
  | nil => rfl
  | cons x rest ih =>
    simp only [entry_update]
    split
    · simp [hf]
    · simp [ih]

theorem ref_write_keys (db : HMap) (ref : Bytes) (pos : Nat) :
    (ref_write db ref pos).map Entry.key = db.map Entry.key :=
  entry_update_keys db ref _ (fun _ => rfl)

theorem heap_up_keys (fuel : Nat) :
    ∀ (a : List HeapItem) (db : HMap) (pos : Nat),
      (heap_up fuel a db pos).2.map Entry.key = db.map Entry.key := by
  induction fuel with
  | zero => intro a db pos; simp [heap_up, ref_write_keys]
  | succ fuel ih =>
    intro a db pos
    simp only [heap_up]
    split
    · rw [ih, ref_write_keys]
    · simp [ref_write_keys]

theorem heap_down_keys (fuel : Nat) :
    ∀ (a : List HeapItem) (db : HMap) (pos len : Nat),
      (heap_down fuel a db pos len).2.map Entry.key = db.map Entry.key := by
  induction fuel with
  | zero => intro a db pos len; simp [heap_down, ref_write_keys]
  | succ fuel ih =>
    intro a db pos len
    simp only [heap_down]
    split
    · simp [ref_write_keys]
    · rw [ih, ref_write_keys]

theorem heap_update_keys (a : List HeapItem) (db : HMap) (pos len : Nat) :
    (heap_update a db pos len).2.map Entry.key = db.map Entry.key := by
  unfold heap_update
  split
  · exact heap_up_keys _ _ _ _
  · exact heap_down_keys _ _ _ _ _

theorem heap_delete_keys (a : List HeapItem) (db : HMap) (pos : Nat) :
    (heap_delete a db pos).2.map Entry.key = db.map Entry.key := by
  unfold heap_delete
  simp only []
  split
  · exact heap_update_keys _ _ _ _
  · rfl

theorem heap_upsert_keys (a : List HeapItem) (db : HMap) (pos : Option Nat) (t : HeapItem) :
    (heap_upsert a db pos t).2.map Entry.key = db.map Entry.key := by
  unfold heap_upsert
  cases pos with
  | none => exact heap_update_keys _ _ _ _
  | some p =>
    simp only []
    split <;> exact heap_update_keys _ _ _ _

theorem entry_set_ttl_keys (now : Nat) (ent : Entry) (ttl_ms : Int) (g : GData) :
    (entry_set_ttl now ent ttl_ms g).db.map Entry.key = g.db.map Entry.key := by
  unfold entry_set_ttl
  split
  · simp only []
    rw [entry_update_keys, heap_delete_keys]
    intro x; rfl
  · split
    · simp only []
      rw [heap_upsert_keys]
    · rfl

theorem entry_del_keys (ent : Entry) (g : GData) :
    (entry_del ent g).db.map Entry.key = g.db.map Entry.key :=
  entry_set_ttl_keys 0 ent (-1) g

theorem find_none_of_not_mem (db : HMap) (k : Bytes) (h : k ∉ db.map Entry.key) :
    db.find? (entry_eq k) = none := by
  rw [List.find?_eq_none]
  intro x hx hk
  apply h
  have : x.key = k := by simpa [entry_eq] using hk
  exact this ▸ List.mem_map_of_mem Entry.key hx

theorem find_some_key (db : HMap) (k : Bytes) (e : Entry)
    (h : db.find? (entry_eq k) = some e) : e.key = k ∧ e ∈ db := by
  have h1 := List.find?_some h
  have h2 := List.mem_of_find?_eq_some h
  exact ⟨by simpa [entry_eq] using h1, h2⟩

theorem keys_eraseP_not_mem (db : HMap) (k : Bytes) (hnd : KeysNodup db) :
    k ∉ (db.eraseP (entry_eq k)).map Entry.key := by
  unfold KeysNodup at hnd
  induction db with
  | nil => simp
  | cons x rest ih =>
    simp only [List.map_cons, List.nodup_cons] at hnd
    by_cases hx : entry_eq k x = true
    · rw [List.eraseP_cons_of_pos hx]
      have : x.key = k := by simpa [entry_eq] using hx
      rw [← this]; exact hnd.1
    · rw [List.eraseP_cons_of_neg hx]
      simp only [List.map_cons, List.mem_cons, not_or]
      refine ⟨?_, ih hnd.2⟩
      intro h; apply hx; simp [entry_eq, h]

theorem keys_eraseP_nodup (db : HMap) (p : Entry → Bool) (hnd : KeysNodup db) :
    KeysNodup (db.eraseP p) := by
  unfold KeysNodup at *
  exact List.Nodup.sublist (List.Sublist.map _ (List.eraseP_sublist db)) hnd

theorem eraseP_of_find_none (db : HMap) (p : Entry → Bool) (h : db.find? p = none) :
    db.eraseP p = db := by
  rw [List.find?_eq_none] at h
  exact List.eraseP_of_forall_not h

theorem not_mem_keys_of_find_none (db : HMap) (k : Bytes)
    (h : db.find? (entry_eq k) = none) : k ∉ db.map Entry.key := by
  rw [List.find?_eq_none] at h
  intro hk
  obtain ⟨x, hx, hxk⟩ := List.mem_map.mp hk
  exact h x hx (by simp [entry_eq, hxk])

theorem do_set_keys_nodup (cmd : List Bytes) (out : Buffer) (g : GData)
    (hnd : KeysNodup g.db) : KeysNodup (do_set cmd out g).2.db := by
  unfold do_set
  cases hl : hm_lookup g.db (entry_eq (arg cmd 1)) with
  | none =>
    simp only [hm_insert]
    unfold KeysNodup
    simp only [List.map_cons, List.nodup_cons]
    exact ⟨not_mem_keys_of_find_none g.db _ hl, hnd⟩
  | some e =>
    simp only []
    split
    · exact hnd
    · unfold KeysNodup
      simp only []
      rw [entry_update_keys]
      · exact hnd
      · intro x; rfl

/-- The effect of `del k` on a state with unique keys where `k` is present. -/
theorem do_del_present (cmd : List Bytes) (out : Buffer) (g : GData) (e : Entry)
    (hnd : KeysNodup g.db)
    (he : hm_lookup g.db (entry_eq (arg cmd 1)) = some e) :
    (do_del cmd out g).1 = out ++ (Value.int 1).encode
    ∧ hm_lookup (do_del cmd out g).2.db (entry_eq (arg cmd 1)) = none := by
  unfold do_del
  have h1 : (hm_delete g.db (entry_eq (arg cmd 1))).1 = some e := he
  simp only [h1, out_int_eq]
  refine ⟨trivial, ?_⟩
  apply find_none_of_not_mem
  rw [entry_del_keys]
  exact keys_eraseP_not_mem g.db _ hnd

theorem do_del_absent (cmd : List Bytes) (out : Buffer) (g : GData)
    (he : hm_lookup g.db (entry_eq (arg cmd 1)) = none) :
    do_del cmd out g = (out ++ (Value.int 0).encode, g) := by
  unfold do_del
  have h1 : (hm_delete g.db (entry_eq (arg cmd 1))).1 = none := he
  have h2 : (hm_delete g.db (entry_eq (arg cmd 1))).2 = g.db := eraseP_of_find_none _ _ he
  simp only [h1, h2, out_int_eq]

theorem do_get_absent (cmd : List Bytes) (out : Buffer) (g : GData)
    (he : hm_lookup g.db (entry_eq (arg cmd 1)) = none) :
    do_get cmd out g = (out ++ Value.nil.encode, g) := by
  unfold do_get
  simp only [he, out_nil_eq]

theorem do_ttl_absent (now : Nat) (cmd : List Bytes) (out : Buffer) (g : GData)
    (he : hm_lookup g.db (entry_eq (arg cmd 1)) = none) :
    do_ttl now cmd out g = (out ++ (Value.int (-2)).encode, g) := by
  unfold do_ttl
  simp only [he, out_int_eq]

/-- C5 (del).  For every keyspace state with unique keys and every key `k`: if
`k` is present (whatever it holds, with or without a TTL) then `del k` replies
INT 1 and afterwards `get k` replies NIL, `pttl k` replies INT -2 and a second
`del k` replies INT 0, none of the three changing the state; if `k` is absent,
`del k` replies INT 0 and changes nothing.  In particular after `set k v` on a
key that was absent or held a string, `del k` replies INT 1 and `get k` NIL. -/
theorem del_then_absent (strtod : Bytes → Dbl × Nat) (now1 now2 now3 now4 now5 : Nat)
    (g : GData) (k : Bytes) (out1 out2 out3 out4 : Buffer) (hnd : KeysNodup g.db) :
    (∀ e, hm_lookup g.db (entry_eq k) = some e →
      (do_request strtod now1 [ascii "del", k] out1 g).1 = out1 ++ (Value.int 1).encode
      ∧ do_request strtod now2 [ascii "get", k] out2
            (do_request strtod now1 [ascii "del", k] out1 g).2
          = (out2 ++ Value.nil.encode, (do_request strtod now1 [ascii "del", k] out1 g).2)
      ∧ do_request strtod now3 [ascii "pttl", k] out3
            (do_request strtod now1 [ascii "del", k] out1 g).2
          = (out3 ++ (Value.int (-2)).encode,
              (do_request strtod now1 [ascii "del", k] out1 g).2)
      ∧ do_request strtod now4 [ascii "del", k] out4
            (do_request strtod now1 [ascii "del", k] out1 g).2
          = (out4 ++ (Value.int 0).encode,
              (do_request strtod now1 [ascii "del", k] out1 g).2))
    ∧ (hm_lookup g.db (entry_eq k) = none →
        do_request strtod now1 [ascii "del", k] out1 g = (out1 ++ (Value.int 0).encode, g))
    ∧ (∀ v : Bytes, (∀ e, hm_lookup g.db (entry_eq k) = some e → e.type = T_STR) →
        (do_request strtod now1 [ascii "del", k] out1
            (do_request strtod now5 [ascii "set", k, v] out4 g).2).1
          = out1 ++ (Value.int 1).encode
        ∧ (do_request strtod now2 [ascii "get", k] out2
            (do_request strtod now1 [ascii "del", k] out1
              (do_request strtod now5 [ascii "set", k, v] out4 g).2).2).1
          = out2 ++ Value.nil.encode) := by
  have key : ∀ (g0 : GData) (e : Entry), KeysNodup g0.db →
      hm_lookup g0.db (entry_eq k) = some e →
      (do_request strtod now1 [ascii "del", k] out1 g0).1 = out1 ++ (Value.int 1).encode
      ∧ hm_lookup (do_request strtod now1 [ascii "del", k] out1 g0).2.db (entry_eq k)
          = none := by
    intro g0 e h0 he
    rw [do_request_del]
    exact do_del_present [ascii "del", k] out1 g0 e h0 he
  refine ⟨?_, ?_, ?_⟩
  · intro e he
    obtain ⟨h1, h2⟩ := key g e hnd he
    refine ⟨h1, ?_, ?_, ?_⟩
    · rw [do_request_get]; exact do_get_absent _ _ _ h2
    · rw [do_request_pttl]; exact do_ttl_absent _ _ _ _ h2
    · rw [do_request_del]; exact do_del_absent _ _ _ h2
  · intro he
    rw [do_request_del]; exact do_del_absent _ _ _ he
  · intro v hk
    have hs : KeysNodup (do_request strtod now5 [ascii "set", k, v] out4 g).2.db := by
      rw [do_request_set]; exact do_set_keys_nodup _ _ _ hnd
    have hp : ∃ e, hm_lookup (do_request strtod now5 [ascii "set", k, v] out4 g).2.db
        (entry_eq k) = some e := by
      rw [do_request_set]
      unfold do_set
      simp only [arg, List.getElem?_cons_succ, List.getElem?_cons_zero, Option.getD_some]
      cases hl : hm_lookup g.db (entry_eq k) with
      | none => simp [hm_lookup, hm_insert, entry_eq, entry_new]
      | some e =>
        have ht := hk e hl
        simp only [ht, ne_eq, not_true_eq_false, if_false]
        exact ⟨_, find_entry_update g.db k _ e (fun _ => rfl) hl⟩
    obtain ⟨e, he⟩ := hp
    obtain ⟨h1, h2⟩ := key _ e hs he
    refine ⟨h1, ?_⟩
    rw [do_request_get, do_get_absent _ _ _ h2]

/-- C5 at a concrete input: `del a` on the sample state, where "a" holds a
string with a TTL. -/
theorem del_then_absent_witness :
    KeysNodup g_sample.db
    ∧ (do_request sample_strtod 0 [ascii "del", [97]] [] g_sample).1
        = [] ++ (Value.int 1).encode
    ∧ do_request sample_strtod 0 [ascii "get", [97]] []
          (do_request sample_strtod 0 [ascii "del", [97]] [] g_sample).2
        = ([] ++ Value.nil.encode,
            (do_request sample_strtod 0 [ascii "del", [97]] [] g_sample).2) :=
  have h := (del_then_absent sample_strtod 0 0 0 0 0 g_sample [97] [] [] [] []
    (by unfold KeysNodup; decide)).1 _ (by decide : hm_lookup g_sample.db (entry_eq [97]) = some
      { key := [97], heap_idx := some 0, type := T_STR, str := [49], zset := { nodes := [] } })
  ⟨by unfold KeysNodup; decide, h.1, h.2.1⟩

theorem heap_at_eq (a : List HeapItem) (i : Nat) (h : i < a.length) : heap_at a i = a[i] := by
  simp [heap_at, List.getElem?_eq_getElem h]

theorem heap_at_mem (a : List HeapItem) (i : Nat) (h : i < a.length) : heap_at a i ∈ a := by
  rw [heap_at_eq a i h]; exact List.getElem_mem h

theorem heap_at_set (a : List HeapItem) (i k : Nat) (x : HeapItem) :
    heap_at (a.set i x) k = if i = k ∧ i < a.length then x else heap_at a k := by
  unfold heap_at
  rw [List.getElem?_set]
  by_cases h : i = k
  · subst h
    by_cases h2 : i < a.length
    · simp [h2]
    · simp [h2, List.getElem?_eq_none (Nat.le_of_not_lt h2)]
  · simp [h]

theorem heap_swap_length (a : List HeapItem) (i j : Nat) :
    (heap_swap a i j).length = a.length := by
  simp [heap_swap]

theorem heap_at_swap (a : List HeapItem) (i j k : Nat) (hi : i < a.length)
    (hj : j < a.length) :
    heap_at (heap_swap a i j) k
      = if k = j then heap_at a i else if k = i then heap_at a j else heap_at a k := by
  unfold heap_swap
  rw [heap_at_set, heap_at_set]
  simp only [List.length_set]
  by_cases h1 : k = j
  · subst h1; simp [hj]
  · by_cases h2 : k = i
    · subst h2
      have : ¬ (j = k) := fun h => h1 h.symm
      simp [this, hi, h1]
    · have h3 : ¬ (j = k) := fun h => h1 h.symm
      have h4 : ¬ (i = k) := fun h => h2 h.symm
      simp [h1, h2, h3, h4]

theorem heap_swap_perm (a : List HeapItem) (i j : Nat) (hi : i < a.length)
    (hj : j < a.length) : (heap_swap a i j).Perm a := by
  rw [List.perm_iff_count]
  intro b
  unfold heap_swap
  have hj1 : j < (a.set i (heap_at a j)).length := by simp [hj]
  rw [List.count_set _ _ _ _ hj1, List.count_set _ _ _ _ hi]
  have e1 : (a.set i (heap_at a j))[j] = a[j] := by
    rw [List.getElem_set]
    split
    · rename_i h; subst h; exact heap_at_eq a _ hj
    · rfl
  rw [e1, heap_at_eq a i hi, heap_at_eq a j hj]
  have b1 : (if (a[i] == b) = true then 1 else 0) ≤ a.count b := by
    have := List.boole_getElem_le_countP (fun x => x == b) a i hi
    simpa [List.count_eq_countP] using this
  omega

theorem heap_parent_lt (i : Nat) (h : 0 < i) : heap_parent i < i := by
  unfold heap_parent; omega

theorem heap_up_perm (fuel : Nat) :
    ∀ (a : List HeapItem) (db : HMap) (pos : Nat), pos < a.length →
      (heap_up fuel a db pos).1.Perm a := by
  induction fuel with
  | zero => intro a db pos _; exact List.Perm.refl _
  | succ fuel ih =>
    intro a db pos hpos
    simp only [heap_up]
    split
    · rename_i h
      have hpar : heap_parent pos < a.length := by
        have := heap_parent_lt pos h.1; omega
      exact (ih _ _ _ (by rw [heap_swap_length]; exact hpar)).trans
        (heap_swap_perm a pos _ hpos hpar)
    · exact List.Perm.refl _

theorem heap_min_pos_spec (a : List HeapItem) (pos len : Nat) :
    (heap_min_pos a pos len = pos
      ∨ (heap_min_pos a pos len = heap_left pos ∧ heap_left pos < len
          ∧ (heap_at a (heap_left pos)).val < (heap_at a pos).val)
      ∨ (heap_min_pos a pos len = heap_right pos ∧ heap_right pos < len
          ∧ (heap_at a (heap_right pos)).val < (heap_at a pos).val))
    ∧ (heap_at a (heap_min_pos a pos len)).val ≤ (heap_at a pos).val
    ∧ (heap_left pos < len →
        (heap_at a (heap_min_pos a pos len)).val ≤ (heap_at a (heap_left pos)).val)
    ∧ (heap_right pos < len →
        (heap_at a (heap_min_pos a pos len)).val ≤ (heap_at a (heap_right pos)).val) := by
  unfold heap_min_pos
  simp only []
  by_cases h1 : heap_left pos < len ∧ (heap_at a (heap_left pos)).val < (heap_at a pos).val
  · rw [if_pos h1]
    by_cases h2 : heap_right pos < len
        ∧ (heap_at a (heap_right pos)).val < (heap_at a (heap_left pos)).val
    · rw [if_pos h2]
      refine ⟨Or.inr (Or.inr ⟨rfl, h2.1, by omega⟩), by omega, fun _ => by omega, fun _ => by omega⟩
    · rw [if_neg h2]
      refine ⟨Or.inr (Or.inl ⟨rfl, h1.1, h1.2⟩), by omega, fun _ => by omega, fun h => ?_⟩
      have := not_and.mp h2 h; omega
  · rw [if_neg h1]
    by_cases h2 : heap_right pos < len ∧ (heap_at a (heap_right pos)).val < (heap_at a pos).val
    · rw [if_pos h2]
      refine ⟨Or.inr (Or.inr ⟨rfl, h2.1, h2.2⟩), by omega, fun h => ?_, fun _ => by omega⟩
      have := not_and.mp h1 h; omega
    · rw [if_neg h2]
      refine ⟨Or.inl rfl, by omega, fun h => ?_, fun h => ?_⟩
      · have := not_and.mp h1 h; omega
      · have := not_and.mp h2 h; omega

theorem heap_min_pos_cases (a : List HeapItem) (pos len : Nat) :
    heap_min_pos a pos len = pos
    ∨ (heap_min_pos a pos len = heap_left pos ∧ heap_left pos < len)
    ∨ (heap_min_pos a pos len = heap_right pos ∧ heap_right pos < len) := by
  rcases (heap_min_pos_spec a pos len).1 with h | h | h
  · exact Or.inl h
  · exact Or.inr (Or.inl ⟨h.1, h.2.1⟩)
  · exact Or.inr (Or.inr ⟨h.1, h.2.1⟩)

theorem heap_min_pos_lt (a : List HeapItem) (pos len : Nat) (hpos : pos < len) :
    heap_min_pos a pos len < len := by
  rcases heap_min_pos_cases a pos len with h | h | h
  · rw [h]; exact hpos
  · rw [h.1]; exact h.2
  · rw [h.1]; exact h.2

theorem heap_down_perm (fuel : Nat) :
    ∀ (a : List HeapItem) (db : HMap) (pos len : Nat), pos < len → len ≤ a.length →
      (heap_down fuel a db pos len).1.Perm a := by
  induction fuel with
  | zero => intro a db pos len _ _; exact List.Perm.refl _
  | succ fuel ih =>
    intro a db pos len hpos hlen
    simp only [heap_down]
    split
    · exact List.Perm.refl _
    · have hm := heap_min_pos_lt a pos len hpos
      exact (ih _ _ _ _ hm (by rw [heap_swap_length]; exact hlen)).trans
        (heap_swap_perm a pos _ (by omega) (by omega))

theorem heap_update_perm (a : List HeapItem) (db : HMap) (pos : Nat) (hpos : pos < a.length) :
    (heap_update a db pos a.length).1.Perm a := by
  unfold heap_update
  split
  · exact heap_up_perm _ _ _ _ hpos
  · exact heap_down_perm _ _ _ _ _ hpos (Nat.le_refl _)

theorem heap_parent_child (i pos : Nat) (hi : 0 < i) (h : heap_parent i = pos) :
    i = heap_left pos ∨ i = heap_right pos := by
  unfold heap_parent at h; unfold heap_left heap_right; omega

theorem heap_parent_left (pos : Nat) : heap_parent (heap_left pos) = pos := by
  unfold heap_parent heap_left; omega

theorem heap_parent_right (pos : Nat) : heap_parent (heap_right pos) = pos := by
  unfold heap_parent heap_right; omega

theorem heap_up_ordered (fuel : Nat) :
    ∀ (a : List HeapItem) (db : HMap) (pos : Nat), pos < a.length → pos ≤ fuel →
      UpOk a pos → HeapOrdered (heap_up fuel a db pos).1 := by
  induction fuel with
  | zero =>
    intro a db pos _ hf hok
    simp only [heap_up]
    show HeapOrdered a
    intro i hi h0
    exact hok.1 i hi h0 (by omega)
  | succ fuel ih =>
    intro a db pos hpos hf hok
    simp only [heap_up]
    split
    · rename_i h
      have hpar := heap_parent_lt pos h.1
      have hparlen : heap_parent pos < a.length := by omega
      apply ih _ _ _ (by rw [heap_swap_length]; exact hparlen) (by omega)
      refine ⟨?_, ?_⟩
      · intro i hi h0 hne
        rw [heap_swap_length] at hi
        have hpi := heap_parent_lt i h0
        rw [heap_at_swap a _ _ _ hpos hparlen, heap_at_swap a _ _ _ hpos hparlen]
        rw [if_neg hne]
        by_cases hip : i = pos
        · subst hip
          rw [if_pos rfl, if_pos rfl]
          omega
        · rw [if_neg hip]
          have hi1 := hok.1 i hi h0 hip
          by_cases h1 : heap_parent i = heap_parent pos
          · rw [if_pos h1]
            rw [h1] at hi1
            omega
          · rw [if_neg h1]
            by_cases h2 : heap_parent i = pos
            · rw [if_pos h2]
              exact hok.2 i hi h0 h2 h.1
            · rw [if_neg h2]
              exact hi1
      · intro c hc h0 hpc hpar0
        rw [heap_swap_length] at hc
        have hpp := heap_parent_lt _ hpar0
        have hcp := heap_parent_lt c h0
        rw [heap_at_swap a _ _ _ hpos hparlen, heap_at_swap a _ _ _ hpos hparlen]
        rw [if_neg (by omega), if_neg (by omega), if_neg (by omega)]
        have hparok := hok.1 (heap_parent pos) hparlen hpar0 (by omega)
        by_cases hcpos : c = pos
        · rw [if_pos hcpos]; exact hparok
        · rw [if_neg hcpos]
          have := hok.1 c hc h0 hcpos
          rw [hpc] at this
          omega
    · rename_i h
      show HeapOrdered a
      intro i hi h0
      by_cases hip : i = pos
      · subst hip
        have := not_and.mp h h0
        omega
      · exact hok.1 i hi h0 hip

theorem heap_down_ordered (fuel : Nat) :
    ∀ (a : List HeapItem) (db : HMap) (pos : Nat), pos < a.length →
      a.length ≤ fuel + pos → DownOk a pos →
      HeapOrdered (heap_down fuel a db pos a.length).1 := by
  induction fuel with
  | zero => intro a db pos hpos hf _; omega
  | succ fuel ih =>
    intro a db pos hpos hf hok
    simp only [heap_down]
    obtain ⟨hcase, hmp, hml, hmr⟩ := heap_min_pos_spec a pos a.length
    split
    · rename_i h
      rw [h] at hml hmr
      show HeapOrdered a
      intro i hi h0
      by_cases hpi : heap_parent i = pos
      · rcases heap_parent_child i pos h0 hpi with hc | hc
        · rw [hpi, hc]; exact hml (by omega)
        · rw [hpi, hc]; exact hmr (by omega)
      · exact hok.1 i hi h0 hpi
    · rename_i h
      have hm : heap_min_pos a pos a.length < a.length := heap_min_pos_lt a pos _ hpos
      have hmpar : heap_parent (heap_min_pos a pos a.length) = pos := by
        rcases hcase with hc | hc | hc
        · exact absurd hc h
        · rw [hc.1]; exact heap_parent_left pos
        · rw [hc.1]; exact heap_parent_right pos
      have hmgt : pos < heap_min_pos a pos a.length := by
        rcases hcase with hc | hc | hc
        · exact absurd hc h
        · rw [hc.1]; unfold heap_left; omega
        · rw [hc.1]; unfold heap_right; omega
      generalize heap_min_pos a pos a.length = m at *
      have hlen : (heap_swap a pos m).length = a.length := heap_swap_length a pos m
      have := ih (heap_swap a pos m) (ref_write db (heap_at a m).ref pos) m
        (by rw [hlen]; exact hm) (by rw [hlen]; omega) ?_
      · rw [hlen] at this; exact this
      refine ⟨?_, ?_⟩
      · intro i hi h0 hne
        rw [hlen] at hi
        have hpi := heap_parent_lt i h0
        rw [heap_at_swap a _ _ _ hpos hm, heap_at_swap a _ _ _ hpos hm]
        rw [if_neg hne]
        by_cases him : i = m
        · subst him
          rw [if_pos rfl, if_pos hmpar]
          exact hmp
        · rw [if_neg him]
          by_cases hip : i = pos
          · subst hip
            rw [if_pos rfl, if_neg (by omega)]
            exact hok.2 m hm (by omega) hmpar h0
          · rw [if_neg hip]
            by_cases h2 : heap_parent i = pos
            · rw [if_pos h2]
              rcases heap_parent_child i pos h0 h2 with hc | hc
              · rw [hc]; exact hml (by omega)
              · rw [hc]; exact hmr (by omega)
            · rw [if_neg h2]
              exact hok.1 i hi h0 h2
      · intro c hc h0 hpc _
        rw [hlen] at hc
        have hcp := heap_parent_lt c h0
        rw [heap_at_swap a _ _ _ hpos hm, heap_at_swap a _ _ _ hpos hm]
        rw [hmpar, if_neg (by omega), if_pos rfl, if_neg (by omega), if_neg (by omega)]
        have := hok.1 c hc h0 (by omega)
        rw [hpc] at this
        exact this

theorem heap_update_ordered (a : List HeapItem) (db : HMap) (pos : Nat)
    (hpos : pos < a.length) (hok : AroundOk a pos) :
    HeapOrdered (heap_update a db pos a.length).1 := by
  unfold heap_update
  split
  · rename_i h
    apply heap_up_ordered _ _ _ _ hpos (Nat.le_refl _)
    refine ⟨?_, hok.2⟩
    intro i hi h0 hne
    by_cases hpi : heap_parent i = pos
    · have := hok.2 i hi h0 hpi h.1
      rw [hpi]; omega
    · exact hok.1 i hi h0 hne hpi
  · rename_i h
    apply heap_down_ordered _ _ _ _ hpos (by omega)
    refine ⟨?_, hok.2⟩
    intro i hi h0 hpi
    by_cases hip : i = pos
    · subst hip
      have := not_and.mp h h0
      omega
    · exact hok.1 i hi h0 hip hpi

theorem find_entry_update_ne (db : HMap) (k r : Bytes) (f : Entry → Entry)
    (hf : ∀ x, (f x).key = x.key) (hne : k ≠ r) :
    (entry_update db r f).find? (entry_eq k) = db.find? (entry_eq k) := by
  induction db with
  | nil => rfl
  | cons x rest ih =>
    simp only [entry_update]
    by_cases hx : x.key == r
    · simp only [hx, if_true]
      have hxr : x.key = r := by simpa using hx
      have h1 : ¬ (entry_eq k x = true) := by
        simp [entry_eq, hxr]; exact fun h => hne h.symm
      have h2 : ¬ (entry_eq k (f x) = true) := by
        simp [entry_eq, hf, hxr]; exact fun h => hne h.symm
      rw [List.find?_cons_of_neg _ h1, List.find?_cons_of_neg _ h2]
    · simp only [hx, Bool.false_eq_true, if_false]
      by_cases hk : entry_eq k x = true
      · rw [List.find?_cons_of_pos _ hk, List.find?_cons_of_pos _ hk]
      · rw [List.find?_cons_of_neg _ hk, List.find?_cons_of_neg _ hk, ih]

theorem find_some_of_mem_keys (db : HMap) (k : Bytes) (h : k ∈ db.map Entry.key) :
    ∃ e, db.find? (entry_eq k) = some e := by
  cases hf : db.find? (entry_eq k) with
  | none => exact absurd h (not_mem_keys_of_find_none db k hf)
  | some e => exact ⟨e, rfl⟩

theorem slot_ref_write (db : HMap) (r : Bytes) (p : Nat) (k : Bytes)
    (hr : r ∈ db.map Entry.key) :
    slot_of (ref_write db r p) k = if k = r then some p else slot_of db k := by
  unfold slot_of ref_write hm_lookup
  by_cases hk : k = r
  · subst hk
    obtain ⟨e, he⟩ := find_some_of_mem_keys db k hr
    rw [if_pos rfl,
      find_entry_update db k (fun e => { e with heap_idx := some p }) e (fun _ => rfl) he]
    rfl
  · rw [if_neg hk,
      find_entry_update_ne db k r (fun e => { e with heap_idx := some p }) (fun _ => rfl) hk]

theorem refs_inj (a : List HeapItem) (hnd : (a.map HeapItem.ref).Nodup) (i j : Nat)
    (hi : i < a.length) (hj : j < a.length)
    (h : (heap_at a i).ref = (heap_at a j).ref) : i = j := by
  rw [heap_at_eq a i hi, heap_at_eq a j hj] at h
  have hi1 : i < (a.map HeapItem.ref).length := by simpa using hi
  have hj1 : j < (a.map HeapItem.ref).length := by simpa using hj
  have : (a.map HeapItem.ref)[i] = (a.map HeapItem.ref)[j] := by simpa using h
  exact (List.Nodup.getElem_inj_iff hnd).mp this

theorem has_entries_perm (a b : List HeapItem) (db db1 : HMap) (hp : b.Perm a)
    (hk : db1.map Entry.key = db.map Entry.key) (h : HasEntries a db) : HasEntries b db1 := by
  intro item hi
  rw [hk]
  exact h item (hp.mem_iff.mp hi)

/-- One exchange of a sift keeps the back-references in agreement away from the
moving item. -/
theorem sync_step (a : List HeapItem) (db : HMap) (pos q : Nat) (ex : Bytes → Prop)
    (hpos : pos < a.length) (hq : q < a.length) (hne : q ≠ pos)
    (he : HasEntries a db) (hs : SyncExcept a (slot_of db) pos ex) :
    SyncExcept (heap_swap a pos q) (slot_of (ref_write db (heap_at a q).ref pos)) q ex := by
  obtain ⟨s1, s2, s3, s4⟩ := hs
  have hperm := heap_swap_perm a pos q hpos hq
  have hqk : (heap_at a q).ref ∈ db.map Entry.key := he _ (heap_at_mem a q hq)
  refine ⟨?_, ?_, ?_, ?_⟩
  · exact (List.Perm.nodup_iff (hperm.map HeapItem.ref)).mpr s1
  · intro i hi hiq
    rw [heap_swap_length] at hi
    rw [heap_at_swap a _ _ _ hpos hq, if_neg hiq, slot_ref_write _ _ _ _ hqk]
    by_cases hip : i = pos
    · rw [if_pos hip, if_pos rfl, hip]
    · rw [if_neg hip]
      have : (heap_at a i).ref ≠ (heap_at a q).ref :=
        fun h => hiq (refs_inj a s1 i q hi hq h)
      rw [if_neg this]
      exact s2 i hi hip
  · intro k i hk
    rw [slot_ref_write _ _ _ _ hqk] at hk
    rw [heap_swap_length, heap_at_swap a _ _ _ hpos hq, heap_at_swap a _ _ _ hpos hq,
      if_pos rfl]
    by_cases hkq : k = (heap_at a q).ref
    · rw [if_pos hkq] at hk
      injection hk with hk
      subst hk
      left
      rw [if_neg (Ne.symm hne), if_pos rfl]
      exact ⟨hpos, hkq.symm⟩
    · rw [if_neg hkq] at hk
      rcases s3 k i hk with ⟨h1, h2⟩ | h | h
      · have hiq : i ≠ q := by
          intro h; subst h; exact hkq h2.symm
        by_cases hip : i = pos
        · subst hip; right; left; exact h2.symm
        · left; rw [if_neg hiq, if_neg hip]; exact ⟨h1, h2⟩
      · right; left; exact h
      · right; right; exact h
  · intro item hi
    exact s4 item (hperm.mem_iff.mp hi)

/-- The last store of a sift brings the back-references into full agreement. -/
theorem sync_final (a : List HeapItem) (db : HMap) (pos : Nat) (ex : Bytes → Prop)
    (hpos : pos < a.length)
    (he : HasEntries a db) (hs : SyncExcept a (slot_of db) pos ex) :
    Sync a (slot_of (ref_write db (heap_at a pos).ref pos)) ex := by
  obtain ⟨s1, s2, s3, s4⟩ := hs
  have hpk : (heap_at a pos).ref ∈ db.map Entry.key := he _ (heap_at_mem a pos hpos)
  refine ⟨?_, ?_, s4⟩
  · intro i hi
    rw [slot_ref_write _ _ _ _ hpk]
    by_cases hip : i = pos
    · rw [hip, if_pos rfl]
    · have : (heap_at a i).ref ≠ (heap_at a pos).ref :=
        fun h => hip (refs_inj a s1 i pos hi hpos h)
      rw [if_neg this]
      exact s2 i hi hip
  · intro k i hk
    rw [slot_ref_write _ _ _ _ hpk] at hk
    by_cases hkp : k = (heap_at a pos).ref
    · rw [if_pos hkp] at hk
      injection hk with hk
      subst hk
      left; exact ⟨hpos, hkp.symm⟩
    · rw [if_neg hkp] at hk
      rcases s3 k i hk with h | h | h
      · left; exact h
      · exact absurd h hkp
      · right; exact h

theorem heap_up_sync (fuel : Nat) (ex : Bytes → Prop) :
    ∀ (a : List HeapItem) (db : HMap) (pos : Nat), pos < a.length →
      HasEntries a db → SyncExcept a (slot_of db) pos ex →
      Sync (heap_up fuel a db pos).1 (slot_of (heap_up fuel a db pos).2) ex := by
  induction fuel with
  | zero =>
    intro a db pos hpos he hs
    exact sync_final a db pos ex hpos he hs
  | succ fuel ih =>
    intro a db pos hpos he hs
    simp only [heap_up]
    split
    · rename_i h
      have hpar := heap_parent_lt pos h.1
      have hparlen : heap_parent pos < a.length := by omega
      apply ih _ _ _ (by rw [heap_swap_length]; exact hparlen)
      · exact has_entries_perm a _ db _ (heap_swap_perm a pos _ hpos hparlen)
          (ref_write_keys _ _ _) he
      · exact sync_step a db pos _ ex hpos hparlen (by omega) he hs
    · exact sync_final a db pos ex hpos he hs

theorem heap_down_sync (fuel : Nat) (ex : Bytes → Prop) :
    ∀ (a : List HeapItem) (db : HMap) (pos : Nat), pos < a.length →
      HasEntries a db → SyncExcept a (slot_of db) pos ex →
      Sync (heap_down fuel a db pos a.length).1
        (slot_of (heap_down fuel a db pos a.length).2) ex := by
  induction fuel with
  | zero =>
    intro a db pos hpos he hs
    exact sync_final a db pos ex hpos he hs
  | succ fuel ih =>
    intro a db pos hpos he hs
    simp only [heap_down]
    split
    · exact sync_final a db pos ex hpos he hs
    · rename_i h
      have hm : heap_min_pos a pos a.length < a.length := heap_min_pos_lt a pos _ hpos
      generalize heap_min_pos a pos a.length = m at *
      have hlen : (heap_swap a pos m).length = a.length := heap_swap_length a pos m
      have := ih (heap_swap a pos m) (ref_write db (heap_at a m).ref pos) m
        (by rw [hlen]; exact hm)
        (has_entries_perm a _ db _ (heap_swap_perm a pos _ hpos hm) (ref_write_keys _ _ _) he)
        (sync_step a db pos m ex hpos hm h he hs)
      rw [hlen] at this
      exact this

theorem heap_update_sync (a : List HeapItem) (db : HMap) (pos : Nat) (ex : Bytes → Prop)
    (hpos : pos < a.length) (he : HasEntries a db)
    (hs : SyncExcept a (slot_of db) pos ex) :
    Sync (heap_update a db pos a.length).1 (slot_of (heap_update a db pos a.length).2) ex := by
  unfold heap_update
  split
  · exact heap_up_sync _ ex _ _ _ hpos he hs
  · exact heap_down_sync _ ex _ _ _ hpos he hs

theorem sync_nodup (a : List HeapItem) (s : Bytes → Option Nat) (ex : Bytes → Prop)
    (h : Sync a s ex) : (a.map HeapItem.ref).Nodup := by
  rw [List.nodup_iff_injective_getElem]
  intro ⟨i, hi⟩ ⟨j, hj⟩ hij
  simp only [List.length_map] at hi hj
  simp only [List.getElem_map] at hij
  have h1 := h.1 i hi
  have h2 := h.1 j hj
  rw [heap_at_eq a i hi] at h1
  rw [heap_at_eq a j hj] at h2
  rw [hij, h2] at h1
  injection h1 with h1
  exact Fin.ext h1.symm

theorem find_of_mem_nodup (db : HMap) (e : Entry) (hnd : KeysNodup db) (he : e ∈ db) :
    db.find? (entry_eq e.key) = some e := by
  unfold KeysNodup at hnd
  induction db with
  | nil => simp at he
  | cons x rest ih =>
    simp only [List.map_cons, List.nodup_cons] at hnd
    rcases List.mem_cons.mp he with h | h
    · subst h
      exact List.find?_cons_of_pos _ (by simp [entry_eq])
    · have hx : ¬ (entry_eq e.key x = true) := by
        intro hx
        have : x.key = e.key := by simpa [entry_eq] using hx
        exact hnd.1 (this ▸ List.mem_map_of_mem Entry.key h)
      rw [List.find?_cons_of_neg _ hx]
      exact ih hnd.2 h

theorem slot_of_eq_some (db : HMap) (k : Bytes) (i : Nat) (h : slot_of db k = some i) :
    ∃ e, hm_lookup db (entry_eq k) = some e ∧ e.heap_idx = some i := by
  unfold slot_of at h
  cases hl : hm_lookup db (entry_eq k) with
  | none => rw [hl] at h; simp at h
  | some e => rw [hl] at h; exact ⟨e, rfl, by simpa using h⟩

theorem slot_of_lookup (db : HMap) (k : Bytes) (e : Entry)
    (h : hm_lookup db (entry_eq k) = some e) : slot_of db k = e.heap_idx := by
  unfold slot_of; rw [h]; rfl

theorem refs_ok_iff_sync (g : GData) (hnd : KeysNodup g.db) :
    RefsOk g ↔ Sync g.heap (slot_of g.db) (fun _ => False) := by
  constructor
  · intro h
    refine ⟨h.1, ?_, fun _ _ hf => hf⟩
    intro k i hk
    obtain ⟨e, he, hi⟩ := slot_of_eq_some _ _ _ hk
    obtain ⟨hek, hemem⟩ := find_some_key _ _ _ he
    left
    have := h.2 e hemem i hi
    rw [hek] at this
    exact this
  · intro h
    refine ⟨h.1, ?_⟩
    intro e he i hi
    have hl := find_of_mem_nodup g.db e hnd he
    have hs : slot_of g.db e.key = some i := by
      rw [slot_of_lookup _ _ _ hl]; exact hi
    rcases h.2.1 e.key i hs with h1 | h1
    · exact h1
    · exact absurd h1 id

theorem sync_has_entries (a : List HeapItem) (db : HMap) (ex : Bytes → Prop)
    (h : Sync a (slot_of db) ex) : HasEntries a db := by
  intro item hi
  obtain ⟨i, hlt, hget⟩ := List.getElem_of_mem hi
  have h1 := h.1 i hlt
  rw [heap_at_eq a i hlt, hget] at h1
  obtain ⟨e, he, _⟩ := slot_of_eq_some _ _ _ h1
  obtain ⟨hek, hemem⟩ := find_some_key _ _ _ he
  exact hek ▸ List.mem_map_of_mem Entry.key hemem

theorem heap_at_append (a : List HeapItem) (t : HeapItem) (i : Nat) :
    heap_at (a ++ [t]) i
      = if i < a.length then heap_at a i
        else if i = a.length then t else { val := 0, ref := [] } := by
  unfold heap_at
  by_cases h : i < a.length
  · rw [if_pos h, List.getElem?_append_left h]
  · rw [if_neg h, List.getElem?_append_right (by omega)]
    by_cases h2 : i = a.length
    · subst h2; simp
    · rw [if_neg h2]
      have : i - a.length ≠ 0 := by omega
      obtain ⟨m, hm⟩ := Nat.exists_eq_succ_of_ne_zero this
      rw [hm]; rfl

/-- The heap after `heap_upsert` for an entry of the keyspace: ordered, in
agreement with the keyspace, and holding the new item at the slot the entry
records. -/
theorem heap_upsert_spec (a : List HeapItem) (db : HMap) (ent : Entry) (val : Nat)
    (hs : Sync a (slot_of db) (fun _ => False))
    (ho : HeapOrdered a)
    (hent : hm_lookup db (entry_eq ent.key) = some ent) :
    HeapOrdered (heap_upsert a db ent.heap_idx { val := val, ref := ent.key }).1
    ∧ Sync (heap_upsert a db ent.heap_idx { val := val, ref := ent.key }).1
        (slot_of (heap_upsert a db ent.heap_idx { val := val, ref := ent.key }).2)
        (fun _ => False)
    ∧ ∃ i, slot_of (heap_upsert a db ent.heap_idx { val := val, ref := ent.key }).2 ent.key
          = some i
        ∧ heap_at (heap_upsert a db ent.heap_idx { val := val, ref := ent.key }).1 i
          = { val := val, ref := ent.key } := by
  have hslot : slot_of db ent.key = ent.heap_idx := slot_of_lookup _ _ _ hent
  have hkey : ent.key ∈ db.map Entry.key :=
    (find_some_key _ _ _ hent).1 ▸ List.mem_map_of_mem Entry.key (find_some_key _ _ _ hent).2
  have hrefs := sync_nodup a _ _ hs
  have hents := sync_has_entries a db _ hs
  -- the common conclusion from the facts about `heap_update`
  have fin : ∀ (a1 : List HeapItem) (p : Nat), p < a1.length →
      HasEntries a1 db → SyncExcept a1 (slot_of db) p (fun _ => False) → AroundOk a1 p →
      (HeapItem.mk val ent.key) ∈ a1 →
      HeapOrdered (heap_update a1 db p a1.length).1
      ∧ Sync (heap_update a1 db p a1.length).1 (slot_of (heap_update a1 db p a1.length).2)
          (fun _ => False)
      ∧ ∃ i, slot_of (heap_update a1 db p a1.length).2 ent.key = some i
          ∧ heap_at (heap_update a1 db p a1.length).1 i = (HeapItem.mk val ent.key) := by
    intro a1 p hp he1 hs1 ha1 hmem
    have hsync := heap_update_sync a1 db p _ hp he1 hs1
    refine ⟨heap_update_ordered a1 db p hp ha1, hsync, ?_⟩
    have hmem2 := (heap_update_perm a1 db p hp).mem_iff.mpr hmem
    obtain ⟨i, hlt, hget⟩ := List.getElem_of_mem hmem2
    refine ⟨i, ?_, ?_⟩
    · have := hsync.1 i hlt
      rw [heap_at_eq _ i hlt, hget] at this
      exact this
    · rw [heap_at_eq _ i hlt, hget]
  cases hidx : ent.heap_idx with
  | some p =>
    rw [hidx] at hslot
    have hp : p < a.length ∧ (heap_at a p).ref = ent.key := by
      rcases hs.2.1 ent.key p hslot with h | h
      · exact h
      · exact absurd h id
    unfold heap_upsert
    simp only [if_pos hp.1]
    have hlen : (a.set p (HeapItem.mk val ent.key)).length = a.length := by simp
    have := fin (a.set p (HeapItem.mk val ent.key)) p (by rw [hlen]; exact hp.1) ?_ ?_ ?_ ?_
    · rw [hlen] at this; exact this
    · intro item hi
      rcases List.mem_or_eq_of_mem_set hi with h | h
      · exact hents item h
      · rw [h]; exact hkey
    · refine ⟨?_, ?_, ?_, fun _ _ hf => hf⟩
      · have : (a.set p (HeapItem.mk val ent.key)).map HeapItem.ref
            = a.map HeapItem.ref := by
          rw [List.map_set]
          apply List.ext_getElem?
          intro n
          rw [List.getElem?_set]
          by_cases hn : p = n
          · subst hn
            simp only [if_true, List.length_map, hp.1]
            rw [List.getElem?_eq_getElem (by simpa using hp.1), List.getElem_map,
              ← heap_at_eq a p hp.1, hp.2]
          · rw [if_neg hn]
        rw [this]; exact hrefs
      · intro i hi hip
        rw [hlen] at hi
        rw [heap_at_set, if_neg (by omega)]
        exact hs.1 i hi
      · intro k i hk
        rcases hs.2.1 k i hk with ⟨h1, h2⟩ | h
        · left
          rw [hlen, heap_at_set]
          refine ⟨h1, ?_⟩
          by_cases hpi : p = i
          · subst hpi; rw [if_pos ⟨rfl, h1⟩]; rw [← h2]; exact hp.2.symm
          · rw [if_neg (by omega)]; exact h2
        · exact absurd h id
    · refine ⟨?_, ?_⟩
      · intro i hi h0 hip hpi
        rw [hlen] at hi
        rw [heap_at_set, heap_at_set, if_neg (by omega), if_neg (by omega)]
        exact ho i hi h0
      · intro c hc h0 hpc hpos
        rw [hlen] at hc
        have h1 := heap_parent_lt p hpos
        have h2 := heap_parent_lt c h0
        rw [heap_at_set, heap_at_set, if_neg (by omega), if_neg (by omega)]
        have e1 := ho p hp.1 hpos
        have e2 := ho c hc h0
        rw [hpc] at e2
        omega
    · exact List.mem_iff_getElem.mpr ⟨p, by rw [hlen]; exact hp.1, by simp⟩
  | none =>
    rw [hidx] at hslot
    unfold heap_upsert
    simp only []
    have hlen : (a ++ [(HeapItem.mk val ent.key)]).length = a.length + 1 := by simp
    have := fin (a ++ [(HeapItem.mk val ent.key)]) a.length (by rw [hlen]; omega) ?_ ?_ ?_ ?_
    · rw [hlen] at this; exact this
    · intro item hi
      rcases List.mem_append.mp hi with h | h
      · exact hents item h
      · simp at h; rw [h]; exact hkey
    · refine ⟨?_, ?_, ?_, fun _ _ hf => hf⟩
      · rw [List.map_append, List.nodup_append]
        refine ⟨hrefs, by simp, ?_⟩
        intro r hr1 hr2
        simp at hr2
        obtain ⟨item, hitem, hir⟩ := List.mem_map.mp hr1
        obtain ⟨i, hlt, hget⟩ := List.getElem_of_mem hitem
        have := hs.1 i hlt
        rw [heap_at_eq a i hlt, hget, hir, hr2, hslot] at this
        simp at this
      · intro i hi hip
        rw [hlen] at hi
        rw [heap_at_append, if_pos (by omega)]
        exact hs.1 i (by omega)
      · intro k i hk
        rcases hs.2.1 k i hk with ⟨h1, h2⟩ | h
        · left
          rw [hlen, heap_at_append, if_pos h1]
          exact ⟨by omega, h2⟩
        · exact absurd h id
    · refine ⟨?_, ?_⟩
      · intro i hi h0 hip hpi
        rw [hlen] at hi
        have h2 := heap_parent_lt i h0
        rw [heap_at_append, heap_at_append, if_pos (by omega), if_pos (by omega)]
        exact ho i (by omega) h0
      · intro c hc h0 hpc hpos
        rw [hlen] at hc
        unfold heap_parent at hpc
        omega
    · simp

theorem strtoll_shape (c : Prop) [Decidable c] (v : Int) (n : Nat) :
    -(2 : Int) ^ 63 ≤ (if c then ((0 : Int), 0) else (clamp_i64 v, n)).1
    ∧ (if c then ((0 : Int), 0) else (clamp_i64 v, n)).1 < 2 ^ 63 := by
  split
  · norm_num
  · unfold clamp_i64; simp only []; omega

theorem str2int_lt (s : Bytes) : (str2int s).2 < 2 ^ 63 := by
  unfold str2int strtoll
  exact (strtoll_shape _ _ _).2

theorem str2int_ge (s : Bytes) : -(2 : Int) ^ 63 ≤ (str2int s).2 := by
  unfold str2int strtoll
  exact (strtoll_shape _ _ _).1

/-- The state after `entry_set_ttl` with a non-negative TTL on an entry of the
keyspace: the invariant holds again and the entry's slot holds its new expiry
time. -/
theorem entry_set_ttl_nonneg (now : Nat) (ent : Entry) (ttl_ms : Int) (g : GData)
    (hinv : Inv g) (hent : hm_lookup g.db (entry_eq ent.key) = some ent)
    (ht : 0 ≤ ttl_ms) :
    Inv (entry_set_ttl now ent ttl_ms g)
    ∧ ∃ i, slot_of (entry_set_ttl now ent ttl_ms g).db ent.key = some i
        ∧ heap_at (entry_set_ttl now ent ttl_ms g).heap i
          = { val := (now + ttl_ms.toNat) % 2 ^ 64, ref := ent.key } := by
  obtain ⟨hnd, hrefs, hord⟩ := hinv
  have hs := (refs_ok_iff_sync g hnd).mp hrefs
  have hspec := heap_upsert_spec g.heap g.db ent ((now + ttl_ms.toNat) % 2 ^ 64) hs hord hent
  have hkeys : KeysNodup (entry_set_ttl now ent ttl_ms g).db := by
    unfold KeysNodup; rw [entry_set_ttl_keys]; exact hnd
  have hunf : entry_set_ttl now ent ttl_ms g
      = { g with
          heap := (heap_upsert g.heap g.db ent.heap_idx
            { val := (now + ttl_ms.toNat) % 2 ^ 64, ref := ent.key }).1,
          db := (heap_upsert g.heap g.db ent.heap_idx
            { val := (now + ttl_ms.toNat) % 2 ^ 64, ref := ent.key }).2 } := by
    unfold entry_set_ttl
    rw [if_neg (by omega), if_pos (by omega)]
  rw [hunf] at hkeys ⊢
  refine ⟨⟨hkeys, ?_, hspec.1⟩, hspec.2.2⟩
  exact (refs_ok_iff_sync _ hkeys).mpr hspec.2.1

theorem do_ttl_present (now : Nat) (cmd : List Bytes) (out : Buffer) (g : GData) (e : Entry)
    (i : Nat) (he : hm_lookup g.db (entry_eq (arg cmd 1)) = some e)
    (hi : e.heap_idx = some i) :
    do_ttl now cmd out g
      = (out ++ (Value.int
          (if (if (heap_at g.heap i).val > now then (heap_at g.heap i).val - now else 0)
              < 2 ^ 63
            then ((if (heap_at g.heap i).val > now then (heap_at g.heap i).val - now
              else 0 : Nat) : Int)
            else ((if (heap_at g.heap i).val > now then (heap_at g.heap i).val - now
              else 0 : Nat) : Int) - 2 ^ 64)).encode, g) := by
  unfold do_ttl
  simp only [he, hi, out_int_eq]

theorem do_expire_present (now : Nat) (cmd : List Bytes) (out : Buffer) (g : GData)
    (e : Entry) (t : Int) (hp : str2int (arg cmd 2) = (true, t))
    (he : hm_lookup g.db (entry_eq (arg cmd 1)) = some e) :
    do_expire now cmd out g = (out ++ (Value.int 1).encode, entry_set_ttl now e t g) := by
  unfold do_expire
  simp only [hp, he, out_int_eq]
  rfl

theorem do_expire_absent (now : Nat) (cmd : List Bytes) (out : Buffer) (g : GData)
    (t : Int) (hp : str2int (arg cmd 2) = (true, t))
    (he : hm_lookup g.db (entry_eq (arg cmd 1)) = none) :
    do_expire now cmd out g = (out ++ (Value.int 0).encode, g) := by
  unfold do_expire
  simp only [hp, he, out_int_eq]
  rfl

/-- The state after `entry_set_ttl` with a negative TTL: the entry at the key
has no slot any more. -/
theorem entry_set_ttl_neg (now : Nat) (ent : Entry) (ttl_ms : Int) (g : GData)
    (hent : hm_lookup g.db (entry_eq ent.key) = some ent) (ht : ttl_ms < 0) :
    ∃ e1, hm_lookup (entry_set_ttl now ent ttl_ms g).db (entry_eq ent.key) = some e1
      ∧ e1.heap_idx = none := by
  unfold entry_set_ttl
  by_cases hidx : ent.heap_idx = none
  · rw [if_neg (by simp [hidx]), if_neg (by omega)]
    exact ⟨ent, hent, hidx⟩
  · rw [if_pos ⟨ht, hidx⟩]
    simp only []
    have hk : ent.key ∈ (heap_delete g.heap g.db (ent.heap_idx.getD 0)).2.map Entry.key := by
      rw [heap_delete_keys]
      exact (find_some_key _ _ _ hent).1 ▸
        List.mem_map_of_mem Entry.key (find_some_key _ _ _ hent).2
    obtain ⟨e0, he0⟩ := find_some_of_mem_keys _ _ hk
    refine ⟨{ e0 with heap_idx := none }, ?_, rfl⟩
    exact find_entry_update _ ent.key (fun e => { e with heap_idx := none }) e0
      (fun _ => rfl) he0

/-- C6 (pttl and pexpire), with the monotonic clock as an input.  `pttl k`
replies INT -2 when `k` is absent, INT -1 when `k` exists without a TTL, also
after a `pexpire k t` with `t < 0`, and otherwise INT `max(expire_at - now, 0)`
(the difference fitting `int64`, as it does under a monotonic clock).
Consequently, in a state satisfying the invariant, for an existing key `k` and
an integer `t ≥ 0`, `pexpire k t` at clock time `T` replies INT 1 and a
`pttl k` at any later time `T' ≥ T` replies a value in `[0, t]`.  `pexpire` on
an absent key replies INT 0 and leaves the state as it is. -/
theorem pttl_after_pexpire (strtod : Bytes → Dbl × Nat) (g : GData) (k : Bytes)
    (out out1 : Buffer) :
    (hm_lookup g.db (entry_eq k) = none →
      ∀ now, do_request strtod now [ascii "pttl", k] out g
        = (out ++ (Value.int (-2)).encode, g))
    ∧ (∀ e, hm_lookup g.db (entry_eq k) = some e → e.heap_idx = none →
      ∀ now, do_request strtod now [ascii "pttl", k] out g
        = (out ++ (Value.int (-1)).encode, g))
    ∧ (∀ e txt t now1 now2, hm_lookup g.db (entry_eq k) = some e →
      str2int txt = (true, t) → t < 0 →
        (do_request strtod now1 [ascii "pexpire", k, txt] out1 g).1
          = out1 ++ (Value.int 1).encode
        ∧ do_request strtod now2 [ascii "pttl", k] out
            (do_request strtod now1 [ascii "pexpire", k, txt] out1 g).2
          = (out ++ (Value.int (-1)).encode,
              (do_request strtod now1 [ascii "pexpire", k, txt] out1 g).2))
    ∧ (∀ e i now, hm_lookup g.db (entry_eq k) = some e → e.heap_idx = some i →
      (heap_at g.heap i).val < now + 2 ^ 63 →
        do_request strtod now [ascii "pttl", k] out g
          = (out ++ (Value.int (max (((heap_at g.heap i).val : Int) - now) 0)).encode, g))
    ∧ (Inv g → ∀ e txt t T T', hm_lookup g.db (entry_eq k) = some e →
      str2int txt = (true, t) → 0 ≤ t → T ≤ T' →
        (do_request strtod T [ascii "pexpire", k, txt] out1 g).1
          = out1 ++ (Value.int 1).encode
        ∧ ∃ r : Int, 0 ≤ r ∧ r ≤ t
          ∧ do_request strtod T' [ascii "pttl", k] out
              (do_request strtod T [ascii "pexpire", k, txt] out1 g).2
            = (out ++ (Value.int r).encode,
                (do_request strtod T [ascii "pexpire", k, txt] out1 g).2))
    ∧ (hm_lookup g.db (entry_eq k) = none → ∀ txt t now, str2int txt = (true, t) →
        do_request strtod now [ascii "pexpire", k, txt] out1 g
          = (out1 ++ (Value.int 0).encode, g)) := by
  refine ⟨?_, ?_, ?_, ?_, ?_, ?_⟩
  · intro he now
    rw [do_request_pttl]; exact do_ttl_absent _ _ _ _ he
  · intro e he hi now
    rw [do_request_pttl]
    unfold do_ttl
    simp only [arg, List.getElem?_cons_succ, List.getElem?_cons_zero, Option.getD_some, he,
      hi, out_int_eq]
  · intro e txt t now1 now2 he hp ht
    have hek := (find_some_key _ _ _ he).1
    rw [do_request_pexpire,
      do_expire_present now1 [ascii "pexpire", k, txt] out1 g e t hp he]
    refine ⟨rfl, ?_⟩
    simp only []
    obtain ⟨e1, he1, hi1⟩ := entry_set_ttl_neg now1 e t g (by rw [hek]; exact he) ht
    rw [hek] at he1
    rw [do_request_pttl]
    unfold do_ttl
    simp only [arg, List.getElem?_cons_succ, List.getElem?_cons_zero, Option.getD_some, he1,
      hi1, out_int_eq]
  · intro e i now he hi hlt
    rw [do_request_pttl, do_ttl_present now [ascii "pttl", k] out g e i he hi]
    congr 3
    rw [max_def]
    by_cases hv : (heap_at g.heap i).val > now
    · simp only [if_pos hv]
      rw [if_pos (by omega), if_neg (by omega)]
      congr 1
      omega
    · simp only [if_neg hv]
      rw [if_pos (by norm_num), if_pos (by omega)]
      rfl
  · intro hinv e txt t T T' he hp ht hT
    have hek := (find_some_key _ _ _ he).1
    rw [do_request_pexpire,
      do_expire_present T [ascii "pexpire", k, txt] out1 g e t hp he]
    refine ⟨rfl, ?_⟩
    simp only []
    obtain ⟨_, i, hslot, hat⟩ := entry_set_ttl_nonneg T e t g hinv (by rw [hek]; exact he) ht
    rw [hek] at hslot hat
    obtain ⟨e1, he1, hi1⟩ := slot_of_eq_some _ _ _ hslot
    have ht63 : t < 2 ^ 63 := by
      have := str2int_lt txt
      rw [hp] at this; exact this
    rw [do_request_pttl,
      do_ttl_present T' [ascii "pttl", k] out (entry_set_ttl T e t g) e1 i he1 hi1, hat]
    simp only []
    have hmod : (T + t.toNat) % 2 ^ 64 ≤ T + t.toNat := Nat.mod_le _ _
    refine ⟨_, ?_, ?_, rfl⟩
    · split <;> split <;> omega
    · split <;> split <;> omega
  · intro he txt t now hp
    rw [do_request_pexpire]
    exact do_expire_absent now _ out1 g t hp he


theorem g_sample_inv : Inv g_sample :=
  ⟨by unfold KeysNodup; decide, by unfold RefsOk; decide, by unfold HeapOrdered; decide⟩

/-- C6 at a concrete input: on the sample state, `pexpire a 50` at time 3 and
`pttl a` at time 7. -/
theorem pttl_after_pexpire_witness :
    Inv g_sample
    ∧ ∃ r : Int, 0 ≤ r ∧ r ≤ 50
      ∧ do_request sample_strtod 7 [ascii "pttl", [97]] []
          (do_request sample_strtod 3 [ascii "pexpire", [97], ascii "50"] [] g_sample).2
        = ([] ++ (Value.int r).encode,
            (do_request sample_strtod 3 [ascii "pexpire", [97], ascii "50"] [] g_sample).2) :=
  ⟨g_sample_inv,
   ((pttl_after_pexpire sample_strtod g_sample [97] [] []).2.2.2.2.1 g_sample_inv
      { key := [97], heap_idx := some 0, type := T_STR, str := [49], zset := { nodes := [] } }
      (ascii "50") 50 3 7 (by decide) (by decide) (by decide) (by decide)).2⟩

theorem heap_swap_last (a : List HeapItem) (p : Nat) (hp : p < a.length) :
    heap_swap a p (a.length - 1)
      = (a.set p (heap_at a (a.length - 1))).dropLast ++ [heap_at a p] := by
  apply List.ext_getElem?
  intro n
  unfold heap_swap
  rw [List.getElem?_set, List.getElem?_append, List.getElem?_dropLast]
  simp only [List.length_set, List.length_dropLast]
  by_cases h1 : a.length - 1 = n
  · subst h1
    simp [hp]
    intro h; rw [h] at hp; simp at hp
  · rw [if_neg h1]
    by_cases h2 : n < a.length - 1
    · simp [h2]
    · simp only [h2, if_false]
      have : a.length ≤ n := by omega
      rw [List.getElem?_eq_none (by simpa using this)]
      have h3 : n - (a.length - 1) ≠ 0 := by omega
      obtain ⟨m, hm⟩ := Nat.exists_eq_succ_of_ne_zero h3
      rw [hm]; rfl

theorem heap_at_cut (a : List HeapItem) (p i : Nat) (hi : i < a.length - 1) :
    heap_at (a.set p (heap_at a (a.length - 1))).dropLast i
      = if i = p then heap_at a (a.length - 1) else heap_at a i := by
  unfold heap_at
  rw [List.getElem?_dropLast]
  simp only [List.length_set, hi, if_true]
  rw [List.getElem?_set]
  by_cases h : p = i
  · subst h
    have : p < a.length := by omega
    simp [this]
  · rw [if_neg h, if_neg (fun h' => h h'.symm)]

theorem heap_delete_fst (a : List HeapItem) (db : HMap) (p : Nat) :
    (heap_delete a db p).1.Perm (a.set p (heap_at a (a.length - 1))).dropLast := by
  unfold heap_delete
  simp only []
  split
  · rename_i h; exact heap_update_perm _ db p h
  · exact List.Perm.refl _

theorem heap_delete_perm (a : List HeapItem) (db : HMap) (p : Nat) (hp : p < a.length) :
    ((heap_delete a db p).1 ++ [heap_at a p]).Perm a := by
  have h1 := heap_delete_fst a db p
  have h2 := heap_swap_perm a p (a.length - 1) hp (by omega)
  rw [heap_swap_last a p hp] at h2
  exact (List.Perm.append_right _ h1).trans h2

theorem heap_delete_ordered (a : List HeapItem) (db : HMap) (p : Nat) (hp : p < a.length)
    (ho : HeapOrdered a) : HeapOrdered (heap_delete a db p).1 := by
  have hlen : (a.set p (heap_at a (a.length - 1))).dropLast.length = a.length - 1 := by simp
  unfold heap_delete
  simp only []
  split
  · rename_i h
    rw [hlen] at h
    apply heap_update_ordered _ db p (by rw [hlen]; exact h)
    refine ⟨?_, ?_⟩
    · intro i hi h0 hip hpi
      rw [hlen] at hi
      have := heap_parent_lt i h0
      rw [heap_at_cut a p i hi, heap_at_cut a p _ (by omega), if_neg hip, if_neg hpi]
      exact ho i (by omega) h0
    · intro c hc h0 hpc hpos
      rw [hlen] at hc
      have h1 := heap_parent_lt c h0
      have h2 := heap_parent_lt p hpos
      rw [heap_at_cut a p c hc, heap_at_cut a p _ (by omega), if_neg (by omega),
        if_neg (by omega)]
      have e1 := ho p hp hpos
      have e2 := ho c (by omega) h0
      rw [hpc] at e2
      omega
  · rename_i h
    rw [hlen] at h
    show HeapOrdered _
    intro i hi h0
    rw [hlen] at hi
    have := heap_parent_lt i h0
    rw [heap_at_cut a p i hi, heap_at_cut a p _ (by omega), if_neg (by omega),
      if_neg (by omega)]
    exact ho i (by omega) h0

/-- The back-references after `heap_delete` at the slot of the key `dead`: in
agreement, the key `dead` apart. -/
theorem heap_delete_sync (a : List HeapItem) (db : HMap) (p : Nat) (hp : p < a.length)
    (hnd : (a.map HeapItem.ref).Nodup)
    (h2 : ∀ i, i < a.length → i ≠ p → slot_of db (heap_at a i).ref = some i)
    (h3 : ∀ k i, slot_of db k = some i → i < a.length ∧ (heap_at a i).ref = k) :
    Sync (heap_delete a db p).1 (slot_of (heap_delete a db p).2)
      (fun k => k = (heap_at a p).ref) := by
  have hlen : (a.set p (heap_at a (a.length - 1))).dropLast.length = a.length - 1 := by simp
  have hperm := heap_swap_perm a p (a.length - 1) hp (by omega)
  rw [heap_swap_last a p hp] at hperm
  have hnd2 : ((a.set p (heap_at a (a.length - 1))).dropLast.map HeapItem.ref
      ++ [(heap_at a p).ref]).Nodup := by
    have := (List.Perm.nodup_iff (hperm.map HeapItem.ref)).mpr hnd
    simpa using this
  have hnd3 := (List.nodup_append.mp hnd2)
  have hs4 : ∀ item ∈ (a.set p (heap_at a (a.length - 1))).dropLast,
      ¬ (item.ref = (heap_at a p).ref) := by
    intro item hi hr
    exact hnd3.2.2 (List.mem_map_of_mem HeapItem.ref hi) (by simp [hr])
  unfold heap_delete
  simp only []
  split
  · rename_i h
    rw [hlen] at h
    apply heap_update_sync _ db p _ (by rw [hlen]; exact h)
    · intro item hi
      obtain ⟨i, hlt, hget⟩ := List.getElem_of_mem hi
      rw [hlen] at hlt
      have hne : item.ref ≠ (heap_at a p).ref := hs4 item hi
      have hat := heap_at_cut a p i hlt
      rw [heap_at_eq _ i (by rw [hlen]; exact hlt), hget] at hat
      have hslot : ∃ j, slot_of db item.ref = some j := by
        by_cases hip : i = p
        · rw [if_pos hip] at hat
          exact ⟨a.length - 1, by rw [hat]; exact h2 _ (by omega) (by omega)⟩
        · rw [if_neg hip] at hat
          exact ⟨i, by rw [hat]; exact h2 _ (by omega) hip⟩
      obtain ⟨j, hj⟩ := hslot
      obtain ⟨e, he, _⟩ := slot_of_eq_some _ _ _ hj
      obtain ⟨hek, hemem⟩ := find_some_key _ _ _ he
      exact hek ▸ List.mem_map_of_mem Entry.key hemem
    · refine ⟨hnd3.1, ?_, ?_, hs4⟩
      · intro i hi hip
        rw [hlen] at hi
        rw [heap_at_cut a p i hi, if_neg hip]
        exact h2 i (by omega) hip
      · intro k i hk
        obtain ⟨hi, hr⟩ := h3 k i hk
        rw [hlen, heap_at_cut a p p h, if_pos rfl]
        by_cases hip : i = p
        · right; right; rw [← hr, hip]
        · by_cases hil : i = a.length - 1
          · right; left; rw [← hr, hil]
          · left
            have : i < a.length - 1 := by omega
            rw [heap_at_cut a p i this, if_neg hip]
            exact ⟨this, hr⟩
  · rename_i h
    rw [hlen] at h
    refine ⟨?_, ?_, hs4⟩
    · intro i hi
      rw [hlen] at hi
      rw [heap_at_cut a p i hi, if_neg (by omega)]
      exact h2 i (by omega) (by omega)
    · intro k i hk
      obtain ⟨hi, hr⟩ := h3 k i hk
      by_cases hip : i = p
      · right; rw [← hr, hip]
      · left
        have : i < a.length - 1 := by omega
        rw [hlen, heap_at_cut a p i this, if_neg hip]
        exact ⟨this, hr⟩

theorem find_eraseP_ne (db : HMap) (k r : Bytes) (hne : k ≠ r) :
    (db.eraseP (entry_eq r)).find? (entry_eq k) = db.find? (entry_eq k) := by
  induction db with
  | nil => rfl
  | cons x rest ih =>
    by_cases hx : entry_eq r x = true
    · rw [List.eraseP_cons_of_pos hx]
      have hxr : x.key = r := by simpa [entry_eq] using hx
      have : ¬ (entry_eq k x = true) := by
        simp [entry_eq, hxr]; exact fun h => hne h.symm
      rw [List.find?_cons_of_neg _ this]
    · rw [List.eraseP_cons_of_neg hx]
      by_cases hk : entry_eq k x = true
      · rw [List.find?_cons_of_pos _ hk, List.find?_cons_of_pos _ hk]
      · rw [List.find?_cons_of_neg _ hk, List.find?_cons_of_neg _ hk, ih]

theorem slot_eraseP (db : HMap) (k r : Bytes) (hnd : KeysNodup db) :
    slot_of (db.eraseP (entry_eq r)) k = if k = r then none else slot_of db k := by
  unfold slot_of hm_lookup
  by_cases hk : k = r
  · subst hk
    rw [if_pos rfl, find_none_of_not_mem _ _ (keys_eraseP_not_mem db k hnd)]
    rfl
  · rw [if_neg hk, find_eraseP_ne db k r hk]

theorem slot_clear (db : HMap) (k r : Bytes) :
    slot_of (entry_update db r (fun e => { e with heap_idx := none })) k
      = if k = r then none else slot_of db k := by
  unfold slot_of hm_lookup
  by_cases hk : k = r
  · subst hk
    rw [if_pos rfl]
    cases hf : db.find? (entry_eq k) with
    | none =>
      have : (entry_update db k (fun e => { e with heap_idx := none })).find? (entry_eq k)
          = none := by
        apply find_none_of_not_mem
        rw [entry_update_keys db k (fun e => { e with heap_idx := none }) (fun _ => rfl)]
        exact not_mem_keys_of_find_none db k hf
      rw [this]; rfl
    | some e =>
      rw [find_entry_update db k (fun e => { e with heap_idx := none }) e (fun _ => rfl) hf]
      rfl
  · rw [if_neg hk,
      find_entry_update_ne db k r (fun e => { e with heap_idx := none }) (fun _ => rfl) hk]

/-- Unlinking and destroying an entry that has a TTL keeps the invariant and
removes exactly the entry's item from the heap. -/
theorem entry_del_inv (g : GData) (ent : Entry) (p : Nat) (hinv : Inv g)
    (hent : hm_lookup g.db (entry_eq ent.key) = some ent) (hidx : ent.heap_idx = some p) :
    Inv (entry_del ent { g with db := g.db.eraseP (entry_eq ent.key) })
    ∧ ((entry_del ent { g with db := g.db.eraseP (entry_eq ent.key) }).heap
        ++ [heap_at g.heap p]).Perm g.heap
    ∧ (entry_del ent { g with db := g.db.eraseP (entry_eq ent.key) }).db.map Entry.key
        = (g.db.eraseP (entry_eq ent.key)).map Entry.key
    ∧ (heap_at g.heap p).ref = ent.key := by
  obtain ⟨hnd, hrefs, hord⟩ := hinv
  have hs := (refs_ok_iff_sync g hnd).mp hrefs
  have hslot : slot_of g.db ent.key = some p := by
    rw [slot_of_lookup _ _ _ hent]; exact hidx
  have hp : p < g.heap.length ∧ (heap_at g.heap p).ref = ent.key := by
    rcases hs.2.1 ent.key p hslot with h | h
    · exact h
    · exact absurd h id
  have hrn := sync_nodup _ _ _ hs
  have hunf : entry_del ent { g with db := g.db.eraseP (entry_eq ent.key) }
      = { g with
          heap := (heap_delete g.heap (g.db.eraseP (entry_eq ent.key)) p).1,
          db := entry_update (heap_delete g.heap (g.db.eraseP (entry_eq ent.key)) p).2 ent.key
                  (fun e => { e with heap_idx := none }) } := by
    unfold entry_del entry_set_ttl
    rw [if_pos ⟨by decide, by rw [hidx]; simp⟩, hidx]
    rfl
  have hkeys : (entry_del ent { g with db := g.db.eraseP (entry_eq ent.key) }).db.map Entry.key
      = (g.db.eraseP (entry_eq ent.key)).map Entry.key := by
    rw [entry_del_keys]
  have hknd : KeysNodup (entry_del ent { g with db := g.db.eraseP (entry_eq ent.key) }).db := by
    unfold KeysNodup; rw [hkeys]; exact keys_eraseP_nodup g.db _ hnd
  have hsync := heap_delete_sync g.heap (g.db.eraseP (entry_eq ent.key)) p hp.1 hrn
    (by
      intro i hi hip
      rw [slot_eraseP _ _ _ hnd]
      have : (heap_at g.heap i).ref ≠ ent.key := by
        intro h
        rw [← hp.2] at h
        exact hip (refs_inj g.heap hrn i p hi hp.1 h)
      rw [if_neg this]
      exact hs.1 i hi)
    (by
      intro k i hk
      rw [slot_eraseP _ _ _ hnd] at hk
      by_cases hke : k = ent.key
      · rw [if_pos hke] at hk; simp at hk
      · rw [if_neg hke] at hk
        rcases hs.2.1 k i hk with h | h
        · exact h
        · exact absurd h id)
  refine ⟨⟨hknd, ?_, ?_⟩, ?_, hkeys, hp.2⟩
  · rw [refs_ok_iff_sync _ hknd, hunf]
    simp only []
    refine ⟨?_, ?_, fun _ _ hf => hf⟩
    · intro i hi
      rw [slot_clear]
      have hne : (heap_at (heap_delete g.heap (g.db.eraseP (entry_eq ent.key)) p).1 i).ref
          ≠ ent.key := by
        have := hsync.2.2 _ (heap_at_mem _ i hi)
        rw [hp.2] at this
        exact this
      rw [if_neg hne]
      exact hsync.1 i hi
    · intro k i hk
      rw [slot_clear] at hk
      by_cases hke : k = ent.key
      · rw [if_pos hke] at hk; simp at hk
      · rw [if_neg hke] at hk
        rcases hsync.2.1 k i hk with h | h
        · left; exact h
        · rw [hp.2] at h; exact absurd h hke
  · rw [hunf]
    exact heap_delete_ordered g.heap _ p hp.1 hord
  · rw [hunf]
    exact heap_delete_perm g.heap _ p hp.1

/-- In an ordered heap no item is earlier than the one at position 0. -/
theorem heap_min_at_root (a : List HeapItem) (ho : HeapOrdered a) :
    ∀ i, i < a.length → (heap_at a 0).val ≤ (heap_at a i).val := by
  intro i
  induction i using Nat.strong_induction_on with
  | _ i ih =>
    intro hi
    by_cases h0 : i = 0
    · subst h0; exact Nat.le_refl _
    · have hp := heap_parent_lt i (by omega)
      have h1 := ih (heap_parent i) hp (by omega)
      have h2 := ho i hi (by omega)
      omega

theorem heap_min_mem (a : List HeapItem) (ho : HeapOrdered a) (item : HeapItem)
    (h : item ∈ a) : (heap_at a 0).val ≤ item.val := by
  obtain ⟨i, hlt, hget⟩ := List.getElem_of_mem h
  have := heap_min_at_root a ho i hlt
  rw [heap_at_eq a i hlt, hget] at this
  exact this

theorem process_idle_keyspace (now_ms : Nat) (fuel : Nat) :
    ∀ g : GData, (process_idle now_ms fuel g).db = g.db
      ∧ (process_idle now_ms fuel g).heap = g.heap := by
  induction fuel with
  | zero => intro g; exact ⟨rfl, rfl⟩
  | succ fuel ih =>
    intro g
    simp only [process_idle]
    split
    · exact ⟨rfl, rfl⟩
    · split
      · exact ⟨rfl, rfl⟩
      · split
        · exact ⟨rfl, rfl⟩
        · exact ih _

theorem inv_of_eq (g g1 : GData) (hdb : g1.db = g.db) (hheap : g1.heap = g.heap)
    (h : Inv g) : Inv g1 := by
  unfold Inv RefsOk at *
  rw [hdb, hheap]
  exact h

theorem heap_at_zero_cons (top : HeapItem) (rest : List HeapItem) :
    heap_at (top :: rest) 0 = top := by simp [heap_at]

/-- One iteration of the TTL loop of `process_timers` on an expired root: the
owner of the root is found, unlinked and destroyed. -/
theorem process_ttl_step (g : GData) (top : HeapItem) (rest : List HeapItem)
    (hinv : Inv g) (hheap : g.heap = top :: rest) :
    ∃ ent, (hm_delete g.db (fun e => e.key == top.ref)).1 = some ent
      ∧ Inv (entry_del ent { g with db := (hm_delete g.db (fun e => e.key == top.ref)).2 })
      ∧ ((entry_del ent
            { g with db := (hm_delete g.db (fun e => e.key == top.ref)).2 }).heap
          ++ [top]).Perm g.heap
      ∧ (entry_del ent
            { g with db := (hm_delete g.db (fun e => e.key == top.ref)).2 }).db.map Entry.key
          = (g.db.eraseP (entry_eq top.ref)).map Entry.key := by
  obtain ⟨hnd, hrefs, hord⟩ := hinv
  have h0 : slot_of g.db (heap_at g.heap 0).ref = some 0 :=
    hrefs.1 0 (by rw [hheap]; simp)
  rw [hheap, heap_at_zero_cons] at h0
  obtain ⟨ent, he, hi⟩ := slot_of_eq_some _ _ _ h0
  have hek := (find_some_key _ _ _ he).1
  have hd := entry_del_inv g ent 0 ⟨hnd, hrefs, hord⟩ (by rw [hek]; exact he) hi
  rw [hek] at hd
  have htop : heap_at g.heap 0 = top := by rw [hheap]; exact heap_at_zero_cons _ _
  rw [htop] at hd
  exact ⟨ent, he, hd.1, hd.2.1, hd.2.2.1⟩

/-- The TTL loop of `process_timers` removes every expired entry when the cap
allows it: with at most `k_max_works - nworks` expired items it ends with no
expired item left and without their owners. -/
theorem process_ttl_all (now_ms : Nat) :
    ∀ (fuel nworks : Nat) (g : GData), Inv g →
      expired_count now_ms g.heap + nworks ≤ k_max_works →
      fuel + nworks = k_max_works + 1 →
      ∃ g1, process_ttl now_ms fuel nworks g = some g1 ∧ Inv g1
        ∧ (∀ k, k ∈ g1.db.map Entry.key → k ∈ g.db.map Entry.key)
        ∧ (∀ item ∈ g.heap, item.val < now_ms → item.ref ∉ g1.db.map Entry.key) := by
  intro fuel
  induction fuel with
  | zero => intro nworks g _ h1 h2; omega
  | succ fuel ih =>
    intro nworks g hinv hcnt hfuel
    simp only [process_ttl]
    split
    · rename_i hheap
      exact ⟨g, rfl, hinv, fun _ h => h, by intro item hi; rw [hheap] at hi; simp at hi⟩
    · rename_i top rest hheap
      by_cases hexp : top.val < now_ms
      · rw [if_pos hexp]
        obtain ⟨ent, he, hinv1, hperm, hkeys⟩ := process_ttl_step g top rest hinv hheap
        rw [he]
        simp only []
        have hc1 : expired_count now_ms
            (entry_del ent { g with db := (hm_delete g.db (fun e => e.key == top.ref)).2 }).heap
              + 1 = expired_count now_ms g.heap := by
          have := List.Perm.countP_eq (fun item => decide (item.val < now_ms)) hperm
          unfold expired_count
          rw [← this, List.countP_append]
          simp [hexp]
        rw [if_neg (by omega)]
        obtain ⟨g1, hg1, hinv2, hsub, hgone⟩ := ih (nworks + 1) _ hinv1 (by omega) (by omega)
        refine ⟨g1, hg1, hinv2, ?_, ?_⟩
        · intro k hk
          have := hsub k hk
          rw [hkeys] at this
          exact (List.Sublist.map _ (List.eraseP_sublist g.db)).subset this
        · intro item hi hiexp
          have hm := hperm.mem_iff.mpr hi
          rcases List.mem_append.mp hm with h | h
          · exact hgone item h hiexp
          · simp at h
            rw [h]
            intro hk
            have := hsub _ hk
            rw [hkeys] at this
            exact keys_eraseP_not_mem g.db top.ref hinv.1 this
      · rw [if_neg hexp]
        refine ⟨g, rfl, hinv, fun _ h => h, ?_⟩
        intro item hi hiexp
        rw [hheap] at hi
        have := heap_min_mem (top :: rest) (hheap ▸ hinv.2.2) item hi
        rw [heap_at_zero_cons] at this
        omega

theorem mem_heap_of_slot (g : GData) (hinv : Inv g) (k : Bytes) (i : Nat)
    (h : slot_of g.db k = some i) : heap_at g.heap i ∈ g.heap ∧ (heap_at g.heap i).ref = k := by
  have hs := (refs_ok_iff_sync g hinv.1).mp hinv.2.1
  rcases hs.2.1 k i h with h1 | h1
  · exact ⟨heap_at_mem _ i h1.1, h1.2⟩
  · exact absurd h1 id

/-- C7, amended.  For every state satisfying the invariant, every existing key
`k` and every integer `t ≥ 0`: if `pexpire k t` is executed at clock time `T`
and at most 2000 heap items are expired at a clock time `now > T + t`, then
one run of `process_timers` at `now` returns and leaves `k` out of the
keyspace, so that `get k` replies NIL and `pttl k` replies INT -2. -/
theorem pexpire_then_timers (strtod : Bytes → Dbl × Nat) (g : GData) (k txt : Bytes)
    (e : Entry) (t : Int) (T now now2 now3 : Nat) (out out2 out3 : Buffer)
    (hinv : Inv g) (he : hm_lookup g.db (entry_eq k) = some e)
    (hp : str2int txt = (true, t)) (ht : 0 ≤ t) (hnow : (T : Int) + t < now)
    (hcap : expired_count now
      (do_request strtod T [ascii "pexpire", k, txt] out g).2.heap ≤ k_max_works) :
    ∃ g1, process_timers now (do_request strtod T [ascii "pexpire", k, txt] out g).2 = some g1
      ∧ hm_lookup g1.db (entry_eq k) = none
      ∧ do_request strtod now2 [ascii "get", k] out2 g1 = (out2 ++ Value.nil.encode, g1)
      ∧ do_request strtod now3 [ascii "pttl", k] out3 g1
          = (out3 ++ (Value.int (-2)).encode, g1) := by
  have hek := (find_some_key _ _ _ he).1
  rw [do_request_pexpire, do_expire_present T [ascii "pexpire", k, txt] out g e t hp he]
    at hcap ⊢
  simp only [] at hcap ⊢
  obtain ⟨hinv1, i, hslot, hat⟩ := entry_set_ttl_nonneg T e t g hinv (by rw [hek]; exact he) ht
  rw [hek] at hslot hat
  obtain ⟨hmem, _⟩ := mem_heap_of_slot _ hinv1 k i hslot
  rw [hat] at hmem
  unfold process_timers
  obtain ⟨hdb, hheap⟩ := process_idle_keyspace now (entry_set_ttl T e t g).idle_list.length
    (entry_set_ttl T e t g)
  have hinv2 := inv_of_eq _ _ hdb hheap hinv1
  obtain ⟨g1, hg1, _, _, hgone⟩ := process_ttl_all now (k_max_works + 1) 0 _ hinv2
    (by rw [hheap]; omega) rfl
  have hk : k ∉ g1.db.map Entry.key := by
    have := hgone _ (by rw [hheap]; exact hmem) (by
      show (T + t.toNat) % 2 ^ 64 < now
      have := Nat.mod_le (T + t.toNat) (2 ^ 64)
      omega)
    exact this
  have hnone := find_none_of_not_mem _ _ hk
  refine ⟨g1, hg1, hnone, ?_, ?_⟩
  · rw [do_request_get]; exact do_get_absent _ _ _ hnone
  · rw [do_request_pttl]; exact do_ttl_absent _ _ _ _ hnone

/-- C7, amended, at the spec's scenario on the sample state: `pexpire a 50` at
time 0, `process_timers` at time 100. -/
theorem pexpire_then_timers_witness :
    Inv g_sample
    ∧ ∃ g1, process_timers 100
          (do_request sample_strtod 0 [ascii "pexpire", [97], ascii "50"] [] g_sample).2
        = some g1
      ∧ hm_lookup g1.db (entry_eq [97]) = none
      ∧ do_request sample_strtod 100 [ascii "get", [97]] [] g1 = ([] ++ Value.nil.encode, g1)
      ∧ do_request sample_strtod 100 [ascii "pttl", [97]] [] g1
          = ([] ++ (Value.int (-2)).encode, g1) :=
  ⟨g_sample_inv,
   pexpire_then_timers sample_strtod g_sample [97] (ascii "50")
      { key := [97], heap_idx := some 0, type := T_STR, str := [49], zset := { nodes := [] } }
      50 0 100 100 100 [] [] [] g_sample_inv (by decide) (by decide) (by decide) (by decide)
      (by decide)⟩

/-- The TTL loop of `process_timers` does not reach an item while as many
earlier items as the cap allows iterations are in the heap. -/
theorem process_ttl_keeps (now_ms : Nat) (item : HeapItem) (hexp : item.val < now_ms) :
    ∀ (fuel nworks : Nat) (g : GData), Inv g → item ∈ g.heap →
      k_max_works + 1 ≤ g.heap.countP (fun x => decide (x.val < item.val)) + nworks →
      fuel + nworks = k_max_works + 1 →
      ∃ g1, process_ttl now_ms fuel nworks g = some g1 ∧ item.ref ∈ g1.db.map Entry.key := by
  intro fuel
  induction fuel with
  | zero =>
    intro nworks g hinv hmem _ _
    refine ⟨g, rfl, ?_⟩
    exact sync_has_entries _ _ _ ((refs_ok_iff_sync g hinv.1).mp hinv.2.1) item hmem
  | succ fuel ih =>
    intro nworks g hinv hmem hcnt hfuel
    simp only [process_ttl]
    split
    · rename_i hheap
      rw [hheap] at hmem; simp at hmem
    · rename_i top rest hheap
      have hpos : 0 < g.heap.countP (fun x => decide (x.val < item.val)) := by omega
      obtain ⟨x, hx, hxv⟩ := List.countP_pos_iff.mp hpos
      have hxv : x.val < item.val := by simpa using hxv
      have htop : top.val ≤ x.val := by
        have := heap_min_mem g.heap hinv.2.2 x hx
        rw [hheap, heap_at_zero_cons] at this
        exact this
      rw [if_pos (by omega)]
      obtain ⟨ent, he, hinv1, hperm, hkeys⟩ := process_ttl_step g top rest hinv hheap
      rw [he]
      simp only []
      have hmem1 : item ∈ (entry_del ent
          { g with db := (hm_delete g.db (fun e => e.key == top.ref)).2 }).heap := by
        rcases List.mem_append.mp (hperm.mem_iff.mpr hmem) with h | h
        · exact h
        · simp at h; rw [h] at hxv; omega
      have hc1 : (entry_del ent
          { g with db := (hm_delete g.db (fun e => e.key == top.ref)).2 }).heap.countP
            (fun x => decide (x.val < item.val)) + 1
          = g.heap.countP (fun x => decide (x.val < item.val)) := by
        have := List.Perm.countP_eq (fun x => decide (x.val < item.val)) hperm
        rw [← this, List.countP_append]
        have : top.val < item.val := by omega
        simp [this]
      split
      · exact ⟨_, rfl,
          sync_has_entries _ _ _ ((refs_ok_iff_sync _ hinv1.1).mp hinv1.2.1) item hmem1⟩
      · exact ih (nworks + 1) _ hinv1 hmem1 (by omega) (by omega)

/-- `set` on an absent key keeps the invariant: the new entry has no slot and
the heap is as before. -/
theorem do_set_absent_inv (cmd : List Bytes) (out : Buffer) (g : GData) (hinv : Inv g)
    (he : hm_lookup g.db (entry_eq (arg cmd 1)) = none) :
    Inv (do_set cmd out g).2
    ∧ (do_set cmd out g).2.heap = g.heap
    ∧ (do_set cmd out g).2.db.map Entry.key = arg cmd 1 :: g.db.map Entry.key
    ∧ ∃ ent, hm_lookup (do_set cmd out g).2.db (entry_eq (arg cmd 1)) = some ent
        ∧ ent.key = arg cmd 1 ∧ ent.heap_idx = none := by
  obtain ⟨hnd, hrefs, hord⟩ := hinv
  have hnot := not_mem_keys_of_find_none g.db _ he
  unfold do_set
  rw [he]
  simp only [hm_insert]
  refine ⟨⟨?_, ⟨?_, ?_⟩, hord⟩, trivial, rfl, ?_⟩
  · unfold KeysNodup
    simp only [List.map_cons, List.nodup_cons]
    exact ⟨hnot, hnd⟩
  · intro i hi
    have h1 := hrefs.1 i hi
    obtain ⟨e, hl, _⟩ := slot_of_eq_some _ _ _ h1
    have hne : (heap_at g.heap i).ref ≠ arg cmd 1 := by
      intro h
      rw [h] at hl
      rw [he] at hl
      simp at hl
    unfold slot_of hm_lookup
    rw [List.find?_cons_of_neg _ (by simp [entry_eq, entry_new]; exact fun h => hne h.symm)]
    exact h1
  · intro e hmem i hi
    rcases List.mem_cons.mp hmem with h | h
    · rw [h] at hi; simp [entry_new] at hi
    · exact hrefs.2 e h i hi
  · refine ⟨{ entry_new T_STR with key := arg cmd 1, str := arg cmd 2 }, ?_, rfl, rfl⟩
    unfold hm_lookup
    exact List.find?_cons_of_pos _ (by simp [entry_eq, entry_new])

/-- A first TTL on an entry puts one new item into the heap. -/
theorem entry_set_ttl_new_perm (now : Nat) (ent : Entry) (ttl_ms : Int) (g : GData)
    (ht : 0 ≤ ttl_ms) (hidx : ent.heap_idx = none) :
    (entry_set_ttl now ent ttl_ms g).heap.Perm
      (g.heap ++ [{ val := (now + ttl_ms.toNat) % 2 ^ 64, ref := ent.key }]) := by
  unfold entry_set_ttl
  rw [if_neg (by omega), if_pos (by omega), hidx]
  simp only [heap_upsert]
  have := heap_update_perm (g.heap ++ [HeapItem.mk ((now + ttl_ms.toNat) % 2 ^ 64) ent.key])
    g.db g.heap.length (by simp)
  simp only [List.length_append, List.length_singleton] at this
  exact this

theorem state_after_eq (strtod : Bytes → Dbl × Nat) (now : Nat) (cmd : List Bytes)
    (g : GData) : state_after strtod now cmd g = (do_request strtod now cmd [] g).2 := rfl

theorem fill_key_inj (i j : Nat) (h : fill_key i = fill_key j) : i = j := by
  have := congrArg List.length h
  simp [fill_key] at this
  exact this

theorem fill_state_facts (n : Nat) :
    Inv (fill_state n)
    ∧ (∀ item ∈ (fill_state n).heap, item.val = 0)
    ∧ (fill_state n).heap.length = n
    ∧ (∀ key ∈ (fill_state n).db.map Entry.key, ∃ i, i < n ∧ key = fill_key i) := by
  induction n with
  | zero =>
    refine ⟨⟨?_, ?_, ?_⟩, ?_, rfl, ?_⟩
    · unfold KeysNodup; decide
    · unfold RefsOk; decide
    · unfold HeapOrdered; decide
    · intro item hi; simp [fill_state, g_init] at hi
    · intro key hk; simp [fill_state, g_init] at hk
  | succ n ih =>
    obtain ⟨hinv, hvals, hlen, hkeys⟩ := ih
    have habs : hm_lookup (fill_state n).db (entry_eq (fill_key n)) = none := by
      apply find_none_of_not_mem
      intro hk
      obtain ⟨i, hi, he⟩ := hkeys _ hk
      have := fill_key_inj _ _ he
      omega
    have hset := do_set_absent_inv [ascii "set", fill_key n, []] [] (fill_state n) hinv habs
    obtain ⟨hinv1, hheap1, hkeys1, ent, hent, hek, hidx⟩ := hset
    have hst : fill_state (n + 1)
        = entry_set_ttl 0 ent 0 (do_set [ascii "set", fill_key n, []] [] (fill_state n)).2 := by
      show state_after sample_strtod 0 [ascii "pexpire", fill_key n, ascii "0"]
        (state_after sample_strtod 0 [ascii "set", fill_key n, []] (fill_state n)) = _
      rw [state_after_eq, state_after_eq, do_request_set, do_request_pexpire,
        do_expire_present 0 [ascii "pexpire", fill_key n, ascii "0"] [] _ ent 0
          (show str2int (ascii "0") = (true, 0) by decide) hent]
    have hk1 : arg [ascii "set", fill_key n, []] 1 = fill_key n := rfl
    rw [hk1] at hent hek hkeys1
    have hnn := entry_set_ttl_nonneg 0 ent 0 _ hinv1 (by rw [hek]; exact hent) (Int.le_refl 0)
    have hperm := entry_set_ttl_new_perm 0 ent 0
      (do_set [ascii "set", fill_key n, []] [] (fill_state n)).2 (Int.le_refl 0) hidx
    rw [hheap1] at hperm
    rw [hst]
    refine ⟨hnn.1, ?_, ?_, ?_⟩
    · intro item hi
      rcases List.mem_append.mp (hperm.mem_iff.mp hi) with h | h
      · exact hvals item h
      · simp at h; rw [h]
    · rw [hperm.length_eq]; simp [hlen]
    · intro key hk
      rw [entry_set_ttl_keys, hkeys1] at hk
      rcases List.mem_cons.mp hk with h | h
      · exact ⟨n, by omega, h⟩
      · obtain ⟨i, hi, he⟩ := hkeys key h
        exact ⟨i, by omega, he⟩

/-- C7 fails on a crowded heap.  In the state reached from startup by giving
2001 keys a TTL of 0 at time 0 and storing the key "k", `pexpire k 1` at time
0 is followed by `process_timers` at time 2 > 0 + 1; the run returns with "k"
still in the keyspace, and `get k` does not reply NIL. -/
theorem pexpire_then_timers_capped :
    Inv crowded_state
    ∧ (∃ e, hm_lookup crowded_state.db (entry_eq [107]) = some e)
    ∧ str2int (ascii "1") = (true, 1)
    ∧ ((0 : Nat) : Int) + 1 < (2 : Nat)
    ∧ ∃ g1, process_timers 2
          (do_request sample_strtod 0 [ascii "pexpire", [107], ascii "1"] []
            crowded_state).2 = some g1
        ∧ (∃ e, hm_lookup g1.db (entry_eq [107]) = some e)
        ∧ (do_request sample_strtod 2 [ascii "get", [107]] [] g1).1
            ≠ [] ++ Value.nil.encode := by
  obtain ⟨hinv, hvals, hlen, hkeys⟩ := fill_state_facts 2001
  have habs : hm_lookup (fill_state 2001).db (entry_eq [107]) = none := by
    apply find_none_of_not_mem
    intro hk
    obtain ⟨i, _, he⟩ := hkeys _ hk
    have h0 := congrArg (fun l => l.head?) he
    simp [fill_key, List.replicate] at h0
  have hset := do_set_absent_inv [ascii "set", [107], []] [] (fill_state 2001) hinv habs
  obtain ⟨hinv1, hheap1, _, ent, hent, hek, hidx⟩ := hset
  have hcs : crowded_state = (do_set [ascii "set", [107], []] [] (fill_state 2001)).2 := by
    rw [crowded_state, state_after_eq, do_request_set]
  have hk1 : arg [ascii "set", [107], []] 1 = [107] := rfl
  rw [hk1] at hent hek
  rw [← hcs] at hinv1 hheap1 hent
  refine ⟨hinv1, ⟨ent, hent⟩, by decide, by decide, ?_⟩
  rw [do_request_pexpire,
    do_expire_present 0 [ascii "pexpire", [107], ascii "1"] [] crowded_state ent 1
      (by decide) hent]
  simp only []
  have hnn := entry_set_ttl_nonneg 0 ent 1 crowded_state hinv1 (by rw [hek]; exact hent)
    (by decide)
  have hperm := entry_set_ttl_new_perm 0 ent 1 crowded_state (by decide) hidx
  rw [hheap1, hek] at hperm
  have hval : (0 + (1 : Int).toNat) % 2 ^ 64 = 1 := by decide
  rw [hval] at hperm
  obtain ⟨hdb, hheap⟩ := process_idle_keyspace 2
    (entry_set_ttl 0 ent 1 crowded_state).idle_list.length (entry_set_ttl 0 ent 1 crowded_state)
  have hinv2 := inv_of_eq _ _ hdb hheap hnn.1
  have hmem : (HeapItem.mk 1 [107]) ∈ (entry_set_ttl 0 ent 1 crowded_state).heap :=
    hperm.mem_iff.mpr (by simp)
  have hcount : (entry_set_ttl 0 ent 1 crowded_state).heap.countP
      (fun x => decide (x.val < (HeapItem.mk 1 [107]).val)) = 2001 := by
    rw [List.Perm.countP_eq _ hperm, List.countP_append]
    have : (fill_state 2001).heap.countP (fun x => decide (x.val < (HeapItem.mk 1 [107]).val))
        = (fill_state 2001).heap.length := by
      rw [List.countP_eq_length]
      intro x hx
      simp [hvals x hx]
    rw [this, hlen]
    simp
  unfold process_timers
  obtain ⟨g1, hg1, hk⟩ := process_ttl_keeps 2 (HeapItem.mk 1 [107]) (by decide)
    (k_max_works + 1) 0 _ hinv2 (by rw [hheap]; exact hmem)
    (by rw [hheap, hcount]; decide) rfl
  obtain ⟨e1, he1⟩ := find_some_of_mem_keys _ _ hk
  refine ⟨g1, hg1, ⟨e1, he1⟩, ?_⟩
  rw [do_request_get]
  unfold do_get
  have harg : arg [ascii "get", [107]] 1 = [107] := rfl
  rw [harg]
  have he2 : hm_lookup g1.db (entry_eq [107]) = some e1 := he1
  rw [he2]
  simp only []
  split
  · simp [out_err, buf_append, buf_append_u32, buf_append_u8, Value.encode, TAG_ERR]
  · simp [out_str, buf_append, buf_append_u32, buf_append_u8, Value.encode, TAG_STR]

theorem find_idx_none {α : Type} (p : α → Bool) (l : List α) :
    find_idx p l = none ↔ ∀ x ∈ l, p x = false := by
  induction l with
  | nil => simp [find_idx]
  | cons x xs ih =>
    simp only [find_idx]
    by_cases hx : p x = true
    · simp [hx]
    · simp only [hx, Bool.false_eq_true, if_false, Option.map_eq_none', ih, List.mem_cons,
        forall_eq_or_imp]
      simp at hx
      simp [hx]

theorem find_idx_some {α : Type} (p : α → Bool) (l : List α) (i : Nat)
    (h : find_idx p l = some i) :
    ∃ hi : i < l.length, p l[i] = true ∧ ∀ j, j < i → ∀ x, l[j]? = some x → p x = false := by
  induction l generalizing i with
  | nil => simp [find_idx] at h
  | cons x xs ih =>
    simp only [find_idx] at h
    by_cases hx : p x = true
    · rw [if_pos hx] at h
      injection h with h
      subst h
      exact ⟨by simp, by simpa using hx, by intro j hj; omega⟩
    · rw [if_neg hx] at h
      cases hf : find_idx p xs with
      | none => rw [hf] at h; simp at h
      | some m =>
        rw [hf] at h
        simp at h
        subst h
        obtain ⟨hm, hpm, hfirst⟩ := ih m hf
        refine ⟨by simp; omega, by simpa using hpm, ?_⟩
        intro j hj y hy
        cases j with
        | zero =>
          simp at hy
          subst hy
          simpa using hx
        | succ j =>
          simp at hy
          exact hfirst j (by omega) y hy

theorem zset_place_perm (x : ZNode) (l : List ZNode) : (zset_place x l).Perm (x :: l) := by
  induction l with
  | nil => exact List.Perm.refl _
  | cons y ys ih =>
    simp only [zset_place]
    split
    · exact (List.Perm.cons y ih).trans (List.Perm.swap x y ys)
    · exact List.Perm.refl _

/-- The members' names are unique. -/
theorem names_nodup_insert (zset : ZSet) (name : Bytes) (score : Dbl)
    (hnd : (zset.nodes.map ZNode.name).Nodup) :
    ((zset_insert zset name score).2.nodes.map ZNode.name).Nodup
    ∧ ({ score := score, name := name } : ZNode) ∈ (zset_insert zset name score).2.nodes
    ∧ ((zset_insert zset name score).1 = true ↔ name ∉ zset.nodes.map ZNode.name) := by
  unfold zset_insert
  cases hl : zset_lookup zset name with
  | none =>
    simp only []
    have hnot : name ∉ zset.nodes.map ZNode.name := by
      intro hm
      obtain ⟨nd, hnd1, hnd2⟩ := List.mem_map.mp hm
      have := (find_idx_none _ _).mp hl nd hnd1
      simp [hnd2] at this
    have hp := zset_place_perm { score := score, name := name } zset.nodes
    refine ⟨?_, hp.mem_iff.mpr (List.mem_cons_self _ _), by simp [hnot]⟩
    rw [List.Perm.nodup_iff (hp.map ZNode.name)]
    simp only [List.map_cons, List.nodup_cons]
    exact ⟨hnot, hnd⟩
  | some i =>
    simp only []
    obtain ⟨hi, hpi, _⟩ := find_idx_some _ _ _ hl
    have hname : zset.nodes[i].name = name := by simpa using hpi
    have hp := zset_place_perm { score := score, name := name } (zset.nodes.eraseIdx i)
    have hmem : name ∈ zset.nodes.map ZNode.name :=
      hname ▸ List.mem_map_of_mem ZNode.name (List.getElem_mem hi)
    refine ⟨?_, hp.mem_iff.mpr (List.mem_cons_self _ _), by simp [hmem]⟩
    rw [List.Perm.nodup_iff (hp.map ZNode.name)]
    simp only [List.map_cons, List.nodup_cons]
    have he : (zset.nodes.eraseIdx i).map ZNode.name
        = (zset.nodes.map ZNode.name).eraseIdx i := by
      rw [List.eraseIdx_eq_take_drop_succ, List.eraseIdx_eq_take_drop_succ, List.map_append,
        List.map_take, List.map_drop]
    rw [he]
    refine ⟨?_, List.Nodup.eraseIdx i hnd⟩
    have hi1 : i < (zset.nodes.map ZNode.name).length := by simpa using hi
    have hget : (zset.nodes.map ZNode.name)[i] = name := by simpa using hname
    rw [← hget]
    intro hm
    obtain ⟨j, hj, hjg⟩ := List.mem_eraseIdx_iff_getElem?.mp hm
    obtain ⟨hjl, hje⟩ := List.getElem?_eq_some.mp hjg
    exact hj ((List.Nodup.getElem_inj_iff hnd).mp hje)

theorem zset_lookup_mem (zset : ZSet) (nd : ZNode)
    (hnd : (zset.nodes.map ZNode.name).Nodup) (hm : nd ∈ zset.nodes) :
    ∃ j, zset_lookup zset nd.name = some j ∧ zset.nodes[j]? = some nd := by
  unfold zset_lookup
  cases hf : find_idx (fun n => n.name == nd.name) zset.nodes with
  | none =>
    have := (find_idx_none _ _).mp hf nd hm
    simp at this
  | some j =>
    obtain ⟨hj, hpj, _⟩ := find_idx_some _ _ _ hf
    have hname : zset.nodes[j].name = nd.name := by simpa using hpj
    obtain ⟨m, hml, hmg⟩ := List.getElem_of_mem hm
    have hjm : j = m := by
      have hj1 : j < (zset.nodes.map ZNode.name).length := by simpa using hj
      have hm1 : m < (zset.nodes.map ZNode.name).length := by simpa using hml
      have h1 : (zset.nodes.map ZNode.name)[j] = (zset.nodes.map ZNode.name)[m] := by
        simp [hname, hmg]
      exact (List.Nodup.getElem_inj_iff hnd).mp h1
    subst hjm
    exact ⟨j, rfl, by rw [List.getElem?_eq_getElem hj, hmg]⟩

theorem zset_lookup_none (zset : ZSet) (name : Bytes)
    (h : name ∉ zset.nodes.map ZNode.name) : zset_lookup zset name = none := by
  unfold zset_lookup
  rw [find_idx_none]
  intro x hx
  by_cases hxn : x.name = name
  · exact absurd (hxn ▸ List.mem_map_of_mem ZNode.name hx) h
  · simp [hxn]

theorem zset_lookup_some_mem (zset : ZSet) (name : Bytes) (j : Nat)
    (h : zset_lookup zset name = some j) : name ∈ zset.nodes.map ZNode.name := by
  obtain ⟨hj, hpj, _⟩ := find_idx_some _ _ _ h
  have hname : zset.nodes[j].name = name := by simpa using hpj
  exact hname ▸ List.mem_map_of_mem ZNode.name (List.getElem_mem hj)

theorem zset_delete_lookup (zset : ZSet) (name : Bytes) (j : Nat)
    (hnd : (zset.nodes.map ZNode.name).Nodup) (h : zset_lookup zset name = some j) :
    zset_lookup (zset_delete zset j) name = none
    ∧ ((zset_delete zset j).nodes.map ZNode.name).Nodup := by
  obtain ⟨hj, hpj, _⟩ := find_idx_some _ _ _ h
  have hname : zset.nodes[j].name = name := by simpa using hpj
  have he : (zset.nodes.eraseIdx j).map ZNode.name
      = (zset.nodes.map ZNode.name).eraseIdx j := by
    rw [List.eraseIdx_eq_take_drop_succ, List.eraseIdx_eq_take_drop_succ, List.map_append,
      List.map_take, List.map_drop]
  refine ⟨?_, ?_⟩
  · apply zset_lookup_none
    show name ∉ (zset.nodes.eraseIdx j).map ZNode.name
    rw [he]
    intro hm
    obtain ⟨i, hi, hig⟩ := List.mem_eraseIdx_iff_getElem?.mp hm
    obtain ⟨hil, hie⟩ := List.getElem?_eq_some.mp hig
    have hj1 : j < (zset.nodes.map ZNode.name).length := by simpa using hj
    have : (zset.nodes.map ZNode.name)[i] = (zset.nodes.map ZNode.name)[j] := by
      rw [hie]; simp [hname]
    exact hi ((List.Nodup.getElem_inj_iff hnd).mp this)
  · show ((zset.nodes.eraseIdx j).map ZNode.name).Nodup
    rw [he]
    exact List.Nodup.eraseIdx j hnd

theorem expect_zset_absent (g : GData) (k : Bytes)
    (h : hm_lookup g.db (entry_eq k) = none) : expect_zset g k = ZSetPtr.empty := by
  unfold expect_zset; rw [h]

theorem expect_zset_present (g : GData) (k : Bytes) (e : Entry)
    (h : hm_lookup g.db (entry_eq k) = some e) (ht : e.type = T_ZSET) :
    expect_zset g k = ZSetPtr.entry e.zset := by
  unfold expect_zset; rw [h]; simp [ht]

theorem zset_at_absent (g : GData) (k : Bytes)
    (h : hm_lookup g.db (entry_eq k) = none) : zset_at g k = { nodes := [] } := by
  unfold zset_at; rw [expect_zset_absent g k h]; rfl

theorem zset_at_present (g : GData) (k : Bytes) (e : Entry)
    (h : hm_lookup g.db (entry_eq k) = some e) (ht : e.type = T_ZSET) :
    zset_at g k = e.zset := by
  unfold zset_at; rw [expect_zset_present g k e h ht]; rfl

theorem zset_at_nodup (g : GData) (k : Bytes) (hk : ZSetKey g k) :
    ((zset_at g k).nodes.map ZNode.name).Nodup := by
  cases hl : hm_lookup g.db (entry_eq k) with
  | none => rw [zset_at_absent g k hl]; simp
  | some e => rw [zset_at_present g k e hl (hk e hl).1]; exact (hk e hl).2

/-- The effect of `zadd` on a key that is absent or holds a sorted set. -/
theorem do_zadd_spec (strtod : Bytes → Dbl × Nat) (cmd : List Bytes) (out : Buffer)
    (g : GData) (s : Dbl) (hs : str2dbl strtod (arg cmd 2) = (true, s))
    (hk : ZSetKey g (arg cmd 1)) :
    (do_zadd strtod cmd out g).1
        = out ++ (Value.int
            (if (zset_insert (zset_at g (arg cmd 1)) (arg cmd 3) s).1 then 1 else 0)).encode
    ∧ zset_at (do_zadd strtod cmd out g).2 (arg cmd 1)
        = (zset_insert (zset_at g (arg cmd 1)) (arg cmd 3) s).2
    ∧ ZSetKey (do_zadd strtod cmd out g).2 (arg cmd 1) := by
  have hnd0 := zset_at_nodup g _ hk
  have hins := names_nodup_insert (zset_at g (arg cmd 1)) (arg cmd 3) s hnd0
  cases hl : hm_lookup g.db (entry_eq (arg cmd 1)) with
  | none =>
    have hz := zset_at_absent g _ hl
    rw [hz] at hins ⊢
    have hout : (do_zadd strtod cmd out g).1
        = out ++ (Value.int
            (if (zset_insert { nodes := [] } (arg cmd 3) s).1 then 1 else 0)).encode := by
      unfold do_zadd
      simp only [hs, hl, Bool.not_true, Bool.false_eq_true, if_false, out_int_eq]
      rfl
    have hdb : (do_zadd strtod cmd out g).2.db
        = { key := arg cmd 1, heap_idx := none, type := T_ZSET, str := [],
            zset := (zset_insert { nodes := [] } (arg cmd 3) s).2 } :: g.db := by
      unfold do_zadd
      simp only [hs, hl, Bool.not_true, Bool.false_eq_true, if_false]
      rfl
    have hlook : hm_lookup (do_zadd strtod cmd out g).2.db (entry_eq (arg cmd 1))
        = some { key := arg cmd 1, heap_idx := none, type := T_ZSET, str := [],
                 zset := (zset_insert { nodes := [] } (arg cmd 3) s).2 } := by
      rw [hdb]
      unfold hm_lookup
      exact List.find?_cons_of_pos _ (by simp [entry_eq])
    refine ⟨hout, zset_at_present _ _ _ hlook rfl, ?_⟩
    intro e he
    have he1 := Option.some.inj (hlook.symm.trans he)
    subst he1
    exact ⟨rfl, hins.1⟩
  | some e =>
    have ht := (hk e hl).1
    have hz := zset_at_present g _ e hl ht
    rw [hz] at hins ⊢
    have hout : (do_zadd strtod cmd out g).1
        = out ++ (Value.int
            (if (zset_insert e.zset (arg cmd 3) s).1 then 1 else 0)).encode := by
      unfold do_zadd
      simp only [hs, hl, ht, Bool.not_true, Bool.false_eq_true, if_false, out_int_eq, ne_eq,
        not_true_eq_false]
    have hdb : (do_zadd strtod cmd out g).2.db
        = entry_update g.db (arg cmd 1)
            (fun x => { x with zset := (zset_insert e.zset (arg cmd 3) s).2 }) := by
      unfold do_zadd
      simp only [hs, hl, ht, Bool.not_true, Bool.false_eq_true, if_false, ne_eq,
        not_true_eq_false]
    have hlook : hm_lookup (do_zadd strtod cmd out g).2.db (entry_eq (arg cmd 1))
        = some { e with zset := (zset_insert e.zset (arg cmd 3) s).2 } := by
      rw [hdb]
      exact find_entry_update g.db (arg cmd 1)
        (fun x => { x with zset := (zset_insert e.zset (arg cmd 3) s).2 }) e (fun _ => rfl) hl
    refine ⟨hout, zset_at_present _ _ _ hlook ht, ?_⟩
    intro e1 he1
    have he2 := Option.some.inj (hlook.symm.trans he1)
    subst he2
    exact ⟨ht, hins.1⟩

/-- The effect of `zscore` on a key that is absent or holds a sorted set. -/
theorem do_zscore_spec (cmd : List Bytes) (out : Buffer) (g : GData)
    (hk : ZSetKey g (arg cmd 1)) :
    do_zscore cmd out g
      = (match zset_lookup (zset_at g (arg cmd 1)) (arg cmd 2) with
          | some j =>
            out ++ (Value.dbl (((zset_at g (arg cmd 1)).nodes[j]?).getD
              { score := { bits := 0 }, name := [] }).score).encode
          | none => out ++ Value.nil.encode, g) := by
  unfold do_zscore zset_at
  cases hl : hm_lookup g.db (entry_eq (arg cmd 1)) with
  | none =>
    rw [expect_zset_absent g _ hl]
    simp only []
    cases zset_lookup ZSetPtr.empty.deref (arg cmd 2) <;> simp [out_nil_eq, out_dbl_eq]
  | some e =>
    rw [expect_zset_present g _ e hl (hk e hl).1]
    simp only []
    cases zset_lookup (ZSetPtr.entry e.zset).deref (arg cmd 2) <;>
      simp [out_nil_eq, out_dbl_eq]

/-- After `zadd k s n`, `zscore k n` replies DBL `s`. -/
theorem zscore_after_zadd (strtod : Bytes → Dbl × Nat) (now1 now2 : Nat) (g : GData)
    (k n st : Bytes) (s : Dbl) (out1 out2 : Buffer)
    (hs : str2dbl strtod st = (true, s)) (hk : ZSetKey g k) :
    (do_request strtod now1 [ascii "zadd", k, st, n] out1 g).1
        = out1 ++ (Value.int
            (if (zset_insert (zset_at g k) n s).1 then 1 else 0)).encode
    ∧ do_request strtod now2 [ascii "zscore", k, n] out2
          (do_request strtod now1 [ascii "zadd", k, st, n] out1 g).2
        = (out2 ++ (Value.dbl s).encode,
            (do_request strtod now1 [ascii "zadd", k, st, n] out1 g).2)
    ∧ ZSetKey (do_request strtod now1 [ascii "zadd", k, st, n] out1 g).2 k
    ∧ zmember (do_request strtod now1 [ascii "zadd", k, st, n] out1 g).2 k n
    ∧ zset_at (do_request strtod now1 [ascii "zadd", k, st, n] out1 g).2 k
        = (zset_insert (zset_at g k) n s).2 := by
  rw [do_request_zadd]
  obtain ⟨h1, h2, h3⟩ := do_zadd_spec strtod [ascii "zadd", k, st, n] out1 g s hs hk
  have ha1 : arg [ascii "zadd", k, st, n] 1 = k := rfl
  have ha3 : arg [ascii "zadd", k, st, n] 3 = n := rfl
  rw [ha1, ha3] at h1 h2
  rw [ha1] at h3
  have hins := names_nodup_insert (zset_at g k) n s (zset_at_nodup g k hk)
  rw [← h2] at hins
  obtain ⟨j, hj1, hj2⟩ := zset_lookup_mem _ _ hins.1 hins.2.1
  refine ⟨h1, ?_, h3, ?_, h2⟩
  · rw [do_request_zscore, do_zscore_spec _ _ _ (by exact h3)]
    have hb1 : arg [ascii "zscore", k, n] 1 = k := rfl
    have hb2 : arg [ascii "zscore", k, n] 2 = n := rfl
    rw [hb1, hb2, hj1]
    simp only [hj2, Option.getD_some]
  · exact zset_lookup_some_mem _ _ _ hj1

/-- C8 (zadd and zscore).  For every keyspace state, every key `k` that is
absent or holds a sorted set, every name `n` and all non-NaN scores `s` and
`s'` (the values of the score texts): `zadd k s n` followed by `zscore k n`
replies DBL `s`; a further `zadd k s' n` replies INT 0 and a following
`zscore k n` replies DBL `s'`; and `zadd` replies INT 1 when `n` was not yet a
member of `k`, INT 0 when it was. -/
theorem zadd_then_zscore (strtod : Bytes → Dbl × Nat) (now1 now2 now3 now4 : Nat)
    (g : GData) (k n st st' : Bytes) (s s' : Dbl) (out1 out2 out3 out4 : Buffer)
    (hs : str2dbl strtod st = (true, s)) (hs' : str2dbl strtod st' = (true, s'))
    (hk : ZSetKey g k) :
    (((do_request strtod now1 [ascii "zadd", k, st, n] out1 g).1
          = out1 ++ (Value.int 1).encode ∧ ¬ zmember g k n)
      ∨ ((do_request strtod now1 [ascii "zadd", k, st, n] out1 g).1
          = out1 ++ (Value.int 0).encode ∧ zmember g k n))
    ∧ do_request strtod now2 [ascii "zscore", k, n] out2
          (do_request strtod now1 [ascii "zadd", k, st, n] out1 g).2
        = (out2 ++ (Value.dbl s).encode,
            (do_request strtod now1 [ascii "zadd", k, st, n] out1 g).2)
    ∧ (do_request strtod now3 [ascii "zadd", k, st', n] out3
          (do_request strtod now1 [ascii "zadd", k, st, n] out1 g).2).1
        = out3 ++ (Value.int 0).encode
    ∧ do_request strtod now4 [ascii "zscore", k, n] out4
          (do_request strtod now3 [ascii "zadd", k, st', n] out3
            (do_request strtod now1 [ascii "zadd", k, st, n] out1 g).2).2
        = (out4 ++ (Value.dbl s').encode,
            (do_request strtod now3 [ascii "zadd", k, st', n] out3
              (do_request strtod now1 [ascii "zadd", k, st, n] out1 g).2).2) := by
  obtain ⟨a1, a2, a3, a4, _⟩ := zscore_after_zadd strtod now1 now2 g k n st s out1 out2 hs hk
  obtain ⟨b1, b2, _, _, _⟩ := zscore_after_zadd strtod now3 now4
    (do_request strtod now1 [ascii "zadd", k, st, n] out1 g).2 k n st' s' out3 out4 hs' a3
  have hins := names_nodup_insert (zset_at g k) n s (zset_at_nodup g k hk)
  have hins2 := names_nodup_insert
    (zset_at (do_request strtod now1 [ascii "zadd", k, st, n] out1 g).2 k) n s'
    (zset_at_nodup _ k a3)
  refine ⟨?_, a2, ?_, b2⟩
  · by_cases hm : zmember g k n
    · right
      refine ⟨?_, hm⟩
      rw [a1]
      have : ¬ ((zset_insert (zset_at g k) n s).1 = true) := fun h => (hins.2.2.mp h) hm
      rw [if_neg this]
    · left
      refine ⟨?_, hm⟩
      rw [a1, if_pos (hins.2.2.mpr hm)]
  · rw [b1]
    have : ¬ ((zset_insert
        (zset_at (do_request strtod now1 [ascii "zadd", k, st, n] out1 g).2 k) n s').1 = true) :=
      fun h => (hins2.2.2.mp h) a4
    rw [if_neg this]

/-- C8 at the spec's scenario: `zadd z 1.0 x`, `zscore z x`, `zadd z 1.5 x`,
`zscore z x` from the empty keyspace. -/
theorem zadd_then_zscore_witness :
    ZSetKey g_init [122]
    ∧ do_request sample_strtod 0 [ascii "zscore", [122], [120]] []
          (do_request sample_strtod 0 [ascii "zadd", [122], ascii "1.0", [120]] [] g_init).2
        = ([] ++ (Value.dbl { bits := 0x3FF0000000000000 }).encode,
            (do_request sample_strtod 0 [ascii "zadd", [122], ascii "1.0", [120]] [] g_init).2)
    ∧ (do_request sample_strtod 0 [ascii "zadd", [122], ascii "1.5", [120]] []
          (do_request sample_strtod 0 [ascii "zadd", [122], ascii "1.0", [120]] [] g_init).2).1
        = [] ++ (Value.int 0).encode :=
  have hk : ZSetKey g_init [122] := by
    intro e he; simp [hm_lookup, g_init] at he
  have h := zadd_then_zscore sample_strtod 0 0 0 0 g_init [122] [120] (ascii "1.0")
    (ascii "1.5") { bits := 0x3FF0000000000000 } { bits := 0x3FF8000000000000 } [] [] [] []
    (by decide) (by decide) hk
  ⟨hk, h.2.1, h.2.2.1⟩

theorem do_zrem_not_member (cmd : List Bytes) (out : Buffer) (g : GData)
    (hk : ZSetKey g (arg cmd 1))
    (hl : zset_lookup (zset_at g (arg cmd 1)) (arg cmd 2) = none) :
    do_zrem cmd out g = (out ++ (Value.int 0).encode, g) := by
  unfold zset_at at hl
  unfold do_zrem
  cases hf : hm_lookup g.db (entry_eq (arg cmd 1)) with
  | none =>
    rw [expect_zset_absent g _ hf] at hl ⊢
    simp only [hl, out_int_eq]
  | some e =>
    rw [expect_zset_present g _ e hf (hk e hf).1] at hl ⊢
    simp only [hl, out_int_eq]

theorem do_zrem_member (cmd : List Bytes) (out : Buffer) (g : GData) (j : Nat)
    (hk : ZSetKey g (arg cmd 1))
    (hl : zset_lookup (zset_at g (arg cmd 1)) (arg cmd 2) = some j) :
    (do_zrem cmd out g).1 = out ++ (Value.int 1).encode
    ∧ zset_at (do_zrem cmd out g).2 (arg cmd 1) = zset_delete (zset_at g (arg cmd 1)) j
    ∧ ZSetKey (do_zrem cmd out g).2 (arg cmd 1) := by
  have hnd := zset_at_nodup g _ hk
  have hdel := zset_delete_lookup _ _ j hnd hl
  cases hf : hm_lookup g.db (entry_eq (arg cmd 1)) with
  | none =>
    rw [zset_at_absent g _ hf] at hl
    simp [zset_lookup, find_idx] at hl
  | some e =>
    have ht := (hk e hf).1
    have hz := zset_at_present g _ e hf ht
    rw [hz] at hl hdel ⊢
    have hout : (do_zrem cmd out g).1 = out ++ (Value.int 1).encode := by
      unfold do_zrem
      rw [expect_zset_present g _ e hf ht]
      simp only [ZSetPtr.deref, hl, out_int_eq]
    have hdb : (do_zrem cmd out g).2.db
        = entry_update g.db (arg cmd 1) (fun x => { x with zset := zset_delete e.zset j }) := by
      unfold do_zrem
      rw [expect_zset_present g _ e hf ht]
      simp only [ZSetPtr.deref, hl]
    have hlook : hm_lookup (do_zrem cmd out g).2.db (entry_eq (arg cmd 1))
        = some { e with zset := zset_delete e.zset j } := by
      rw [hdb]
      exact find_entry_update g.db (arg cmd 1)
        (fun x => { x with zset := zset_delete e.zset j }) e (fun _ => rfl) hf
    refine ⟨hout, zset_at_present _ _ _ hlook ht, ?_⟩
    intro e1 he1
    have he2 := Option.some.inj (hlook.symm.trans he1)
    subst he2
    exact ⟨ht, hdel.2⟩

/-- C9 (zrem and zscore).  For every keyspace state, every key `k` that is
absent or holds a sorted set, and every name `n`: after `zadd k s n`,
`zrem k n` replies INT 1 and a following `zscore k n` replies NIL; `zrem k n`
replies INT 0 and changes nothing when `n` is not a member of `k`; and on an
absent key `zrem` replies INT 0 and `zscore` replies NIL, the state staying as
it is (no key is created). -/
theorem zrem_then_zscore (strtod : Bytes → Dbl × Nat) (now1 now2 now3 : Nat) (g : GData)
    (k n st : Bytes) (s : Dbl) (out1 out2 out3 : Buffer)
    (hs : str2dbl strtod st = (true, s)) (hk : ZSetKey g k) :
    ((do_request strtod now2 [ascii "zrem", k, n] out2
          (do_request strtod now1 [ascii "zadd", k, st, n] out1 g).2).1
        = out2 ++ (Value.int 1).encode
      ∧ do_request strtod now3 [ascii "zscore", k, n] out3
            (do_request strtod now2 [ascii "zrem", k, n] out2
              (do_request strtod now1 [ascii "zadd", k, st, n] out1 g).2).2
          = (out3 ++ Value.nil.encode,
              (do_request strtod now2 [ascii "zrem", k, n] out2
                (do_request strtod now1 [ascii "zadd", k, st, n] out1 g).2).2))
    ∧ (¬ zmember g k n →
        do_request strtod now2 [ascii "zrem", k, n] out2 g
          = (out2 ++ (Value.int 0).encode, g))
    ∧ (hm_lookup g.db (entry_eq k) = none →
        do_request strtod now2 [ascii "zrem", k, n] out2 g
            = (out2 ++ (Value.int 0).encode, g)
        ∧ do_request strtod now3 [ascii "zscore", k, n] out3 g
            = (out3 ++ Value.nil.encode, g)) := by
  have hr1 : arg [ascii "zrem", k, n] 1 = k := rfl
  have hr2 : arg [ascii "zrem", k, n] 2 = n := rfl
  have hz1 : arg [ascii "zscore", k, n] 1 = k := rfl
  have hz2 : arg [ascii "zscore", k, n] 2 = n := rfl
  have notmem : ∀ g0 : GData, ZSetKey g0 k → ¬ zmember g0 k n →
      do_request strtod now2 [ascii "zrem", k, n] out2 g0
          = (out2 ++ (Value.int 0).encode, g0)
      ∧ do_request strtod now3 [ascii "zscore", k, n] out3 g0
          = (out3 ++ Value.nil.encode, g0) := by
    intro g0 hk0 hm
    have hl := zset_lookup_none (zset_at g0 k) n hm
    refine ⟨?_, ?_⟩
    · rw [do_request_zrem]
      exact do_zrem_not_member _ _ _ (by rw [hr1]; exact hk0) (by rw [hr1, hr2]; exact hl)
    · rw [do_request_zscore, do_zscore_spec _ _ _ (by rw [hz1]; exact hk0), hz1, hz2, hl]
  refine ⟨?_, fun hm => (notmem g hk hm).1, ?_⟩
  · obtain ⟨_, _, a3, a4, _⟩ := zscore_after_zadd strtod now1 now1 g k n st s out1 out1 hs hk
    generalize (do_request strtod now1 [ascii "zadd", k, st, n] out1 g).2 = g1 at a3 a4 ⊢
    have hnd := zset_at_nodup g1 k a3
    obtain ⟨nd, hnd1, hnd2⟩ := List.mem_map.mp a4
    obtain ⟨j, hj, _⟩ := zset_lookup_mem (zset_at g1 k) nd hnd hnd1
    rw [hnd2] at hj
    rw [do_request_zrem]
    obtain ⟨b1, b2, b3⟩ := do_zrem_member [ascii "zrem", k, n] out2 g1 j
      (by rw [hr1]; exact a3) (by rw [hr1, hr2]; exact hj)
    rw [hr1] at b2 b3
    refine ⟨b1, ?_⟩
    have hdel := zset_delete_lookup _ _ j hnd hj
    rw [← b2] at hdel
    rw [do_request_zscore, do_zscore_spec _ _ _ (by rw [hz1]; exact b3), hz1, hz2, hdel.1]
  · intro habs
    have hm : ¬ zmember g k n := by
      unfold zmember
      rw [zset_at_absent g k habs]
      simp
    exact notmem g hk hm

/-- C9 at a concrete input: `zadd z 1.0 x`, `zrem z x`, `zscore z x` from the
empty keyspace. -/
theorem zrem_then_zscore_witness :
    ZSetKey g_init [122]
    ∧ (do_request sample_strtod 0 [ascii "zrem", [122], [120]] []
          (do_request sample_strtod 0 [ascii "zadd", [122], ascii "1.0", [120]] [] g_init).2).1
        = [] ++ (Value.int 1).encode
    ∧ do_request sample_strtod 0 [ascii "zscore", [122], [120]] []
          (do_request sample_strtod 0 [ascii "zrem", [122], [120]] []
            (do_request sample_strtod 0 [ascii "zadd", [122], ascii "1.0", [120]] []
              g_init).2).2
        = ([] ++ Value.nil.encode,
            (do_request sample_strtod 0 [ascii "zrem", [122], [120]] []
              (do_request sample_strtod 0 [ascii "zadd", [122], ascii "1.0", [120]] []
                g_init).2).2) :=
  have hk : ZSetKey g_init [122] := by
    intro e he; simp [hm_lookup, g_init] at he
  have h := zrem_then_zscore sample_strtod 0 0 0 g_init [122] [120] (ascii "1.0")
    { bits := 0x3FF0000000000000 } [] [] [] (by decide) hk
  ⟨hk, h.1.1, h.1.2⟩

theorem zquery_count_zero (limit : Int) (h : limit ≤ 0) : zquery_count limit 0 = 0 := by
  unfold zquery_count; omega

theorem zquery_count_pos (limit : Int) (h : 0 < limit) : 0 < zquery_count limit 0 := by
  unfold zquery_count; omega

theorem expect_zset_ne_null (g : GData) (k : Bytes) (hk : ZSetKey g k) :
    expect_zset g k ≠ ZSetPtr.null := by
  cases hf : hm_lookup g.db (entry_eq k) with
  | none => rw [expect_zset_absent g k hf]; simp
  | some e => rw [expect_zset_present g k e hf (hk e hf).1]; simp

theorem do_zquery_spec (strtod : Bytes → Dbl × Nat) (cmd : List Bytes) (out : Buffer)
    (g : GData) (score : Dbl) (offset limit : Int)
    (hs : str2dbl strtod (arg cmd 2) = (true, score))
    (ho : str2int (arg cmd 4) = (true, offset))
    (hl : str2int (arg cmd 5) = (true, limit))
    (hk : ZSetKey g (arg cmd 1)) :
    do_zquery strtod cmd out g
      = (out ++ (Value.arr (zpairs ((zrange (zset_at g (arg cmd 1)) score (arg cmd 3)
            offset).take (zquery_count limit 0)))).encode, g) := by
  unfold do_zquery
  simp only [hs, ho, hl, Bool.not_true, Bool.false_eq_true, if_false, Bool.or_self]
  have hnn := expect_zset_ne_null g _ hk
  have hz : zset_at g (arg cmd 1) = (expect_zset g (arg cmd 1)).deref := rfl
  rw [hz]
  generalize expect_zset g (arg cmd 1) = zp at hnn ⊢
  by_cases hlim : limit ≤ 0
  · have e0 := zquery_count_zero limit hlim
    cases zp with
    | null => exact absurd rfl hnn
    | empty => simp only [if_pos hlim, out_arr_zero, e0, List.take_zero, zpairs]
    | entry z => simp only [if_pos hlim, out_arr_zero, e0, List.take_zero, zpairs]
  · cases zp with
    | null => exact absurd rfl hnn
    | empty =>
      simp only [if_neg hlim]
      rw [do_zquery_body_eq]
    | entry z =>
      simp only [if_neg hlim]
      rw [do_zquery_body_eq]

end Server
namespace Server

theorem g_ranked_eq :
    g_ranked =
      { db := [{ key := [122], heap_idx := none, type := T_ZSET, str := [],
                 zset := { nodes := [{ score := { bits := 0x3FF8000000000000 }, name := [120] },
                                     { score := { bits := 0x4000000000000000 }, name := [121] }] } }],
        fd2conn := [], idle_list := [], heap := [] } := by
  decide

end Server
namespace Server

theorem zrange_start (zset : ZSet) (score : Dbl) (name : Bytes) (offset : Int) (i : Nat)
    (hi : zset_seekge zset score name = some i)
    (h0 : 0 ≤ (i : Int) + offset) (h1 : (i : Int) + offset < zset.nodes.length) :
    zrange zset score name offset = zset.nodes.drop ((i : Int) + offset).toNat := by
  unfold zrange znode_offset
  rw [hi]
  simp only [if_pos (And.intro h0 h1)]

theorem zrange_off (zset : ZSet) (score : Dbl) (name : Bytes) (offset : Int)
    (h : zset_seekge zset score name = none
      ∨ ∃ i : Nat, zset_seekge zset score name = some i
          ∧ ((i : Int) + offset < 0 ∨ (zset.nodes.length : Int) ≤ (i : Int) + offset)) :
    zrange zset score name offset = [] := by
  unfold zrange znode_offset
  rcases h with h | ⟨i, hi, h⟩
  · rw [h]
  · rw [hi]
    have : ¬ (0 ≤ (i : Int) + offset ∧ (i : Int) + offset < zset.nodes.length) := by omega
    simp only [if_neg this]

theorem zrange_sublist (zset : ZSet) (score : Dbl) (name : Bytes) (offset : Int) (m : Nat) :
    ((zrange zset score name offset).take m).Sublist zset.nodes := by
  refine (List.take_sublist _ _).trans ?_
  unfold zrange
  split
  · exact List.nil_sublist _
  · exact List.drop_sublist _ _

/-- C10 (zquery).  For every keyspace state, every key `k` that is absent or
holds a sorted set, and every `zquery k score name offset limit` whose score
and integers parse: the reply is an ARR whose children are, alternately, STR
name and DBL score of a run of consecutive members of the set in its stored
order, which is ascending (score, name) order when the set is sorted.  With
`limit > 0` the run can hold at least one member, and it begins at the member
reached by stepping `offset` positions from the first member `i` that does not
come before `(score, name)`, every member before `i` coming before the pair.
The reply is the empty ARR when there is no such `i` or the step leaves the
set at either end, when `k` is absent, or when `limit <= 0`.  The state is left
as it is. -/
theorem zquery_reply (strtod : Bytes → Dbl × Nat) (now : Nat) (g : GData)
    (k st nm ot lt : Bytes) (score : Dbl) (offset limit : Int) (out : Buffer)
    (hs : str2dbl strtod st = (true, score)) (ho : str2int ot = (true, offset))
    (hl : str2int lt = (true, limit)) (hk : ZSetKey g k) :
    do_request strtod now [ascii "zquery", k, st, nm, ot, lt] out g
        = (out ++ (Value.arr (zpairs ((zrange (zset_at g k) score nm offset).take
              (zquery_count limit 0)))).encode, g)
    ∧ (0 < limit → 0 < zquery_count limit 0)
    ∧ (∀ i : Nat, zset_seekge (zset_at g k) score nm = some i →
        (∃ nd, (zset_at g k).nodes[i]? = some nd
          ∧ znode_lt nd { score := score, name := nm } = false)
        ∧ (∀ j, j < i → ∀ x, (zset_at g k).nodes[j]? = some x →
            znode_lt x { score := score, name := nm } = true)
        ∧ (0 ≤ (i : Int) + offset → (i : Int) + offset < (zset_at g k).nodes.length →
            zrange (zset_at g k) score nm offset
              = (zset_at g k).nodes.drop ((i : Int) + offset).toNat))
    ∧ (zset_sorted (zset_at g k) →
        ((zrange (zset_at g k) score nm offset).take (zquery_count limit 0)).Pairwise
          (fun a b => znode_lt a b = true))
    ∧ ((limit ≤ 0 ∨ hm_lookup g.db (entry_eq k) = none
          ∨ zset_seekge (zset_at g k) score nm = none
          ∨ ∃ i : Nat, zset_seekge (zset_at g k) score nm = some i
              ∧ ((i : Int) + offset < 0
                ∨ ((zset_at g k).nodes.length : Int) ≤ (i : Int) + offset)) →
        do_request strtod now [ascii "zquery", k, st, nm, ot, lt] out g
          = (out ++ (Value.arr []).encode, g)) := by
  have main : do_request strtod now [ascii "zquery", k, st, nm, ot, lt] out g
        = (out ++ (Value.arr (zpairs ((zrange (zset_at g k) score nm offset).take
              (zquery_count limit 0)))).encode, g) := by
    rw [do_request_zquery]
    exact do_zquery_spec strtod [ascii "zquery", k, st, nm, ot, lt] out g score offset limit
      hs ho hl hk
  refine ⟨main, zquery_count_pos limit, ?_, ?_, ?_⟩
  · intro i hi
    obtain ⟨hlt, hp, hfirst⟩ := find_idx_some _ _ _ hi
    refine ⟨⟨_, List.getElem?_eq_getElem hlt, by simpa using hp⟩, ?_, zrange_start _ _ _ _ i hi⟩
    intro j hj x hx
    simpa using hfirst j hj x hx
  · intro hsorted
    exact List.Pairwise.sublist (zrange_sublist _ _ _ _ _) hsorted
  · intro h
    rw [main]
    rcases h with h | h | h | h
    · rw [zquery_count_zero limit h]; rfl
    · have : zrange (zset_at g k) score nm offset = [] := by
        apply zrange_off
        left
        rw [zset_at_absent g k h]
        rfl
      rw [this, List.take_nil]; rfl
    · rw [zrange_off _ _ _ _ (Or.inl h), List.take_nil]; rfl
    · rw [zrange_off _ _ _ _ (Or.inr h), List.take_nil]; rfl

theorem g_ranked_key : ZSetKey g_ranked [122] := by
  rw [g_ranked_eq]
  intro e he
  simp [hm_lookup, entry_eq] at he
  subst he
  exact ⟨rfl, by decide⟩

/-- C10 at the scenario of the specification: after `zadd z 1.0 x`,
`zadd z 2.0 y`, `zadd z 1.5 x`, the request `zquery z 0 "" 0 10` replies
ARR[STR x, DBL 1.5, STR y, DBL 2.0] and `zquery z 1.5 x 1 2` replies
ARR[STR y, DBL 2.0]. -/
theorem zquery_reply_witness :
    ZSetKey g_ranked [122]
    ∧ zset_sorted (zset_at g_ranked [122])
    ∧ do_request sample_strtod 0
          [ascii "zquery", [122], ascii "0", [], ascii "0", ascii "10"] [] g_ranked
        = ((Value.arr [Value.str [120], Value.dbl { bits := 0x3FF8000000000000 },
              Value.str [121], Value.dbl { bits := 0x4000000000000000 }]).encode, g_ranked)
    ∧ do_request sample_strtod 0
          [ascii "zquery", [122], ascii "1.5", [120], ascii "1", ascii "2"] [] g_ranked
        = ((Value.arr [Value.str [121], Value.dbl { bits := 0x4000000000000000 }]).encode,
            g_ranked) :=
  have hz : zset_at g_ranked [122]
      = { nodes := [{ score := { bits := 0x3FF8000000000000 }, name := [120] },
                    { score := { bits := 0x4000000000000000 }, name := [121] }] } := by
    decide
  ⟨g_ranked_key, by rw [hz]; unfold zset_sorted; decide,
    (zquery_reply sample_strtod 0 g_ranked [122] (ascii "0") [] (ascii "0") (ascii "10")
      { bits := 0 } 0 10 [] (by decide) (by decide) (by decide) g_ranked_key).1.trans
      (by rw [hz]; decide),
    (zquery_reply sample_strtod 0 g_ranked [122] (ascii "1.5") [120] (ascii "1") (ascii "2")
      { bits := 0x3FF8000000000000 } 1 2 [] (by decide) (by decide) (by decide)
      g_ranked_key).1.trans (by rw [hz]; decide)⟩

theorem zquery_count_eq (limit : Int) (h : 0 < limit) :
    ((zquery_count limit 0 : Nat) : Int) = (limit + 1) / 2 := by
  unfold zquery_count; omega

/-- C11 (zquery pair count), amended.  For every keyspace state, every key `k`
that is absent or holds a sorted set, and every `zquery` with integer
`limit > 0` whose arguments parse: the reply holds the pairs of a run of `c`
members, `c` being the smaller of the number of members from the start
position on and `(limit + 1) / 2` (integer division), so `c` is at most
`(limit + 1) / 2`; the reply is the ARR tag, the four header bytes written by
`out_end_arr`, which carry the count `2 * c` as a `uint32_t`, and then exactly
`2 * c` tagged children; the header reads back as `2 * c` when that is below
`2^32`. -/
theorem zquery_pair_count (strtod : Bytes → Dbl × Nat) (now : Nat) (g : GData)
    (k st nm ot lt : Bytes) (score : Dbl) (offset limit : Int) (out : Buffer)
    (hs : str2dbl strtod st = (true, score)) (ho : str2int ot = (true, offset))
    (hl : str2int lt = (true, limit)) (hk : ZSetKey g k) (hlim : 0 < limit) :
    do_request strtod now [ascii "zquery", k, st, nm, ot, lt] out g
        = (out ++ ([TAG_ARR]
            ++ le_bytes 4 (2 * ((zrange (zset_at g k) score nm offset).take
                (zquery_count limit 0)).length)
            ++ Value.encode_list (zpairs ((zrange (zset_at g k) score nm offset).take
                (zquery_count limit 0)))), g)
    ∧ (zpairs ((zrange (zset_at g k) score nm offset).take (zquery_count limit 0))).length
        = 2 * ((zrange (zset_at g k) score nm offset).take (zquery_count limit 0)).length
    ∧ (((zrange (zset_at g k) score nm offset).take (zquery_count limit 0)).length : Int)
        = min ((zrange (zset_at g k) score nm offset).length : Int) ((limit + 1) / 2)
    ∧ (((zrange (zset_at g k) score nm offset).take (zquery_count limit 0)).length : Int)
        ≤ (limit + 1) / 2
    ∧ (2 * ((zrange (zset_at g k) score nm offset).take (zquery_count limit 0)).length
          < 2 ^ 32 →
        le_val (le_bytes 4 (2 * ((zrange (zset_at g k) score nm offset).take
            (zquery_count limit 0)).length))
          = 2 * ((zrange (zset_at g k) score nm offset).take
              (zquery_count limit 0)).length) := by
  have hc := zquery_count_eq limit hlim
  have hlen : (((zrange (zset_at g k) score nm offset).take (zquery_count limit 0)).length : Int)
        = min ((zrange (zset_at g k) score nm offset).length : Int) ((limit + 1) / 2) := by
    rw [List.length_take, ← hc]
    omega
  refine ⟨?_, zpairs_length _, hlen, ?_, ?_⟩
  · rw [do_request_zquery,
      do_zquery_spec strtod [ascii "zquery", k, st, nm, ot, lt] out g score offset limit
        hs ho hl hk]
    simp only [Value.encode, zpairs_length, TAG_ARR]
    rfl
  · rw [hlen]; exact min_le_right _ _
  · intro h
    exact le_val_le_bytes_of_lt 4 _ (by simpa using h)

/-- C11 at a concrete input: `zquery z 0 "" 0 2` on the ranked-set scenario
replies one pair, with the header count 2. -/
theorem zquery_pair_count_witness :
    ZSetKey g_ranked [122] ∧ (0 : Int) < 2
    ∧ do_request sample_strtod 0
          [ascii "zquery", [122], ascii "0", [], ascii "0", ascii "2"] [] g_ranked
        = ([] ++ ([TAG_ARR] ++ le_bytes 4 2
            ++ Value.encode_list [Value.str [120], Value.dbl { bits := 0x3FF8000000000000 }]),
            g_ranked) :=
  have hz : zset_at g_ranked [122]
      = { nodes := [{ score := { bits := 0x3FF8000000000000 }, name := [120] },
                    { score := { bits := 0x4000000000000000 }, name := [121] }] } := by
    decide
  ⟨g_ranked_key, by decide,
    (zquery_pair_count sample_strtod 0 g_ranked [122] (ascii "0") [] (ascii "0") (ascii "2")
      { bits := 0 } 0 2 [] (by decide) (by decide) (by decide) g_ranked_key
      (by decide)).1.trans (by rw [hz]; decide)⟩

/-- C11 as stated fails: on the ranked-set scenario `zquery z 0 "" 0 1` has
`limit = 1`, so `limit / 2 = 0`, and the reply is ARR with the header count 2
and one (name, score) pair; no run of at most `limit / 2` members has that
reply. -/
theorem zquery_odd_limit :
    str2int (ascii "1") = (true, 1)
    ∧ do_request sample_strtod 0
          [ascii "zquery", [122], ascii "0", [], ascii "0", ascii "1"] [] g_ranked
        = ((Value.arr (zpairs [{ score := { bits := 0x3FF8000000000000 }, name := [120] }])).encode,
            g_ranked)
    ∧ ¬ (([({ score := { bits := 0x3FF8000000000000 }, name := [120] } : ZNode)].length : Int)
          ≤ 1 / 2)
    ∧ ∀ run : List ZNode,
        do_request sample_strtod 0
            [ascii "zquery", [122], ascii "0", [], ascii "0", ascii "1"] [] g_ranked
          = ((Value.arr (zpairs run)).encode, g_ranked) →
        ¬ ((run.length : Int) ≤ 1 / 2) := by
  have hr : do_request sample_strtod 0
          [ascii "zquery", [122], ascii "0", [], ascii "0", ascii "1"] [] g_ranked
        = ((Value.arr (zpairs [{ score := { bits := 0x3FF8000000000000 }, name := [120] }])).encode,
            g_ranked) := by
    rw [g_ranked_eq]
    decide
  refine ⟨by decide, hr, by decide, ?_⟩
  intro run h hle
  have h0 : run = [] := by
    cases run with
    | nil => rfl
    | cons x xs => simp at hle; omega
  subst h0
  rw [hr] at h
  have h1 := congrArg Prod.fst h
  revert h1
  decide

theorem try_one_request_err (strtod : Bytes → Dbl × Nat) (now : Nat) (conn : Conn)
    (g : GData) (args : List Bytes) (rest : Bytes) (code : Nat) (msg : Bytes)
    (hn : args.length ≤ k_max_args)
    (hp : (encode_payload args).length ≤ k_max_msg)
    (hin : conn.incoming = encode_frame args ++ rest)
    (hmsg : msg.length ≤ 1000)
    (hreq : ∀ out, do_request strtod now args out g = (out ++ (Value.err code msg).encode, g)) :
    try_one_request strtod now conn g
      = (true,
         { conn with
             outgoing := conn.outgoing ++ frame_body (Value.err code msg).encode,
             incoming := rest },
         g) := by
  rw [try_one_request_frame strtod now conn g args rest hn hp hin]
  have h1 : reply_of strtod now args g = (Value.err code msg).encode := by
    unfold reply_of; rw [hreq]; rfl
  have h2 : state_after strtod now args g = g := by
    unfold state_after; rw [hreq]
  have h3 : capped_body (Value.err code msg).encode = (Value.err code msg).encode := by
    unfold capped_body
    have : ¬ ((Value.err code msg).encode.length > k_max_msg) := by
      simp [Value.encode, le_bytes_length, k_max_msg]; omega
    rw [if_neg this]
  rw [h1, h2, h3]

theorem do_get_wrong_kind (cmd : List Bytes) (out : Buffer) (g : GData) (e : Entry)
    (h : hm_lookup g.db (entry_eq (arg cmd 1)) = some e) (ht : e.type ≠ T_STR) :
    do_get cmd out g
      = (out ++ (Value.err ERR_BAD_TYP (ascii "not a string value")).encode, g) := by
  unfold do_get; rw [h]; simp only [ht, ne_eq, not_false_eq_true, if_true, out_err_eq]

theorem do_set_wrong_kind (cmd : List Bytes) (out : Buffer) (g : GData) (e : Entry)
    (h : hm_lookup g.db (entry_eq (arg cmd 1)) = some e) (ht : e.type ≠ T_STR) :
    do_set cmd out g
      = (out ++ (Value.err ERR_BAD_TYP (ascii "a non-string value exists")).encode, g) := by
  unfold do_set; rw [h]; simp only [ht, ne_eq, not_false_eq_true, if_true, out_err_eq]

theorem expect_zset_wrong_kind (g : GData) (k : Bytes) (e : Entry)
    (h : hm_lookup g.db (entry_eq k) = some e) (ht : e.type ≠ T_ZSET) :
    expect_zset g k = ZSetPtr.null := by
  unfold expect_zset; rw [h]; simp [ht]

theorem do_zadd_wrong_kind (strtod : Bytes → Dbl × Nat) (cmd : List Bytes) (out : Buffer)
    (g : GData) (e : Entry) (s : Dbl)
    (hs : str2dbl strtod (arg cmd 2) = (true, s))
    (h : hm_lookup g.db (entry_eq (arg cmd 1)) = some e) (ht : e.type ≠ T_ZSET) :
    do_zadd strtod cmd out g
      = (out ++ (Value.err ERR_BAD_TYP (ascii "expect zset")).encode, g) := by
  unfold do_zadd
  simp only [hs, h, Bool.not_true, Bool.false_eq_true, if_false, ht, ne_eq, not_false_eq_true,
    if_true, out_err_eq]

theorem do_zrem_wrong_kind (cmd : List Bytes) (out : Buffer) (g : GData) (e : Entry)
    (h : hm_lookup g.db (entry_eq (arg cmd 1)) = some e) (ht : e.type ≠ T_ZSET) :
    do_zrem cmd out g
      = (out ++ (Value.err ERR_BAD_TYP (ascii "expect zset")).encode, g) := by
  unfold do_zrem; rw [expect_zset_wrong_kind g _ e h ht]; simp only [out_err_eq]

theorem do_zscore_wrong_kind (cmd : List Bytes) (out : Buffer) (g : GData) (e : Entry)
    (h : hm_lookup g.db (entry_eq (arg cmd 1)) = some e) (ht : e.type ≠ T_ZSET) :
    do_zscore cmd out g
      = (out ++ (Value.err ERR_BAD_TYP (ascii "expect zset")).encode, g) := by
  unfold do_zscore; rw [expect_zset_wrong_kind g _ e h ht]; simp only [out_err_eq]

theorem do_zquery_wrong_kind (strtod : Bytes → Dbl × Nat) (cmd : List Bytes) (out : Buffer)
    (g : GData) (e : Entry) (s : Dbl) (offset limit : Int)
    (hs : str2dbl strtod (arg cmd 2) = (true, s))
    (ho : str2int (arg cmd 4) = (true, offset))
    (hl : str2int (arg cmd 5) = (true, limit))
    (h : hm_lookup g.db (entry_eq (arg cmd 1)) = some e) (ht : e.type ≠ T_ZSET) :
    do_zquery strtod cmd out g
      = (out ++ (Value.err ERR_BAD_TYP (ascii "expect zset")).encode, g) := by
  unfold do_zquery
  simp only [hs, ho, hl, Bool.not_true, Bool.false_eq_true, if_false, Bool.or_self]
  rw [expect_zset_wrong_kind g _ e h ht]
  simp only [out_err_eq]

end Server
namespace Server

/-- C12 (value-kind mismatch).  For every keyspace state in which the key `kz`
holds a sorted set and the key `ks` holds a string: `get kz` and `set kz v`,
and `zadd`, `zrem`, `zscore` and `zquery` on `ks` with numeric arguments that
parse, each reply ERR with the code BAD_TYP, which is 3; the handler returns
the state as it was (keyspace, stored values and TTL heap); and when the
request arrives as a frame, `try_one_request` appends the framed error,
consumes the frame, returns `true` and leaves `want_close` as it was. -/
theorem kind_mismatch_atomic (strtod : Bytes → Dbl × Nat) (now : Nat) (g : GData)
    (kz ks v n st ot lt : Bytes) (ez es : Entry) (score : Dbl) (offset limit : Int)
    (hz : hm_lookup g.db (entry_eq kz) = some ez) (hzt : ez.type = T_ZSET)
    (hsl : hm_lookup g.db (entry_eq ks) = some es) (hst : es.type = T_STR)
    (hs : str2dbl strtod st = (true, score)) (ho : str2int ot = (true, offset))
    (hl : str2int lt = (true, limit)) :
    ERR_BAD_TYP = 3
    ∧ ∀ p ∈ [([ascii "get", kz], ascii "not a string value"),
             ([ascii "set", kz, v], ascii "a non-string value exists"),
             ([ascii "zadd", ks, st, n], ascii "expect zset"),
             ([ascii "zrem", ks, n], ascii "expect zset"),
             ([ascii "zscore", ks, n], ascii "expect zset"),
             ([ascii "zquery", ks, st, n, ot, lt], ascii "expect zset")],
        (∀ out, do_request strtod now p.1 out g
            = (out ++ (Value.err ERR_BAD_TYP p.2).encode, g))
        ∧ ∀ (conn : Conn) (rest : Bytes), (encode_payload p.1).length ≤ k_max_msg →
            conn.incoming = encode_frame p.1 ++ rest →
            try_one_request strtod now conn g
                = (true,
                   { conn with
                       outgoing := conn.outgoing
                         ++ frame_body (Value.err ERR_BAD_TYP p.2).encode,
                       incoming := rest },
                   g)
            ∧ (try_one_request strtod now conn g).2.1.want_close = conn.want_close := by
  have hz1 : ez.type ≠ T_STR := by rw [hzt]; decide
  have hs1 : es.type ≠ T_ZSET := by rw [hst]; decide
  have key : ∀ (cmd : List Bytes) (msg : Bytes), cmd.length ≤ 6 → msg.length ≤ 1000 →
      (∀ out, do_request strtod now cmd out g
          = (out ++ (Value.err ERR_BAD_TYP msg).encode, g)) →
      (∀ out, do_request strtod now cmd out g
          = (out ++ (Value.err ERR_BAD_TYP msg).encode, g))
      ∧ ∀ (conn : Conn) (rest : Bytes), (encode_payload cmd).length ≤ k_max_msg →
          conn.incoming = encode_frame cmd ++ rest →
          try_one_request strtod now conn g
              = (true,
                 { conn with
                     outgoing := conn.outgoing
                       ++ frame_body (Value.err ERR_BAD_TYP msg).encode,
                     incoming := rest },
                 g)
          ∧ (try_one_request strtod now conn g).2.1.want_close = conn.want_close := by
    intro cmd msg hc hm hreq
    refine ⟨hreq, ?_⟩
    intro conn rest hp hin
    have hn : cmd.length ≤ k_max_args := by
      have : k_max_args = 200000 := by decide
      omega
    have h := try_one_request_err strtod now conn g cmd rest ERR_BAD_TYP msg hn hp hin hm hreq
    exact ⟨h, by rw [h]⟩
  refine ⟨rfl, ?_⟩
  intro p hp
  simp only [List.mem_cons, List.mem_singleton, List.not_mem_nil, or_false] at hp
  rcases hp with rfl | rfl | rfl | rfl | rfl | rfl
  · refine key _ _ (by simp) (show (ascii "not a string value").length ≤ 1000 by decide) ?_
    intro out
    rw [do_request_get]
    exact do_get_wrong_kind _ out g ez hz hz1
  · refine key _ _ (by simp) (show (ascii "a non-string value exists").length ≤ 1000 by decide) ?_
    intro out
    rw [do_request_set]
    exact do_set_wrong_kind _ out g ez hz hz1
  · refine key _ _ (by simp) (show (ascii "expect zset").length ≤ 1000 by decide) ?_
    intro out
    rw [do_request_zadd]
    exact do_zadd_wrong_kind strtod _ out g es score hs hsl hs1
  · refine key _ _ (by simp) (show (ascii "expect zset").length ≤ 1000 by decide) ?_
    intro out
    rw [do_request_zrem]
    exact do_zrem_wrong_kind _ out g es hsl hs1
  · refine key _ _ (by simp) (show (ascii "expect zset").length ≤ 1000 by decide) ?_
    intro out
    rw [do_request_zscore]
    exact do_zscore_wrong_kind _ out g es hsl hs1
  · refine key _ _ (by simp) (show (ascii "expect zset").length ≤ 1000 by decide) ?_
    intro out
    rw [do_request_zquery]
    exact do_zquery_wrong_kind strtod _ out g es score offset limit hs ho hl hsl hs1

/-- C12 at a concrete input: on the sample state, where "z" holds a sorted set
and "a" a string, `get z` and `zadd a 1.0 x` reply ERR(BAD_TYP) and return the
state as it was. -/
theorem kind_mismatch_atomic_witness :
    do_request sample_strtod 0 [ascii "get", [122]] [] g_sample
        = ([] ++ (Value.err ERR_BAD_TYP (ascii "not a string value")).encode, g_sample)
    ∧ do_request sample_strtod 0 [ascii "zadd", [97], ascii "1.0", [120]] [] g_sample
        = ([] ++ (Value.err ERR_BAD_TYP (ascii "expect zset")).encode, g_sample) :=
  have h := (kind_mismatch_atomic sample_strtod 0 g_sample [122] [97] [] [120]
      (ascii "1.0") (ascii "0") (ascii "0")
      { key := [122], heap_idx := none, type := T_ZSET, str := [],
        zset := { nodes := [{ score := { bits := 0x3FF8000000000000 }, name := [120] },
                            { score := { bits := 0x4000000000000000 }, name := [121] }] } }
      { key := [97], heap_idx := some 0, type := T_STR, str := [49], zset := { nodes := [] } }
      { bits := 0x3FF0000000000000 } 0 0
      (by decide) rfl (by decide) rfl (by decide) (by decide) (by decide)).2
  ⟨(h _ (List.mem_cons_self _ _)).1 [],
   (h _ (List.mem_cons_of_mem _ (List.mem_cons_of_mem _ (List.mem_cons_self _ _)))).1 []⟩

theorem take_takeWhile_length {α : Type} (p : α → Bool) (l : List α) :
    l.take (l.takeWhile p).length = l.takeWhile p := by
  have h := List.takeWhile_prefix p (l := l)
  exact (List.prefix_iff_eq_take.mp h).symm

theorem split_takeWhile {α : Type} (p : α → Bool) (l : List α) :
    l = l.takeWhile p ++ l.drop (l.takeWhile p).length := by
  conv_lhs => rw [← List.take_append_drop (l.takeWhile p).length l]
  rw [take_takeWhile_length]

theorem mem_takeWhile_imp {α : Type} (p : α → Bool) (l : List α) (x : α)
    (h : x ∈ l.takeWhile p) : p x = true := by
  induction l with
  | nil => simp at h
  | cons y ys ih =>
    simp only [List.takeWhile] at h
    cases hy : p y with
    | false => rw [hy] at h; simp at h
    | true =>
      rw [hy] at h
      rcases List.mem_cons.mp h with rfl | h
      · exact hy
      · exact ih h

theorem strtoll_parts (cs : Bytes) :
    ∃ ws sg ds tl : Bytes, cs = ws ++ sg ++ ds ++ tl
      ∧ (∀ c ∈ ws, isspace c = true)
      ∧ (sg = [] ∨ sg = [43] ∨ sg = [45])
      ∧ (∀ c ∈ ds, isdigit c = true)
      ∧ (strtoll cs).2 = if ds.length = 0 then 0 else ws.length + sg.length + ds.length := by
  let ws := cs.takeWhile isspace
  let rest := cs.drop ws.length
  let signlen := if rest.head? == some 45 || rest.head? == some 43 then 1 else 0
  let ds := (rest.drop signlen).takeWhile isdigit
  refine ⟨ws, rest.take signlen, ds, (rest.drop signlen).drop ds.length, ?_, ?_, ?_, ?_, ?_⟩
  · have h1 : cs = ws ++ rest := split_takeWhile isspace cs
    have h2 : rest = rest.take signlen ++ rest.drop signlen := (List.take_append_drop _ _).symm
    have h3 : rest.drop signlen = ds ++ (rest.drop signlen).drop ds.length :=
      split_takeWhile isdigit _
    calc cs = ws ++ rest := h1
      _ = ws ++ (rest.take signlen ++ rest.drop signlen) := by rw [← h2]
      _ = ws ++ (rest.take signlen ++ (ds ++ (rest.drop signlen).drop ds.length)) := by
          rw [← h3]
      _ = _ := by simp only [List.append_assoc]
  · intro c hc; exact mem_takeWhile_imp _ _ _ hc
  · show rest.take signlen = [] ∨ rest.take signlen = [43] ∨ rest.take signlen = [45]
    cases hr : rest with
    | nil => left; simp
    | cons a as =>
      by_cases h45 : a = 45
      · right; right
        simp [signlen, hr, h45]
      · by_cases h43 : a = 43
        · right; left
          simp [signlen, hr, h43]
        · left
          simp [signlen, hr, h45, h43]
  · intro c hc; exact mem_takeWhile_imp _ _ _ hc
  · have hsl : (rest.take signlen).length = signlen := by
      cases hr : rest with
      | nil =>
        have : signlen = 0 := by simp [signlen, hr]
        simp [this]
      | cons a as =>
        have : signlen ≤ 1 := by
          show (if rest.head? == some 45 || rest.head? == some 43 then 1 else 0) ≤ 1
          split <;> omega
        simp; omega
    rw [hsl]
    show (strtoll cs).2 = if ds.length = 0 then 0 else ws.length + signlen + ds.length
    show (if ds.length = 0 then ((0 : Int), 0)
      else (_, ws.length + signlen + ds.length)).2 = _
    rw [apply_ite Prod.snd]

theorem c_str_initial (s : Bytes) : c_str s <+: s := List.takeWhile_prefix _

theorem str2int_accepts (x : Bytes) (h : (str2int x).1 = true) : x = [] ∨ IntText x := by
  obtain ⟨ws, sg, ds, tl, hcs, hws, hsg, hds, hlen⟩ := strtoll_parts (c_str x)
  have hx : (strtoll (c_str x)).2 = x.length := by
    unfold str2int at h
    simpa using h
  rw [hlen] at hx
  by_cases hd : ds.length = 0
  · left
    rw [if_pos hd] at hx
    exact List.length_eq_zero.mp hx.symm
  · right
    rw [if_neg hd] at hx
    have hle := (c_str_initial x).length_le
    have hcl : (c_str x).length = ws.length + sg.length + ds.length + tl.length := by
      rw [hcs]; simp only [List.length_append]
    have htl : tl = [] := List.length_eq_zero.mp (by omega)
    have hcx : c_str x = x := (c_str_initial x).eq_of_length (by omega)
    refine ⟨ws, sg, ds, ?_, hws, hsg, ?_, hds⟩
    · rw [← hcx, hcs, htl, List.append_nil]
    · intro h0; apply hd; rw [h0]; rfl

theorem takeWhile_all {α : Type} (p : α → Bool) (l : List α) (h : ∀ c ∈ l, p c = true) :
    l.takeWhile p = l := List.takeWhile_eq_self_iff.mpr h

theorem takeWhile_append_stop {α : Type} (p : α → Bool) (a b : List α)
    (ha : ∀ c ∈ a, p c = true) (hb : ∀ c, b.head? = some c → p c = false) :
    (a ++ b).takeWhile p = a := by
  rw [List.takeWhile_append_of_pos ha]
  cases b with
  | nil => simp
  | cons c cs =>
    have := hb c rfl
    simp [List.takeWhile, this]

theorem u8_le_iff (a b : UInt8) : a ≤ b ↔ a.toNat ≤ b.toNat := Iff.rfl

theorem u8_eq_iff (a b : UInt8) : a = b ↔ a.toNat = b.toNat := by
  constructor
  · intro h; rw [h]
  · intro h
    rcases a with ⟨⟨a, ha⟩⟩
    rcases b with ⟨⟨b, hb⟩⟩
    simp only [UInt8.toNat] at h
    simp at h
    subst h
    rfl

theorem isdigit_iff (c : UInt8) : isdigit c = true ↔ 48 ≤ c.toNat ∧ c.toNat ≤ 57 := by
  unfold isdigit
  simp only [Bool.and_eq_true, decide_eq_true_eq, u8_le_iff]
  rfl

theorem isspace_iff (c : UInt8) :
    isspace c = true ↔ c.toNat = 32 ∨ (9 ≤ c.toNat ∧ c.toNat ≤ 13) := by
  unfold isspace
  simp only [Bool.or_eq_true, Bool.and_eq_true, decide_eq_true_eq, u8_le_iff, beq_iff_eq,
    u8_eq_iff]
  rfl

theorem isspace_false_of (c : UInt8) (h : 43 ≤ c.toNat) : isspace c = false := by
  cases hs : isspace c with
  | false => rfl
  | true => have := (isspace_iff c).mp hs; omega

theorem str2int_of_int_text (x : Bytes) (h : IntText x) : (str2int x).1 = true := by
  obtain ⟨ws, sg, ds, hx, hws, hsg, hne, hds⟩ := h
  obtain ⟨d, dt, hdd⟩ := List.exists_cons_of_ne_nil hne
  have hdig := (isdigit_iff d).mp (hds d (by rw [hdd]; simp))
  have hd43 : d ≠ 43 := by intro he; rw [he] at hdig; exact absurd hdig.1 (by decide)
  have hd45 : d ≠ 45 := by intro he; rw [he] at hdig; exact absurd hdig.1 (by decide)
  have hdt : (ds.takeWhile isdigit) = ds := takeWhile_all _ _ hds
  have hxa : x = ws ++ (sg ++ ds) := by rw [hx, List.append_assoc]
  have hnz : ∀ c ∈ x, (c != 0) = true := by
    intro c hc
    have hc0 : c.toNat ≠ 0 → (c != 0) = true := by
      intro h0
      simp only [bne_iff_ne, ne_eq, u8_eq_iff]
      exact h0
    apply hc0
    rw [hxa] at hc
    rcases List.mem_append.mp hc with h1 | h1
    · have := (isspace_iff c).mp (hws c h1); omega
    · rcases List.mem_append.mp h1 with h2 | h2
      · rcases hsg with rfl | rfl | rfl
        · simp at h2
        · simp at h2; rw [h2]; decide
        · simp at h2; rw [h2]; decide
      · have := (isdigit_iff c).mp (hds c h2); omega
  have hcs : c_str x = x := takeWhile_all _ _ hnz
  have hhead : ∀ c, (sg ++ ds).head? = some c → isspace c = false := by
    intro c hc
    apply isspace_false_of
    rcases hsg with rfl | rfl | rfl
    · rw [hdd] at hc; simp at hc; rw [← hc]; exact le_trans (by decide) hdig.1
    · simp at hc; rw [← hc]; decide
    · simp at hc; rw [← hc]; decide
  have hwsx : x.takeWhile isspace = ws := by
    rw [hxa]; exact takeWhile_append_stop _ _ _ hws hhead
  have hrest : x.drop ws.length = sg ++ ds := by
    rw [hxa]; exact List.drop_left' rfl
  have hlen : x.length = ws.length + sg.length + ds.length := by
    rw [hx]; simp only [List.length_append]
  have hdl : ds.length ≠ 0 := by rw [hdd]; simp
  unfold str2int
  rw [hcs]
  unfold strtoll
  simp only [hwsx, hrest]
  rcases hsg with rfl | rfl | rfl
  · have h1 : (ds.head? == some 45 || ds.head? == some 43) = false := by
      rw [hdd]; simp [hd43, hd45]
    simp only [h1, Bool.false_eq_true, if_false, List.nil_append, List.drop_zero, hdt, hdl,
      hlen, List.length_nil, Nat.add_zero, beq_self_eq_true]
  · have h1 : ((([43] : Bytes) ++ ds).head? == some 45 || (([43] : Bytes) ++ ds).head? == some 43)
        = true := by
      simp
    have h2 : (([43] : Bytes) ++ ds).drop 1 = ds := rfl
    simp only [h1, if_true, h2, hdt, hdl, if_false, hlen, List.length_singleton,
      beq_self_eq_true]
  · have h1 : ((([45] : Bytes) ++ ds).head? == some 45 || (([45] : Bytes) ++ ds).head? == some 43)
        = true := by
      simp
    have h2 : (([45] : Bytes) ++ ds).drop 1 = ds := rfl
    simp only [h1, if_true, h2, hdt, hdl, if_false, hlen, List.length_singleton,
      beq_self_eq_true]

theorem str2int_true_iff (x : Bytes) : (str2int x).1 = true ↔ x = [] ∨ IntText x := by
  constructor
  · exact str2int_accepts x
  · rintro (rfl | h)
    · decide
    · exact str2int_of_int_text x h

theorem do_expire_rejects (now : Nat) (cmd : List Bytes) (out : Buffer) (g : GData)
    (h : (str2int (arg cmd 2)).1 = false) :
    do_expire now cmd out g
      = (out ++ (Value.err ERR_BAD_ARG (ascii "expect int64")).encode, g) := by
  unfold do_expire
  simp only [h, Bool.not_false, if_true, out_err_eq]

/-- C13 (pexpire argument), amended.  For every keyspace state and key `k`,
`pexpire k x` replies ERR with the code BAD_ARG, which is 4, whenever the
argument `x` is not empty and is not, as a whole, optional white space, an
optional sign and one or more decimal digits; the state is then returned as it
was, so no TTL is set, changed or cleared. -/
theorem pexpire_non_integer (strtod : Bytes → Dbl × Nat) (now : Nat) (g : GData)
    (k x : Bytes) (out : Buffer) (hne : x ≠ []) (hx : ¬ IntText x) :
    do_request strtod now [ascii "pexpire", k, x] out g
        = (out ++ (Value.err ERR_BAD_ARG (ascii "expect int64")).encode, g)
    ∧ ERR_BAD_ARG = 4 := by
  refine ⟨?_, rfl⟩
  rw [do_request_pexpire]
  apply do_expire_rejects
  show (str2int x).1 = false
  cases hs : (str2int x).1 with
  | false => rfl
  | true =>
    rcases str2int_accepts x hs with h | h
    · exact absurd h hne
    · exact absurd h hx

/-- C13 at a concrete input: `pexpire a 12x` (trailing character) on the
sample state. -/
theorem pexpire_non_integer_witness :
    ascii "12x" ≠ [] ∧ ¬ IntText (ascii "12x")
    ∧ do_request sample_strtod 7 [ascii "pexpire", [97], ascii "12x"] [] g_sample
        = ([] ++ (Value.err ERR_BAD_ARG (ascii "expect int64")).encode, g_sample) :=
  have hne : ascii "12x" ≠ [] := by decide
  have hx : ¬ IntText (ascii "12x") :=
    fun h => absurd (str2int_of_int_text _ h) (by decide)
  ⟨hne, hx, (pexpire_non_integer sample_strtod 7 g_sample [97] (ascii "12x") [] hne hx).1⟩

/-- C13 as stated fails: text with leading white space is accepted.  On the
sample state at time 7, where `pttl a` replies INT 43, `pexpire a " 12"` replies
INT 1 and not an error, and `pttl a` then replies INT 12: the TTL was changed. -/
theorem pexpire_leading_space :
    (do_request sample_strtod 7 [ascii "pttl", [97]] [] g_sample).1 = (Value.int 43).encode
    ∧ (do_request sample_strtod 7 [ascii "pexpire", [97], ascii " 12"] [] g_sample).1
        = (Value.int 1).encode
    ∧ (do_request sample_strtod 7 [ascii "pexpire", [97], ascii " 12"] [] g_sample).1
        ≠ (Value.err ERR_BAD_ARG (ascii "expect int64")).encode
    ∧ (do_request sample_strtod 7 [ascii "pttl", [97]] []
          (do_request sample_strtod 7 [ascii "pexpire", [97], ascii " 12"] [] g_sample).2).1
        = (Value.int 12).encode := by
  decide

theorem do_zadd_rejects (strtod : Bytes → Dbl × Nat) (cmd : List Bytes) (out : Buffer)
    (g : GData) (h : (str2dbl strtod (arg cmd 2)).1 = false) :
    do_zadd strtod cmd out g
      = (out ++ (Value.err ERR_BAD_ARG (ascii "expect float")).encode, g) := by
  unfold do_zadd
  simp only [h, Bool.not_false, if_true, out_err_eq]

/-- C14 (zadd score argument), amended.  For every keyspace state,
`zadd k score name` replies ERR with the code BAD_ARG, which is 4, whenever
`strtod` does not consume the whole score text or converts it to NaN; the
state is then returned as it was, so the key `k` is not created and no sorted
set changes. -/
theorem zadd_bad_score (strtod : Bytes → Dbl × Nat) (now : Nat) (g : GData)
    (k st n : Bytes) (out : Buffer)
    (h : (strtod (c_str st)).2 ≠ st.length ∨ (strtod (c_str st)).1.isnan = true) :
    do_request strtod now [ascii "zadd", k, st, n] out g
        = (out ++ (Value.err ERR_BAD_ARG (ascii "expect float")).encode, g)
    ∧ ERR_BAD_ARG = 4 := by
  refine ⟨?_, rfl⟩
  rw [do_request_zadd]
  apply do_zadd_rejects
  show (str2dbl strtod st).1 = false
  unfold str2dbl
  rcases h with h | h
  · simp [h]
  · simp [h]

/-- C14 at concrete inputs: `zadd z abc x` (unparseable text) and `zadd z nan x`
on the empty keyspace. -/
theorem zadd_bad_score_witness :
    (sample_strtod_inf (c_str (ascii "abc"))).2 ≠ (ascii "abc").length
    ∧ do_request sample_strtod_inf 0 [ascii "zadd", [122], ascii "abc", [120]] [] g_init
        = ([] ++ (Value.err ERR_BAD_ARG (ascii "expect float")).encode, g_init)
    ∧ (sample_strtod_inf (c_str (ascii "nan"))).1.isnan = true
    ∧ do_request sample_strtod_inf 0 [ascii "zadd", [122], ascii "nan", [120]] [] g_init
        = ([] ++ (Value.err ERR_BAD_ARG (ascii "expect float")).encode, g_init) :=
  ⟨by decide,
   (zadd_bad_score sample_strtod_inf 0 g_init [122] (ascii "abc") [120] []
      (Or.inl (by decide))).1,
   by decide,
   (zadd_bad_score sample_strtod_inf 0 g_init [122] (ascii "nan") [120] []
      (Or.inr (by decide))).1⟩

/-- C14 as stated fails: an infinite score is accepted.  With `strtod`
converting "inf" to positive infinity, `zadd z inf x` on the empty keyspace
replies INT 1 and not an error, and creates the key: `zscore z x` then replies
DBL with the bit pattern of positive infinity. -/
theorem zadd_infinite_score :
    (sample_strtod_inf (c_str (ascii "inf"))).1.isinf = true
    ∧ (do_request sample_strtod_inf 0 [ascii "zadd", [122], ascii "inf", [120]] [] g_init).1
        = (Value.int 1).encode
    ∧ (do_request sample_strtod_inf 0 [ascii "zadd", [122], ascii "inf", [120]] [] g_init).1
        ≠ (Value.err ERR_BAD_ARG (ascii "expect float")).encode
    ∧ hm_lookup g_init.db (entry_eq [122]) = none
    ∧ (do_request sample_strtod_inf 0 [ascii "zscore", [122], [120]] []
          (do_request sample_strtod_inf 0 [ascii "zadd", [122], ascii "inf", [120]] []
            g_init).2).1
        = (Value.dbl { bits := 0x7FF0000000000000 }).encode := by
  decide

theorem not_unknown_encode (v : Value) (h : v.not_unknown) (msg : Bytes) :
    v.encode ≠ (Value.err ERR_UNKNOWN msg).encode := by
  intro he
  have h5 := congrArg (List.take 5) he
  cases v with
  | nil => simp [Value.encode] at h5
  | str s => simp [Value.encode] at h5
  | int i => simp [Value.encode] at h5
  | dbl d => simp [Value.encode] at h5
  | arr xs => simp [Value.encode] at h5
  | err code m =>
    rcases h with h | h
    · subst h
      simp [Value.encode, le_bytes, ERR_BAD_TYP, ERR_UNKNOWN] at h5
    · subst h
      simp [Value.encode, le_bytes, ERR_BAD_ARG, ERR_UNKNOWN] at h5

theorem do_get_answers (cmd : List Bytes) (g : GData) : Answers (do_get cmd) g := by
  unfold Answers do_get
  cases hm_lookup g.db (entry_eq (arg cmd 1)) with
  | none => exact ⟨.nil, trivial, fun out => by simp [out_nil_eq]⟩
  | some ent =>
    by_cases h : ent.type ≠ T_STR
    · exact ⟨.err ERR_BAD_TYP (ascii "not a string value"), Or.inl rfl, fun out => by
        simp only [if_pos h, out_err_eq]⟩
    · exact ⟨.str ent.str, trivial, fun out => by simp only [if_neg h, out_str_eq]⟩

theorem do_set_answers (cmd : List Bytes) (g : GData) : Answers (do_set cmd) g := by
  unfold Answers do_set
  cases hm_lookup g.db (entry_eq (arg cmd 1)) with
  | none => exact ⟨.nil, trivial, fun out => by simp [out_nil_eq]⟩
  | some ent =>
    by_cases h : ent.type ≠ T_STR
    · exact ⟨.err ERR_BAD_TYP (ascii "a non-string value exists"), Or.inl rfl, fun out => by
        simp only [if_pos h, out_err_eq]⟩
    · exact ⟨.nil, trivial, fun out => by simp only [if_neg h, out_nil_eq]⟩

theorem do_del_answers (cmd : List Bytes) (g : GData) : Answers (do_del cmd) g := by
  unfold Answers do_del
  cases h : (hm_delete g.db (entry_eq (arg cmd 1))).1 with
  | none => exact ⟨.int 0, trivial, fun out => by simp [h, out_int_eq]⟩
  | some ent => exact ⟨.int 1, trivial, fun out => by simp [h, out_int_eq]⟩

theorem do_expire_answers (now : Nat) (cmd : List Bytes) (g : GData) :
    Answers (do_expire now cmd) g := by
  unfold Answers do_expire
  by_cases hp : (str2int (arg cmd 2)).1 = true
  · cases hm_lookup g.db (entry_eq (arg cmd 1)) with
    | none => exact ⟨.int 0, trivial, fun out => by simp [hp, out_int_eq]⟩
    | some ent => exact ⟨.int 1, trivial, fun out => by simp [hp, out_int_eq]⟩
  · exact ⟨.err ERR_BAD_ARG (ascii "expect int64"), Or.inr rfl, fun out => by
      simp [hp, out_err_eq]⟩

theorem do_ttl_answers (now : Nat) (cmd : List Bytes) (g : GData) :
    Answers (do_ttl now cmd) g := by
  unfold Answers do_ttl
  cases hm_lookup g.db (entry_eq (arg cmd 1)) with
  | none => exact ⟨.int (-2), trivial, fun out => by simp [out_int_eq]⟩
  | some ent =>
    cases h : ent.heap_idx with
    | none => exact ⟨.int (-1), trivial, fun out => by simp [h, out_int_eq]⟩
    | some idx =>
      refine ⟨.int (if (if (heap_at g.heap idx).val > now then (heap_at g.heap idx).val - now
          else 0) < 2 ^ 63 then
            ((if (heap_at g.heap idx).val > now then (heap_at g.heap idx).val - now else 0 : Nat) : Int)
          else ((if (heap_at g.heap idx).val > now then (heap_at g.heap idx).val - now
            else 0 : Nat) : Int) - 2 ^ 64), trivial, fun out => ?_⟩
      simp only [h, out_int_eq]

theorem do_keys_answers (cmd : List Bytes) (g : GData) : Answers (do_keys cmd) g :=
  ⟨.arr (g.db.map (fun e => Value.str e.key)), trivial, fun out => by rw [do_keys_eq]⟩

theorem do_zadd_answers (strtod : Bytes → Dbl × Nat) (cmd : List Bytes) (g : GData) :
    Answers (do_zadd strtod cmd) g := by
  unfold Answers do_zadd
  by_cases hp : (str2dbl strtod (arg cmd 2)).1 = true
  · cases hm_lookup g.db (entry_eq (arg cmd 1)) with
    | none => exact ⟨.int _, trivial, fun out => by simp only [hp, out_int_eq]; rfl⟩
    | some ent =>
      by_cases h : ent.type ≠ T_ZSET
      · exact ⟨.err ERR_BAD_TYP (ascii "expect zset"), Or.inl rfl, fun out => by
          simp [hp, h, out_err_eq]⟩
      · exact ⟨.int _, trivial, fun out => by simp only [hp, if_neg h, out_int_eq]; rfl⟩
  · exact ⟨.err ERR_BAD_ARG (ascii "expect float"), Or.inr rfl, fun out => by
      simp [hp, out_err_eq]⟩

theorem do_zrem_answers (cmd : List Bytes) (g : GData) : Answers (do_zrem cmd) g := by
  unfold Answers do_zrem
  cases expect_zset g (arg cmd 1) with
  | null =>
    exact ⟨.err ERR_BAD_TYP (ascii "expect zset"), Or.inl rfl, fun out => by simp [out_err_eq]⟩
  | empty =>
    simp only []
    cases zset_lookup ZSetPtr.empty.deref (arg cmd 2) with
    | none => exact ⟨.int 0, trivial, fun out => by simp [out_int_eq]⟩
    | some i => exact ⟨.int 1, trivial, fun out => by simp [out_int_eq]⟩
  | entry z =>
    simp only []
    cases zset_lookup (ZSetPtr.entry z).deref (arg cmd 2) with
    | none => exact ⟨.int 0, trivial, fun out => by simp [out_int_eq]⟩
    | some i => exact ⟨.int 1, trivial, fun out => by simp [out_int_eq]⟩

theorem do_zscore_answers (cmd : List Bytes) (g : GData) : Answers (do_zscore cmd) g := by
  unfold Answers do_zscore
  cases expect_zset g (arg cmd 1) with
  | null =>
    exact ⟨.err ERR_BAD_TYP (ascii "expect zset"), Or.inl rfl, fun out => by simp [out_err_eq]⟩
  | empty =>
    simp only []
    cases zset_lookup ZSetPtr.empty.deref (arg cmd 2) with
    | none => exact ⟨.nil, trivial, fun out => by simp [out_nil_eq]⟩
    | some i => exact ⟨.dbl _, trivial, fun out => by simp only [out_dbl_eq]; rfl⟩
  | entry z =>
    simp only []
    cases zset_lookup (ZSetPtr.entry z).deref (arg cmd 2) with
    | none => exact ⟨.nil, trivial, fun out => by simp [out_nil_eq]⟩
    | some i => exact ⟨.dbl _, trivial, fun out => by simp only [out_dbl_eq]; rfl⟩

theorem do_zquery_answers (strtod : Bytes → Dbl × Nat) (cmd : List Bytes) (g : GData) :
    Answers (do_zquery strtod cmd) g := by
  unfold Answers do_zquery
  by_cases hp : (str2dbl strtod (arg cmd 2)).1 = true
  · by_cases hq : (!(str2int (arg cmd 4)).1 || !(str2int (arg cmd 5)).1) = true
    · exact ⟨.err ERR_BAD_ARG (ascii "expect int"), Or.inr rfl, fun out => by
        simp [hp, hq, out_err_eq]⟩
    · cases expect_zset g (arg cmd 1) with
      | null =>
        exact ⟨.err ERR_BAD_TYP (ascii "expect zset"), Or.inl rfl, fun out => by
          simp [hp, hq, out_err_eq]⟩
      | empty =>
        by_cases hl : (str2int (arg cmd 5)).2 ≤ 0
        · exact ⟨.arr [], trivial, fun out => by simp [hp, hq, hl, out_arr_zero]⟩
        · exact ⟨.arr (zpairs ((zrange ZSetPtr.empty.deref (str2dbl strtod (arg cmd 2)).2 (arg cmd 3)
              (str2int (arg cmd 4)).2).take (zquery_count (str2int (arg cmd 5)).2 0))), trivial,
            fun out => by simp only [hp, hq, if_neg hl, do_zquery_body_eq]; simp⟩
      | entry z =>
        by_cases hl : (str2int (arg cmd 5)).2 ≤ 0
        · exact ⟨.arr [], trivial, fun out => by simp [hp, hq, hl, out_arr_zero]⟩
        · exact ⟨.arr (zpairs ((zrange (ZSetPtr.entry z).deref (str2dbl strtod (arg cmd 2)).2 (arg cmd 3)
              (str2int (arg cmd 4)).2).take (zquery_count (str2int (arg cmd 5)).2 0))), trivial,
            fun out => by simp only [hp, hq, if_neg hl, do_zquery_body_eq]; simp⟩
  · exact ⟨.err ERR_BAD_ARG (ascii "expect fp number"), Or.inr rfl, fun out => by
      simp [hp, out_err_eq]⟩

theorem do_request_answers (strtod : Bytes → Dbl × Nat) (now : Nat) (cmd : List Bytes)
    (g : GData) (hk : KnownCommand cmd) : Answers (do_request strtod now cmd) g := by
  unfold do_request
  split
  · exact do_get_answers cmd g
  split
  · exact do_set_answers cmd g
  split
  · exact do_del_answers cmd g
  split
  · exact do_expire_answers now cmd g
  split
  · exact do_ttl_answers now cmd g
  split
  · exact do_keys_answers cmd g
  split
  · exact do_zadd_answers strtod cmd g
  split
  · exact do_zrem_answers cmd g
  split
  · exact do_zscore_answers cmd g
  split
  · exact do_zquery_answers strtod cmd g
  · rename_i h1 h2 h3 h4 h5 h6 h7 h8 h9 h10
    exfalso
    unfold KnownCommand known_commands at hk
    simp only [List.mem_cons, Prod.mk.injEq, List.mem_singleton, List.not_mem_nil,
      or_false] at hk
    rcases hk with h | h | h | h | h | h | h | h | h | h
    · exact h1 ⟨h.2, h.1⟩
    · exact h2 ⟨h.2, h.1⟩
    · exact h3 ⟨h.2, h.1⟩
    · exact h4 ⟨h.2, h.1⟩
    · exact h5 ⟨h.2, h.1⟩
    · exact h6 ⟨h.2, h.1⟩
    · exact h7 ⟨h.2, h.1⟩
    · exact h8 ⟨h.2, h.1⟩
    · exact h9 ⟨h.2, h.1⟩
    · exact h10 ⟨h.2, h.1⟩

theorem do_request_unknown (strtod : Bytes → Dbl × Nat) (now : Nat) (cmd : List Bytes)
    (out : Buffer) (g : GData) (hk : ¬ KnownCommand cmd) :
    do_request strtod now cmd out g
      = (out ++ (Value.err ERR_UNKNOWN (ascii "unknown command.")).encode, g) := by
  unfold KnownCommand known_commands at hk
  simp only [List.mem_cons, Prod.mk.injEq, List.mem_singleton, List.not_mem_nil,
    or_false, not_or] at hk
  obtain ⟨h1, h2, h3, h4, h5, h6, h7, h8, h9, h10⟩ := hk
  unfold do_request
  rw [if_neg (fun h => h1 ⟨h.2, h.1⟩), if_neg (fun h => h2 ⟨h.2, h.1⟩),
    if_neg (fun h => h3 ⟨h.2, h.1⟩), if_neg (fun h => h4 ⟨h.2, h.1⟩),
    if_neg (fun h => h5 ⟨h.2, h.1⟩), if_neg (fun h => h6 ⟨h.2, h.1⟩),
    if_neg (fun h => h7 ⟨h.2, h.1⟩), if_neg (fun h => h8 ⟨h.2, h.1⟩),
    if_neg (fun h => h9 ⟨h.2, h.1⟩), if_neg (fun h => h10 ⟨h.2, h.1⟩), out_err_eq]

/-- C15 (unknown command).  For every argument vector `cmd`, buffer and state:
if `cmd` is not one of the ten (keyword, argument count) pairs, `do_request`
appends ERR(UNKNOWN, "unknown command."), that is the tag 1, the code 1 as a
u32, the message length 16 as a u32 and the message bytes, and returns the
state (keyspace and TTL heap) as it was; if `cmd` is one of the ten pairs, what
it appends is not that error.  The empty vector, a known keyword with a wrong
argument count and a keyword in upper case are not among the ten pairs. -/
theorem unknown_command (strtod : Bytes → Dbl × Nat) (now : Nat) (cmd : List Bytes)
    (out : Buffer) (g : GData) (k : Bytes) :
    (¬ KnownCommand cmd →
      do_request strtod now cmd out g
        = (out ++ (Value.err ERR_UNKNOWN (ascii "unknown command.")).encode, g))
    ∧ (Value.err ERR_UNKNOWN (ascii "unknown command.")).encode
        = [1] ++ le_bytes 4 1 ++ le_bytes 4 16 ++ ascii "unknown command."
    ∧ (KnownCommand cmd →
        ∀ msg, (do_request strtod now cmd out g).1
          ≠ out ++ (Value.err ERR_UNKNOWN msg).encode)
    ∧ ¬ KnownCommand []
    ∧ ¬ KnownCommand [ascii "get"]
    ∧ ¬ KnownCommand [ascii "get", k, k]
    ∧ ¬ KnownCommand [ascii "GET", k]
    ∧ ¬ KnownCommand [ascii "foo"] := by
  refine ⟨do_request_unknown strtod now cmd out g, by decide, ?_,
    by unfold KnownCommand; decide, by unfold KnownCommand; decide, ?_, ?_,
    by unfold KnownCommand; decide⟩
  · intro hk msg he
    obtain ⟨v, hv, hrep⟩ := do_request_answers strtod now cmd g hk
    rw [hrep out] at he
    exact not_unknown_encode v hv msg (List.append_cancel_left he)
  · unfold KnownCommand known_commands
    simp [arg]
    decide
  · unfold KnownCommand known_commands
    simp [arg]
    decide

/-- C16 (response cap).  For every outbound buffer `out`, with `h` the header
position `response_begin` returns (the length of `out`) and `body` the bytes
appended after the 4-byte placeholder: if `body` is longer than 32 MiB,
`response_end` leaves `out`, then the u32 length of the encoding of
ERR(TOO_BIG, "response is too big."), then that encoding, the first `h` bytes
being `out` unchanged; otherwise the buffer is `out`, the u32 `body.length` and
`body`, so only the four header bytes at `h` differ from what the buffer was,
and they hold the number of bytes that follow. -/
theorem response_end_cap (out body : Bytes) :
    (response_begin out).2 = out.length
    ∧ (response_begin out).1 ++ body = out ++ le_bytes 4 0 ++ body
    ∧ k_max_msg = 32 * 2 ^ 20
    ∧ (body.length > k_max_msg →
        response_end ((response_begin out).1 ++ body) (response_begin out).2
            = out
              ++ le_bytes 4 (Value.err ERR_TOO_BIG (ascii "response is too big.")).encode.length
              ++ (Value.err ERR_TOO_BIG (ascii "response is too big.")).encode
        ∧ (response_end ((response_begin out).1 ++ body) (response_begin out).2).take
              (response_begin out).2 = out
        ∧ le_val (le_bytes 4 (Value.err ERR_TOO_BIG (ascii "response is too big.")).encode.length)
            = (Value.err ERR_TOO_BIG (ascii "response is too big.")).encode.length)
    ∧ (body.length ≤ k_max_msg →
        response_end ((response_begin out).1 ++ body) (response_begin out).2
            = out ++ le_bytes 4 body.length ++ body
        ∧ le_val (le_bytes 4 body.length) = body.length) := by
  refine ⟨rfl, rfl, rfl, ?_, ?_⟩
  · intro hbig
    have h := response_end_eq out body
    unfold capped_body frame_body at h
    rw [if_pos hbig, ← List.append_assoc] at h
    refine ⟨h, ?_, by decide⟩
    rw [h, List.append_assoc]
    exact List.take_left _ _
  · intro hsmall
    have h := response_end_eq out body
    unfold capped_body frame_body at h
    rw [if_neg (by omega), ← List.append_assoc] at h
    refine ⟨h, ?_⟩
    apply le_val_le_bytes_of_lt
    have : k_max_msg = 33554432 := by decide
    omega

theorem inv_of_slots (g g1 : GData) (hinv : Inv g) (hnd : KeysNodup g1.db)
    (hheap : g1.heap = g.heap) (hslot : ∀ k, slot_of g1.db k = slot_of g.db k) : Inv g1 := by
  obtain ⟨hnd0, hrefs, hord⟩ := hinv
  have hs := (refs_ok_iff_sync g hnd0).mp hrefs
  have hfun : slot_of g1.db = slot_of g.db := funext hslot
  refine ⟨hnd, ?_, by rw [hheap]; exact hord⟩
  rw [refs_ok_iff_sync g1 hnd, hheap, hfun]
  exact hs

theorem slot_update_same (db : HMap) (r k : Bytes) (f : Entry → Entry)
    (hk : ∀ x, (f x).key = x.key) (hi : ∀ x, (f x).heap_idx = x.heap_idx) :
    slot_of (entry_update db r f) k = slot_of db k := by
  unfold slot_of hm_lookup
  by_cases hkr : k = r
  · subst hkr
    cases hf : db.find? (entry_eq k) with
    | none =>
      have : (entry_update db k f).find? (entry_eq k) = none := by
        apply find_none_of_not_mem
        rw [entry_update_keys db k f hk]
        exact not_mem_keys_of_find_none db k hf
      rw [this]
    | some e =>
      rw [find_entry_update db k f e hk hf]
      simp [hi]
  · rw [find_entry_update_ne db k r f hk hkr]

theorem inv_update_same (g : GData) (r : Bytes) (f : Entry → Entry)
    (hk : ∀ x, (f x).key = x.key) (hi : ∀ x, (f x).heap_idx = x.heap_idx) (hinv : Inv g) :
    Inv { g with db := entry_update g.db r f } := by
  apply inv_of_slots g _ hinv
  · unfold KeysNodup
    rw [entry_update_keys g.db r f hk]
    exact hinv.1
  · rfl
  · intro k
    exact slot_update_same g.db r k f hk hi

theorem inv_insert_fresh (g : GData) (ent : Entry) (hinv : Inv g)
    (he : hm_lookup g.db (entry_eq ent.key) = none) (hidx : ent.heap_idx = none) :
    Inv { g with db := hm_insert g.db ent } := by
  apply inv_of_slots g _ hinv
  · unfold KeysNodup hm_insert
    simp only [List.map_cons, List.nodup_cons]
    exact ⟨not_mem_keys_of_find_none g.db _ he, hinv.1⟩
  · rfl
  · intro k
    unfold slot_of hm_lookup hm_insert
    by_cases hk : entry_eq k ent = true
    · rw [List.find?_cons_of_pos _ hk]
      have hke : ent.key = k := by simpa [entry_eq] using hk
      rw [← hke]
      unfold hm_lookup at he
      rw [he]
      simp [hidx]
    · rw [List.find?_cons_of_neg _ hk]

theorem inv_erase_no_slot (g : GData) (ent : Entry) (hinv : Inv g)
    (he : hm_lookup g.db (entry_eq ent.key) = some ent) (hidx : ent.heap_idx = none) :
    Inv { g with db := g.db.eraseP (entry_eq ent.key) } := by
  apply inv_of_slots g _ hinv
  · exact keys_eraseP_nodup g.db _ hinv.1
  · rfl
  · intro k
    show slot_of (g.db.eraseP (entry_eq ent.key)) k = slot_of g.db k
    rw [slot_eraseP _ _ _ hinv.1]
    by_cases hk : k = ent.key
    · rw [if_pos hk, hk, slot_of_lookup _ _ _ he, hidx]
    · rw [if_neg hk]

/-- Clearing the TTL of an entry of the keyspace keeps the invariant. -/
theorem entry_set_ttl_neg_inv (now : Nat) (ent : Entry) (ttl_ms : Int) (g : GData) (p : Nat)
    (hinv : Inv g) (hent : hm_lookup g.db (entry_eq ent.key) = some ent)
    (hidx : ent.heap_idx = some p) (ht : ttl_ms < 0) :
    Inv (entry_set_ttl now ent ttl_ms g) := by
  obtain ⟨hnd, hrefs, hord⟩ := hinv
  have hs := (refs_ok_iff_sync g hnd).mp hrefs
  have hslot : slot_of g.db ent.key = some p := by
    rw [slot_of_lookup _ _ _ hent]; exact hidx
  have hp : p < g.heap.length ∧ (heap_at g.heap p).ref = ent.key := by
    rcases hs.2.1 ent.key p hslot with h | h
    · exact h
    · exact absurd h id
  have hrn := sync_nodup _ _ _ hs
  have hunf : entry_set_ttl now ent ttl_ms g
      = { g with
          heap := (heap_delete g.heap g.db p).1,
          db := entry_update (heap_delete g.heap g.db p).2 ent.key
                  (fun e => { e with heap_idx := none }) } := by
    unfold entry_set_ttl
    rw [if_pos ⟨ht, by rw [hidx]; simp⟩, hidx]
    rfl
  have hknd : KeysNodup (entry_set_ttl now ent ttl_ms g).db := by
    unfold KeysNodup; rw [entry_set_ttl_keys]; exact hnd
  have hsync := heap_delete_sync g.heap g.db p hp.1 hrn
    (by intro i hi _; exact hs.1 i hi)
    (by
      intro k i hk
      rcases hs.2.1 k i hk with h | h
      · exact h
      · exact absurd h id)
  refine ⟨hknd, ?_, ?_⟩
  · rw [refs_ok_iff_sync _ hknd, hunf]
    simp only []
    refine ⟨?_, ?_, fun _ _ hf => hf⟩
    · intro i hi
      rw [slot_clear]
      have hne : (heap_at (heap_delete g.heap g.db p).1 i).ref ≠ ent.key := by
        have := hsync.2.2 _ (heap_at_mem _ i hi)
        rw [hp.2] at this
        exact this
      rw [if_neg hne]
      exact hsync.1 i hi
    · intro k i hk
      rw [slot_clear] at hk
      by_cases hke : k = ent.key
      · rw [if_pos hke] at hk; simp at hk
      · rw [if_neg hke] at hk
        rcases hsync.2.1 k i hk with h | h
        · left; exact h
        · rw [hp.2] at h; exact absurd h hke
  · rw [hunf]
    exact heap_delete_ordered g.heap _ p hp.1 hord

/-- `entry_set_ttl` on an entry of the keyspace keeps the invariant, whatever
the TTL. -/
theorem entry_set_ttl_inv (now : Nat) (ent : Entry) (ttl_ms : Int) (g : GData)
    (hinv : Inv g) (hent : hm_lookup g.db (entry_eq ent.key) = some ent) :
    Inv (entry_set_ttl now ent ttl_ms g) := by
  by_cases ht : 0 ≤ ttl_ms
  · exact (entry_set_ttl_nonneg now ent ttl_ms g hinv hent ht).1
  · cases hidx : ent.heap_idx with
    | none =>
      have : entry_set_ttl now ent ttl_ms g = g := by
        unfold entry_set_ttl
        rw [if_neg (by rw [hidx]; simp), if_neg (by omega)]
      rw [this]; exact hinv
    | some p => exact entry_set_ttl_neg_inv now ent ttl_ms g p hinv hent hidx (by omega)

theorem do_get_state (cmd : List Bytes) (out : Buffer) (g : GData) :
    (do_get cmd out g).2 = g := by
  unfold do_get
  split
  · rfl
  · split <;> rfl

theorem do_ttl_state (now : Nat) (cmd : List Bytes) (out : Buffer) (g : GData) :
    (do_ttl now cmd out g).2 = g := by
  unfold do_ttl
  split
  · rfl
  · split <;> rfl

theorem do_zscore_state (cmd : List Bytes) (out : Buffer) (g : GData) :
    (do_zscore cmd out g).2 = g := by
  unfold do_zscore
  split
  · rfl
  · split <;> rfl

theorem do_zquery_state (strtod : Bytes → Dbl × Nat) (cmd : List Bytes) (out : Buffer)
    (g : GData) : (do_zquery strtod cmd out g).2 = g := by
  unfold do_zquery
  simp only []
  split
  · rfl
  · split
    · rfl
    · split
      · rfl
      · split <;> rfl

theorem do_set_inv (cmd : List Bytes) (out : Buffer) (g : GData) (hinv : Inv g) :
    Inv (do_set cmd out g).2 := by
  cases he : hm_lookup g.db (entry_eq (arg cmd 1)) with
  | none => exact (do_set_absent_inv cmd out g hinv he).1
  | some ent =>
    unfold do_set
    rw [he]
    simp only []
    split
    · exact hinv
    · exact inv_update_same g _ _ (fun _ => rfl) (fun _ => rfl) hinv

theorem do_zadd_inv (strtod : Bytes → Dbl × Nat) (cmd : List Bytes) (out : Buffer)
    (g : GData) (hinv : Inv g) : Inv (do_zadd strtod cmd out g).2 := by
  unfold do_zadd
  simp only []
  split
  · exact hinv
  · cases he : hm_lookup g.db (entry_eq (arg cmd 1)) with
    | none =>
      simp only []
      exact inv_insert_fresh g _ hinv he rfl
    | some ent =>
      simp only []
      split
      · exact hinv
      · exact inv_update_same g _ _ (fun _ => rfl) (fun _ => rfl) hinv

theorem do_zrem_inv (cmd : List Bytes) (out : Buffer) (g : GData) (hinv : Inv g) :
    Inv (do_zrem cmd out g).2 := by
  unfold do_zrem
  split
  · exact hinv
  · split
    · exact inv_update_same g _ _ (fun _ => rfl) (fun _ => rfl) hinv
    · exact hinv

theorem do_expire_inv (now : Nat) (cmd : List Bytes) (out : Buffer) (g : GData)
    (hinv : Inv g) : Inv (do_expire now cmd out g).2 := by
  unfold do_expire
  simp only []
  split
  · exact hinv
  · cases he : hm_lookup g.db (entry_eq (arg cmd 1)) with
    | none => exact hinv
    | some ent =>
      simp only []
      have hk := (find_some_key _ _ _ he).1
      exact entry_set_ttl_inv now ent _ g hinv (by rw [hk]; exact he)

theorem do_del_inv (cmd : List Bytes) (out : Buffer) (g : GData) (hinv : Inv g) :
    Inv (do_del cmd out g).2 := by
  cases he : hm_lookup g.db (entry_eq (arg cmd 1)) with
  | none => rw [do_del_absent cmd out g he]; exact hinv
  | some ent =>
    have hk := (find_some_key _ _ _ he).1
    have hunf : (do_del cmd out g).2
        = entry_del ent { g with db := g.db.eraseP (entry_eq ent.key) } := by
      unfold do_del hm_delete
      unfold hm_lookup at he
      simp only [he, hk]
    rw [hunf]
    have he1 : hm_lookup g.db (entry_eq ent.key) = some ent := by rw [hk]; exact he
    cases hidx : ent.heap_idx with
    | some p => exact (entry_del_inv g ent p hinv he1 hidx).1
    | none =>
      have : entry_del ent { g with db := g.db.eraseP (entry_eq ent.key) }
          = { g with db := g.db.eraseP (entry_eq ent.key) } := by
        unfold entry_del entry_set_ttl
        rw [if_neg (by rw [hidx]; simp), if_neg (by decide)]
      rw [this]
      exact inv_erase_no_slot g ent hinv he1 hidx

/-- Every request keeps the invariant of the global state. -/
theorem do_request_inv (strtod : Bytes → Dbl × Nat) (now : Nat) (cmd : List Bytes)
    (out : Buffer) (g : GData) (hinv : Inv g) : Inv (do_request strtod now cmd out g).2 := by
  unfold do_request
  split
  · rw [do_get_state]; exact hinv
  split
  · exact do_set_inv cmd out g hinv
  split
  · exact do_del_inv cmd out g hinv
  split
  · exact do_expire_inv now cmd out g hinv
  split
  · rw [do_ttl_state]; exact hinv
  split
  · exact hinv
  split
  · exact do_zadd_inv strtod cmd out g hinv
  split
  · exact do_zrem_inv cmd out g hinv
  split
  · rw [do_zscore_state]; exact hinv
  split
  · rw [do_zquery_state]; exact hinv
  · exact hinv

/-- The TTL loop of `process_timers` runs to its end, no assertion failing, and
keeps the invariant. -/
theorem process_ttl_inv (now_ms : Nat) :
    ∀ (fuel nworks : Nat) (g : GData), Inv g →
      ∃ g1, process_ttl now_ms fuel nworks g = some g1 ∧ Inv g1 := by
  intro fuel
  induction fuel with
  | zero => intro nworks g hinv; exact ⟨g, rfl, hinv⟩
  | succ fuel ih =>
    intro nworks g hinv
    simp only [process_ttl]
    split
    · exact ⟨g, rfl, hinv⟩
    · rename_i top rest hheap
      by_cases hexp : top.val < now_ms
      · rw [if_pos hexp]
        obtain ⟨ent, he, hinv1, _, _⟩ := process_ttl_step g top rest hinv hheap
        rw [he]
        simp only []
        by_cases hcap : nworks ≥ k_max_works
        · rw [if_pos hcap]; exact ⟨_, rfl, hinv1⟩
        · rw [if_neg hcap]; exact ih (nworks + 1) _ hinv1
      · rw [if_neg hexp]; exact ⟨g, rfl, hinv⟩

theorem process_timers_inv (now_ms : Nat) (g : GData) (hinv : Inv g) :
    ∃ g1, process_timers now_ms g = some g1 ∧ Inv g1 := by
  unfold process_timers
  apply process_ttl_inv
  have h := process_idle_keyspace now_ms g.idle_list.length g
  exact inv_of_eq g _ h.1 h.2 hinv

theorem reachable_inv (strtod : Bytes → Dbl × Nat) (g : GData) (h : Reachable strtod g) :
    Inv g := by
  induction h with
  | start g hdb hheap =>
    refine ⟨?_, ⟨?_, ?_⟩, ?_⟩
    · unfold KeysNodup; rw [hdb]; simp
    · intro i hi; rw [hheap] at hi; simp at hi
    · intro e he; rw [hdb] at he; simp at he
    · intro i hi; rw [hheap] at hi; simp at hi
  | request now cmd out g _ ih => exact do_request_inv strtod now cmd out g ih
  | timers now g g1 _ ht ih =>
    obtain ⟨g2, h2, hinv2⟩ := process_timers_inv now g ih
    rw [ht] at h2
    injection h2 with h2
    rw [h2]; exact hinv2

theorem refs_perm_keys (g : GData) (hinv : Inv g) :
    (g.heap.map HeapItem.ref).Perm
      ((g.db.filter (fun e => e.heap_idx.isSome)).map Entry.key) := by
  obtain ⟨hnd, hrefs, _⟩ := hinv
  have hs := (refs_ok_iff_sync g hnd).mp hrefs
  have hrn := sync_nodup _ _ _ hs
  have hkn : ((g.db.filter (fun e => e.heap_idx.isSome)).map Entry.key).Nodup :=
    List.Nodup.sublist (List.Sublist.map _ (List.filter_sublist g.db)) hnd
  rw [List.perm_ext_iff_of_nodup hrn hkn]
  intro k
  constructor
  · intro hk
    obtain ⟨item, hmem, hr⟩ := List.mem_map.mp hk
    obtain ⟨i, hi, hget⟩ := List.getElem_of_mem hmem
    have h1 := hrefs.1 i hi
    rw [heap_at_eq g.heap i hi, hget, hr] at h1
    obtain ⟨e, hl, hidx⟩ := slot_of_eq_some _ _ _ h1
    obtain ⟨hek, hem⟩ := find_some_key _ _ _ hl
    exact List.mem_map.mpr ⟨e, List.mem_filter.mpr ⟨hem, by simp [hidx]⟩, hek⟩
  · intro hk
    obtain ⟨e, hmem, hek⟩ := List.mem_map.mp hk
    obtain ⟨hem, hsome⟩ := List.mem_filter.mp hmem
    obtain ⟨i, hi⟩ := Option.isSome_iff_exists.mp hsome
    obtain ⟨hlt, hr⟩ := hrefs.2 e hem i (by simp [hi])
    rw [← hek, ← hr]
    exact List.mem_map_of_mem HeapItem.ref (heap_at_mem _ i hlt)

/-- C17 (TTL back-reference invariant).  In every state reached from an empty
keyspace and an empty heap by requests (`set`, `zadd`, `del`, `pexpire` with
any integer TTL among them) and by runs of `process_timers`: (i) every entry
that records a heap position `i` has `i` below the heap size, and the item at
`i` refers back to that entry; (ii) every heap item refers to an entry that is
in the keyspace and records the item's position; keys are unique and no two
items refer to the same entry, so the items correspond one to one to the
entries with a TTL and none refers to a deleted or expired entry; (iii) no item
expires earlier than the item at position 0.  `process_timers` runs to its end
from such a state, its assertion never failing. -/
theorem ttl_backref_invariant (strtod : Bytes → Dbl × Nat) (g : GData)
    (h : Reachable strtod g) :
    (∀ e ∈ g.db, ∀ i, e.heap_idx = some i →
        i < g.heap.length ∧ (heap_at g.heap i).ref = e.key)
    ∧ (∀ i, i < g.heap.length →
        ∃ e ∈ g.db, e.key = (heap_at g.heap i).ref ∧ e.heap_idx = some i)
    ∧ (g.db.map Entry.key).Nodup
    ∧ (g.heap.map HeapItem.ref).Nodup
    ∧ (g.heap.map HeapItem.ref).Perm
        ((g.db.filter (fun e => e.heap_idx.isSome)).map Entry.key)
    ∧ (∀ i, i < g.heap.length → (heap_at g.heap 0).val ≤ (heap_at g.heap i).val)
    ∧ ∀ now, ∃ g1, process_timers now g = some g1 ∧ Reachable strtod g1 := by
  have hinv := reachable_inv strtod g h
  obtain ⟨hnd, hrefs, hord⟩ := hinv
  have hperm := refs_perm_keys g ⟨hnd, hrefs, hord⟩
  refine ⟨?_, ?_, hnd, ?_, hperm, heap_min_at_root g.heap hord, ?_⟩
  · intro e he i hi
    exact hrefs.2 e he i (by simp [hi])
  · intro i hi
    obtain ⟨e, hl, hidx⟩ := slot_of_eq_some _ _ _ (hrefs.1 i hi)
    obtain ⟨hek, hem⟩ := find_some_key _ _ _ hl
    exact ⟨e, hem, hek, hidx⟩
  · exact sync_nodup _ _ _ ((refs_ok_iff_sync g hnd).mp hrefs)
  · intro now
    obtain ⟨g1, h1, _⟩ := process_timers_inv now g ⟨hnd, hrefs, hord⟩
    exact ⟨g1, h1, Reachable.timers now g g1 h h1⟩

/-- C17 at a concrete state: after `set a 1` and `pexpire a 50` the heap holds
one item, which refers to the entry "a", and that entry records position 0. -/
theorem ttl_backref_invariant_witness :
    Reachable sample_strtod g_expiring
    ∧ g_expiring.heap = [{ val := 53, ref := [97] }]
    ∧ (∀ e ∈ g_expiring.db, ∀ i, e.heap_idx = some i →
        i < g_expiring.heap.length ∧ (heap_at g_expiring.heap i).ref = e.key)
    ∧ (∀ i, i < g_expiring.heap.length →
        ∃ e ∈ g_expiring.db, e.key = (heap_at g_expiring.heap i).ref ∧ e.heap_idx = some i) :=
  have hr : Reachable sample_strtod g_expiring :=
    Reachable.request 3 [ascii "pexpire", [97], ascii "50"] [] _
      (Reachable.request 0 [ascii "set", [97], [49]] [] _
        (Reachable.start g_init rfl rfl))
  have h := ttl_backref_invariant sample_strtod g_expiring hr
  ⟨hr, by decide, h.1, h.2.1⟩

theorem expired_count_zero (now_ms : Nat) (a : List HeapItem) (ho : HeapOrdered a)
    (h : ¬ (heap_at a 0).val < now_ms) : expired_count now_ms a = 0 := by
  unfold expired_count
  rw [List.countP_eq_zero]
  intro item hi
  have := heap_min_mem a ho item hi
  simp only [decide_eq_true_eq]
  omega

/-- The TTL loop of `process_timers` removes as many entries as there are
expired items, up to the number of iterations the counter allows. -/
theorem process_ttl_removes (now_ms : Nat) :
    ∀ (fuel nworks : Nat) (g : GData), Inv g → fuel + nworks = k_max_works + 1 →
      ∃ g1, process_ttl now_ms fuel nworks g = some g1 ∧ Inv g1
        ∧ g1.db.length + min (expired_count now_ms g.heap) fuel = g.db.length := by
  intro fuel
  induction fuel with
  | zero => intro nworks g hinv _; exact ⟨g, rfl, hinv, by simp⟩
  | succ fuel ih =>
    intro nworks g hinv hfuel
    simp only [process_ttl]
    split
    · rename_i hheap
      refine ⟨g, rfl, hinv, ?_⟩
      rw [hheap]; simp [expired_count]
    · rename_i top rest hheap
      have htop : heap_at g.heap 0 = top := by rw [hheap]; exact heap_at_zero_cons _ _
      by_cases hexp : top.val < now_ms
      · rw [if_pos hexp]
        obtain ⟨ent, he, hinv1, hperm, hkeys⟩ := process_ttl_step g top rest hinv hheap
        rw [he]
        simp only []
        have hc1 : expired_count now_ms
            (entry_del ent { g with db := (hm_delete g.db (fun e => e.key == top.ref)).2 }).heap
              + 1 = expired_count now_ms g.heap := by
          have := List.Perm.countP_eq (fun item => decide (item.val < now_ms)) hperm
          unfold expired_count
          rw [← this, List.countP_append]
          simp [hexp]
        have hlen : (entry_del ent
            { g with db := (hm_delete g.db (fun e => e.key == top.ref)).2 }).db.length + 1
              = g.db.length := by
          have h1 := congrArg List.length hkeys
          simp only [List.length_map] at h1
          rw [h1]
          have hfound : g.db.find? (entry_eq top.ref) = some ent := he
          have hmem := List.mem_of_find?_eq_some hfound
          have hp := List.find?_some hfound
          rw [List.length_eraseP_of_mem hmem hp]
          have : 0 < g.db.length := List.length_pos_of_mem hmem
          omega
        by_cases hcap : nworks ≥ k_max_works
        · rw [if_pos hcap]
          refine ⟨_, rfl, hinv1, ?_⟩
          have : fuel = 0 := by omega
          rw [this]
          have : min (expired_count now_ms g.heap) (0 + 1) = 1 := by omega
          rw [this]; exact hlen
        · rw [if_neg hcap]
          obtain ⟨g1, hg1, hinv2, hcount⟩ := ih (nworks + 1) _ hinv1 (by omega)
          refine ⟨g1, hg1, hinv2, ?_⟩
          omega
      · rw [if_neg hexp]
        refine ⟨g, rfl, hinv, ?_⟩
        rw [expired_count_zero now_ms g.heap hinv.2.2 (by rw [htop]; exact hexp)]
        simp

theorem fill_state_length (n : Nat) : (fill_state n).db.length = n := by
  induction n with
  | zero => rfl
  | succ n ih =>
    obtain ⟨hinv, _, _, hkeys⟩ := fill_state_facts n
    have habs : hm_lookup (fill_state n).db (entry_eq (fill_key n)) = none := by
      apply find_none_of_not_mem
      intro hk
      obtain ⟨i, hi, he⟩ := hkeys _ hk
      have := fill_key_inj _ _ he
      omega
    obtain ⟨_, _, hkeys1, ent, hent, _, _⟩ :=
      do_set_absent_inv [ascii "set", fill_key n, []] [] (fill_state n) hinv habs
    have hst : fill_state (n + 1)
        = entry_set_ttl 0 ent 0 (do_set [ascii "set", fill_key n, []] [] (fill_state n)).2 := by
      show state_after sample_strtod 0 [ascii "pexpire", fill_key n, ascii "0"]
        (state_after sample_strtod 0 [ascii "set", fill_key n, []] (fill_state n)) = _
      rw [state_after_eq, state_after_eq, do_request_set, do_request_pexpire,
        do_expire_present 0 [ascii "pexpire", fill_key n, ascii "0"] [] _ ent 0
          (show str2int (ascii "0") = (true, 0) by decide) hent]
    have h1 := congrArg List.length
      (entry_set_ttl_keys 0 ent 0 (do_set [ascii "set", fill_key n, []] [] (fill_state n)).2)
    have h2 := congrArg List.length hkeys1
    simp only [List.length_map, List.length_cons] at h1 h2
    rw [hst, h1, h2, ih]

/-- C18 fails at 2001 expired entries.  In the state reached from startup by
giving 2001 keys a TTL of 0 at time 0, a single run of `process_timers` at time
1 returns with an empty keyspace: it removed 2001 entries, one more than
2000. -/
theorem process_timers_removes_2001 :
    (fill_state 2001).db.length = 2001
    ∧ expired_count 1 (fill_state 2001).heap = 2001
    ∧ k_max_works = 2000
    ∧ ∃ g1, process_timers 1 (fill_state 2001) = some g1 ∧ g1.db.length = 0 := by
  obtain ⟨hinv, hvals, hlen, _⟩ := fill_state_facts 2001
  have hdb := fill_state_length 2001
  have hcount : expired_count 1 (fill_state 2001).heap = 2001 := by
    unfold expired_count
    have : (fill_state 2001).heap.countP (fun item => decide (item.val < 1))
        = (fill_state 2001).heap.length := by
      rw [List.countP_eq_length]
      intro x hx
      simp [hvals x hx]
    rw [this, hlen]
  refine ⟨hdb, hcount, rfl, ?_⟩
  obtain ⟨hdb1, hheap1⟩ := process_idle_keyspace 1 (fill_state 2001).idle_list.length
    (fill_state 2001)
  have hinv1 := inv_of_eq _ _ hdb1 hheap1 hinv
  obtain ⟨g1, hg1, _, hrem⟩ := process_ttl_removes 1 (k_max_works + 1) 0 _ hinv1 rfl
  refine ⟨g1, hg1, ?_⟩
  rw [hheap1, hdb1, hcount, hdb] at hrem
  have hk : k_max_works = 2000 := rfl
  rw [hk] at hrem
  omega

/-- C15 at concrete inputs: the request `foo` is answered ERR(UNKNOWN, "unknown
command.") on the sample state, which it leaves as it was, and `get a` is not
answered with that error. -/
theorem unknown_command_witness :
    do_request sample_strtod 0 [ascii "foo"] [] g_sample
        = ([] ++ (Value.err ERR_UNKNOWN (ascii "unknown command.")).encode, g_sample)
    ∧ (do_request sample_strtod 0 [ascii "get", [97]] [] g_sample).1
        ≠ [] ++ (Value.err ERR_UNKNOWN (ascii "unknown command.")).encode :=
  ⟨(unknown_command sample_strtod 0 [ascii "foo"] [] g_sample []).1
      (by unfold KnownCommand; decide),
   (unknown_command sample_strtod 0 [ascii "get", [97]] [] g_sample []).2.2.1
      (by unfold KnownCommand; decide) (ascii "unknown command.")⟩

/-- C16 at a concrete input: a three-byte body after an earlier response of two
bytes gets the header 3. -/
theorem response_end_cap_witness :
    response_end ((response_begin [7, 7]).1 ++ [1, 2, 3]) (response_begin [7, 7]).2
      = [7, 7] ++ le_bytes 4 3 ++ [1, 2, 3] :=
  ((response_end_cap [7, 7] [1, 2, 3]).2.2.2.2 (by decide)).1

theorem timer_next_ms_eq (g : GData) (d : Nat) (hd : earliest_deadline g = some d)
    (hlt : d < 2 ^ 64 - 1) : timer_next_ms g = d := by
  unfold earliest_deadline at hd
  unfold timer_next_ms
  cases hi : idle_head g with
  | none =>
    rw [hi] at hd
    cases hh : g.heap with
    | nil => rw [hh] at hd; simp at hd
    | cons top rest =>
      rw [hh] at hd
      simp only [Option.some.injEq] at hd
      have htop : heap_at (top :: rest) 0 = top := heap_at_zero_cons _ _
      simp only [htop, hd]
      exact if_pos ⟨by simp, hlt⟩
  | some conn =>
    rw [hi] at hd
    cases hh : g.heap with
    | nil =>
      rw [hh] at hd
      simp only [Option.some.injEq] at hd
      simp only [hd]
      exact if_neg (by simp)
    | cons top rest =>
      rw [hh] at hd
      simp only [Option.some.injEq] at hd
      have htop : heap_at (top :: rest) 0 = top := heap_at_zero_cons _ _
      simp only [htop]
      by_cases hlt2 : top.val < (conn.last_active_ms + k_idle_timeout_ms) % 2 ^ 64
      · have h1 : (top :: rest ≠ [] ∧ top.val
            < (conn.last_active_ms + k_idle_timeout_ms) % 2 ^ 64) := ⟨by simp, hlt2⟩
        rw [if_pos h1, ← hd]
        exact (min_eq_right (by omega)).symm
      · have h1 : ¬ (top :: rest ≠ [] ∧ top.val
            < (conn.last_active_ms + k_idle_timeout_ms) % 2 ^ 64) := fun h => hlt2 h.2
        rw [if_neg h1, ← hd]
        exact (min_eq_left (by omega)).symm

theorem timer_next_ms_none (g : GData) (hd : earliest_deadline g = none) :
    timer_next_ms g = 2 ^ 64 - 1 := by
  unfold earliest_deadline at hd
  unfold timer_next_ms
  cases hi : idle_head g with
  | none =>
    rw [hi] at hd
    cases hh : g.heap with
    | nil => simp
    | cons top rest => rw [hh] at hd; simp at hd
  | some conn =>
    rw [hi] at hd
    cases hh : g.heap with
    | nil => rw [hh] at hd; simp at hd
    | cons top rest => rw [hh] at hd; simp at hd

theorem next_ms_eq_deadline (g : GData) (d : Nat) (hd : earliest_deadline g = some d)
    (hlt : d < 2 ^ 64 - 1) (now_ms : Nat) :
    next_timer_ms now_ms g = if d ≤ now_ms then 0 else (d - now_ms) % 2 ^ 32 := by
  unfold next_timer_ms
  rw [timer_next_ms_eq g d hd hlt]
  simp only []
  rw [if_neg (by omega)]

theorem next_ms_none (g : GData) (hd : earliest_deadline g = none) (now_ms : Nat) :
    next_timer_ms now_ms g = 2 ^ 32 - 1 := by
  unfold next_timer_ms
  rw [timer_next_ms_none g hd]
  simp

theorem poll_timeout_of (now_ms : Nat) (g : GData) (r : Nat) (h : next_timer_ms now_ms g = r) :
    poll_timeout now_ms g = if r < 2 ^ 31 then (r : Int) else (r : Int) - 2 ^ 32 := by
  unfold poll_timeout; rw [h]

/-- C19 (poll timeout), amended.  With the clock value `now` as input:
`next_timer_ms`, read as the `int32_t` poll timeout, is -1 when the idle list
and the TTL heap are both empty; otherwise, with `d` the minimum of the idle
head's `last_active_ms + 5000` (as a 64-bit sum) and `heap[0].expire_at` over
the sources that are not empty, and `d` below `2^64 - 1`: it is 0 when
`d <= now`, and it is `d - now`, which is not -1, when `d > now` and
`d - now < 2^31`. -/
theorem next_timer_deadline (now : Nat) (g : GData) :
    (earliest_deadline g = none ↔ idle_head g = none ∧ g.heap = [])
    ∧ (earliest_deadline g = none → poll_timeout now g = -1)
    ∧ ∀ d, earliest_deadline g = some d → d < 2 ^ 64 - 1 →
        (d ≤ now → poll_timeout now g = 0)
        ∧ (now < d → d - now < 2 ^ 31 →
            poll_timeout now g = ((d - now : Nat) : Int) ∧ poll_timeout now g ≠ -1) := by
  refine ⟨?_, ?_, ?_⟩
  · unfold earliest_deadline
    cases idle_head g with
    | none => cases g.heap with
      | nil => simp
      | cons top rest => simp
    | some conn => cases g.heap with
      | nil => simp
      | cons top rest => simp
  · intro h
    rw [poll_timeout_of now g _ (next_ms_none g h now)]
    decide
  · intro d hd hlt
    have h := next_ms_eq_deadline g d hd hlt now
    refine ⟨?_, ?_⟩
    · intro hle
      rw [if_pos hle] at h
      rw [poll_timeout_of now g _ h]
      decide
    · intro hnow hsmall
      rw [if_neg (by omega), Nat.mod_eq_of_lt (by omega)] at h
      rw [poll_timeout_of now g _ h, if_pos hsmall]
      exact ⟨rfl, by omega⟩

/-- C19 at a concrete input: on the sample state, whose only deadline is the
TTL item expiring at 50, the timeout at time 7 is 43. -/
theorem next_timer_deadline_witness :
    earliest_deadline g_sample = some 50 ∧ poll_timeout 7 g_sample = 43 :=
  ⟨by decide,
   (((next_timer_deadline 7 g_sample).2.2 50 (by decide) (by decide)).2
      (by decide) (by decide)).1⟩

/-- C19 as stated fails for deadlines far ahead and at `2^64 - 1`.  With one
TTL item and nobody connected, at time 0: a deadline `2^32` ms ahead gives the
timeout 0 although `d > now`; a deadline `2^31` ms ahead gives a negative
timeout; and with `heap[0].expire_at = 2^64 - 1` the result is -1 although the
heap is not empty.  The first state is the one `set k ""` and
`pexpire k 4294967296` at time 0 reach from startup. -/
theorem next_timer_truncates :
    g_one_ttl (2 ^ 32)
        = state_after sample_strtod 0 [ascii "pexpire", [107], ascii "4294967296"]
            (state_after sample_strtod 0 [ascii "set", [107], []] g_init)
    ∧ (earliest_deadline (g_one_ttl (2 ^ 32)) = some (2 ^ 32)
      ∧ poll_timeout 0 (g_one_ttl (2 ^ 32)) = 0)
    ∧ (earliest_deadline (g_one_ttl (2 ^ 31)) = some (2 ^ 31)
      ∧ poll_timeout 0 (g_one_ttl (2 ^ 31)) = -(2 ^ 31))
    ∧ (earliest_deadline (g_one_ttl (2 ^ 64 - 1)) = some (2 ^ 64 - 1)
      ∧ (g_one_ttl (2 ^ 64 - 1)).heap ≠ []
      ∧ poll_timeout 0 (g_one_ttl (2 ^ 64 - 1)) = -1) := by
  decide

theorem try_one_request_flags (strtod : Bytes → Dbl × Nat) (now : Nat) (conn : Conn)
    (g : GData) :
    (try_one_request strtod now conn g).2.1.want_read = conn.want_read
    ∧ (try_one_request strtod now conn g).2.1.want_write = conn.want_write := by
  unfold try_one_request
  split
  · exact ⟨rfl, rfl⟩
  · simp only []
    split
    · exact ⟨rfl, rfl⟩
    · split
      · exact ⟨rfl, rfl⟩
      · split
        · exact ⟨rfl, rfl⟩
        · exact ⟨rfl, rfl⟩

theorem consume_loop_flags (strtod : Bytes → Dbl × Nat) (clock : Nat → Nat) :
    ∀ (fuel i : Nat) (conn : Conn) (g : GData),
      (consume_loop strtod clock fuel i conn g).1.want_read = conn.want_read
      ∧ (consume_loop strtod clock fuel i conn g).1.want_write = conn.want_write := by
  intro fuel
  induction fuel with
  | zero => intro i conn g; exact ⟨rfl, rfl⟩
  | succ fuel ih =>
    intro i conn g
    have hf := try_one_request_flags strtod (clock i) conn g
    simp only [consume_loop]
    split
    · have := ih (i + 1) (try_one_request strtod (clock i) conn g).2.1
        (try_one_request strtod (clock i) conn g).2.2
      exact ⟨this.1.trans hf.1, this.2.trans hf.2⟩
    · exact hf

/-- Whether `try_one_request` handles a request depends on the inbound buffer
alone. -/
theorem try_one_request_fst (strtod strtod1 : Bytes → Dbl × Nat) (now now1 : Nat)
    (conn conn1 : Conn) (g g1 : GData) (h : conn1.incoming = conn.incoming) :
    (try_one_request strtod1 now1 conn1 g1).1 = (try_one_request strtod now conn g).1 := by
  unfold try_one_request
  rw [h]
  split
  · rfl
  · simp only []
    split
    · rfl
    · split
      · rfl
      · split
        · rfl
        · rfl

/-- A handled request takes at least four bytes off the inbound buffer. -/
theorem try_one_request_shrinks (strtod : Bytes → Dbl × Nat) (now : Nat) (conn : Conn)
    (g : GData) (h : (try_one_request strtod now conn g).1 = true) :
    (try_one_request strtod now conn g).2.1.incoming.length + 4 ≤ conn.incoming.length := by
  have hk : k_max_msg = 33554432 := by decide
  unfold try_one_request at h ⊢
  split at h
  · simp at h
  · rename_i h4
    simp only [] at h ⊢
    split at h
    · simp at h
    · rename_i hlen
      split at h
      · simp at h
      · rename_i hfit
        split at h
        · simp at h
        · rw [if_neg h4, if_neg hlen, if_neg hfit]
          rename_i hp
          rw [if_neg hp]
          simp only [buf_consume, List.length_drop]
          have : (4 + le_val (List.take 4 conn.incoming)) % 2 ^ 32
              = 4 + le_val (List.take 4 conn.incoming) := Nat.mod_eq_of_lt (by omega)
          rw [this] at hfit ⊢
          omega

/-- The request loop of `handle_read` ends: with the bound above a quarter of
the inbound length it stops where `try_one_request` returns `false`. -/
theorem consume_loop_exits (strtod : Bytes → Dbl × Nat) (clock : Nat → Nat) :
    ∀ (fuel i : Nat) (conn : Conn) (g : GData), conn.incoming.length < 4 * fuel →
      ∀ now, (try_one_request strtod now (consume_loop strtod clock fuel i conn g).1
          (consume_loop strtod clock fuel i conn g).2).1 = false := by
  intro fuel
  induction fuel with
  | zero => intro i conn g h; omega
  | succ fuel ih =>
    intro i conn g hlen now
    simp only [consume_loop]
    cases hr : (try_one_request strtod (clock i) conn g).1 with
    | true =>
      simp only [if_true]
      have := try_one_request_shrinks strtod (clock i) conn g hr
      exact ih (i + 1) _ _ (by omega) now
    | false =>
      simp only [Bool.false_eq_true, if_false]
      rw [← hr]
      apply try_one_request_fst
      unfold try_one_request
      split
      · rfl
      · simp only []
        split
        · rfl
        · split
          · rfl
          · split
            · rfl
            · exfalso
              rename_i h1 h2 h3 h4
              unfold try_one_request at hr
              rw [if_neg h1] at hr
              simp only [] at hr
              rw [if_neg h2, if_neg h3, if_neg h4] at hr
              simp at hr

theorem handle_write_one_want (w : WriteResult) (conn c1 : Conn) (h : OneWant conn)
    (hw : handle_write w conn = some c1) : OneWant c1 := by
  unfold handle_write at hw
  split at hw
  · cases w with
    | eagain => simp only [Option.some.injEq] at hw; rw [← hw]; exact h
    | error => simp only [Option.some.injEq] at hw; rw [← hw]; exact h
    | wrote rv =>
      simp only [] at hw
      split at hw
      · simp only [Option.some.injEq] at hw; rw [← hw]; exact Or.inl ⟨rfl, rfl⟩
      · simp only [Option.some.injEq] at hw; rw [← hw]; exact h
  · simp at hw

theorem handle_write_returns (w : WriteResult) (conn : Conn) (h : conn.outgoing.length > 0) :
    ∃ c1, handle_write w conn = some c1 := by
  unfold handle_write
  rw [if_pos h]
  cases w with
  | eagain => exact ⟨_, rfl⟩
  | error => exact ⟨_, rfl⟩
  | wrote rv =>
    simp only []
    split
    · exact ⟨_, rfl⟩
    · exact ⟨_, rfl⟩

theorem handle_read_one_want (strtod : Bytes → Dbl × Nat) (clock : Nat → Nat)
    (r : ReadResult) (w : WriteResult) (conn : Conn) (g : GData) (c1 : Conn) (g1 : GData)
    (h : OneWant conn) (hr : handle_read strtod clock r w conn g = some (c1, g1)) :
    OneWant c1 := by
  unfold handle_read at hr
  cases r with
  | eagain =>
    simp only [Option.some.injEq, Prod.mk.injEq] at hr
    rw [← hr.1]; exact h
  | error =>
    simp only [Option.some.injEq, Prod.mk.injEq] at hr
    rw [← hr.1]; exact h
  | data bytes =>
    simp only [] at hr
    split at hr
    · simp only [Option.some.injEq, Prod.mk.injEq] at hr
      rw [← hr.1]; exact h
    · split at hr
      · obtain ⟨c, hc, he⟩ := Option.map_eq_some'.mp hr
        simp only [Prod.mk.injEq] at he
        rw [← he.1]
        exact handle_write_one_want w _ c (Or.inr ⟨rfl, rfl⟩) hc
      · simp only [Option.some.injEq] at hr
        have hf := consume_loop_flags strtod clock
          (({ conn with incoming := buf_append conn.incoming bytes } : Conn).incoming.length + 1)
          0 { conn with incoming := buf_append conn.incoming bytes } g
        rw [hr] at hf
        unfold OneWant
        rw [hf.1, hf.2]
        exact h

theorem handle_read_returns (strtod : Bytes → Dbl × Nat) (clock : Nat → Nat)
    (r : ReadResult) (w : WriteResult) (conn : Conn) (g : GData) :
    ∃ c1 g1, handle_read strtod clock r w conn g = some (c1, g1) := by
  unfold handle_read
  cases r with
  | eagain => exact ⟨_, _, rfl⟩
  | error => exact ⟨_, _, rfl⟩
  | data bytes =>
    simp only []
    split
    · exact ⟨_, _, rfl⟩
    · split
      · rename_i hout
        obtain ⟨c, hc⟩ := handle_write_returns w
          { (consume_loop strtod clock
              (({ conn with incoming := buf_append conn.incoming bytes } : Conn).incoming.length
                + 1) 0 { conn with incoming := buf_append conn.incoming bytes } g).1 with
            want_read := false, want_write := true } hout
        rw [hc]
        exact ⟨_, _, rfl⟩
      · exact ⟨_, _, rfl⟩

theorem conn_reached_one_want (strtod : Bytes → Dbl × Nat) (conn : Conn)
    (h : ConnReached strtod conn) : OneWant conn := by
  induction h with
  | accept connfd now => exact Or.inl ⟨rfl, rfl⟩
  | active now conn _ ih => exact ih
  | read clock r w conn g c1 g1 _ hr ih =>
    exact handle_read_one_want strtod clock r w conn g c1 g1 ih hr
  | write w conn c1 _ hw ih => exact handle_write_one_want w conn c1 ih hw

/-- C20 (connection flags).  For every state `conn` a connection reaches from
the one `handle_accept` creates (`want_read` set, `want_write` and `want_close`
clear) by calls of `handle_read` and `handle_write`, whatever the underlying
`read` and `write` return (bytes transferred, a short write, EAGAIN, an error,
end of file) and whatever bytes arrive: exactly one of `want_read` and
`want_write` is true.  From such a state `handle_read` returns, its request
loop ending where `try_one_request` returns `false`, and `handle_write`
returns when there is something to send; the flags hold again afterwards. -/
theorem conn_flag_invariant (strtod : Bytes → Dbl × Nat) (conn : Conn)
    (h : ConnReached strtod conn) :
    OneWant conn
    ∧ (∀ clock r w g, ∃ c1 g1, handle_read strtod clock r w conn g = some (c1, g1)
        ∧ OneWant c1 ∧ ConnReached strtod c1)
    ∧ (∀ w, conn.outgoing.length > 0 →
        ∃ c1, handle_write w conn = some c1 ∧ OneWant c1 ∧ ConnReached strtod c1)
    ∧ (∀ (clock : Nat → Nat) (bytes : Bytes) (g : GData) (now : Nat),
        (try_one_request strtod now
          (consume_loop strtod clock ((conn.incoming ++ bytes).length + 1) 0
            { conn with incoming := conn.incoming ++ bytes } g).1
          (consume_loop strtod clock ((conn.incoming ++ bytes).length + 1) 0
            { conn with incoming := conn.incoming ++ bytes } g).2).1 = false) := by
  have h1 := conn_reached_one_want strtod conn h
  refine ⟨h1, ?_, ?_, ?_⟩
  · intro clock r w g
    obtain ⟨c1, g1, hr⟩ := handle_read_returns strtod clock r w conn g
    exact ⟨c1, g1, hr, handle_read_one_want strtod clock r w conn g c1 g1 h1 hr,
      ConnReached.read clock r w conn g c1 g1 h hr⟩
  · intro w hout
    obtain ⟨c1, hw⟩ := handle_write_returns w conn hout
    exact ⟨c1, hw, handle_write_one_want w conn c1 h1 hw, ConnReached.write w conn c1 h hw⟩
  · intro clock bytes g now
    apply consume_loop_exits
    show (conn.incoming ++ bytes).length < 4 * ((conn.incoming ++ bytes).length + 1)
    omega

/-- C20 at a concrete input: a fresh connection receives the frame of `keys`,
and the `write` of the reply is three bytes short of the nine: the connection
then wants to write and not to read. -/
theorem conn_flag_invariant_witness :
    handle_read sample_strtod (fun _ => 0) (ReadResult.data (encode_frame [ascii "keys"]))
        (WriteResult.wrote 6) (conn_accepted 5 0) g_init
      = some ({ fd := 5, want_read := false, want_write := true, want_close := false,
                incoming := [], outgoing := [0, 0, 0], last_active_ms := 0 }, g_init)
    ∧ OneWant { fd := 5, want_read := false, want_write := true, want_close := false,
                incoming := [], outgoing := [0, 0, 0], last_active_ms := 0 } :=
  have hr : handle_read sample_strtod (fun _ => 0)
        (ReadResult.data (encode_frame [ascii "keys"]))
        (WriteResult.wrote 6) (conn_accepted 5 0) g_init
      = some ({ fd := 5, want_read := false, want_write := true, want_close := false,
                incoming := [], outgoing := [0, 0, 0], last_active_ms := 0 }, g_init) := by
    decide
  ⟨hr, (conn_flag_invariant sample_strtod _
    (ConnReached.read (fun _ => 0) (ReadResult.data (encode_frame [ascii "keys"]))
      (WriteResult.wrote 6) (conn_accepted 5 0) g_init _ g_init
      (ConnReached.accept 5 0) hr)).1⟩

theorem entry_update_content (db : HMap) (k : Bytes) (f : Entry → Entry)
    (hf : ∀ x, (f x).content = x.content) :
    (entry_update db k f).map Entry.content = db.map Entry.content := by
  induction db with
  | nil => rfl
  | cons x rest ih =>
    simp only [entry_update]
    split
    · simp [hf]
    · simp [ih]

theorem ref_write_content (db : HMap) (ref : Bytes) (pos : Nat) :
    (ref_write db ref pos).map Entry.content = db.map Entry.content :=
  entry_update_content db ref _ (fun _ => rfl)

theorem heap_up_content (fuel : Nat) :
    ∀ (a : List HeapItem) (db : HMap) (pos : Nat),
      (heap_up fuel a db pos).2.map Entry.content = db.map Entry.content := by
  induction fuel with
  | zero => intro a db pos; simp [heap_up, ref_write_content]
  | succ fuel ih =>
    intro a db pos
    simp only [heap_up]
    split
    · rw [ih, ref_write_content]
    · simp [ref_write_content]

theorem heap_down_content (fuel : Nat) :
    ∀ (a : List HeapItem) (db : HMap) (pos len : Nat),
      (heap_down fuel a db pos len).2.map Entry.content = db.map Entry.content := by
  induction fuel with
  | zero => intro a db pos len; simp [heap_down, ref_write_content]
  | succ fuel ih =>
    intro a db pos len
    simp only [heap_down]
    split
    · simp [ref_write_content]
    · rw [ih, ref_write_content]

theorem heap_update_content (a : List HeapItem) (db : HMap) (pos len : Nat) :
    (heap_update a db pos len).2.map Entry.content = db.map Entry.content := by
  unfold heap_update
  split
  · exact heap_up_content _ _ _ _
  · exact heap_down_content _ _ _ _ _

theorem heap_delete_content (a : List HeapItem) (db : HMap) (pos : Nat) :
    (heap_delete a db pos).2.map Entry.content = db.map Entry.content := by
  unfold heap_delete
  simp only []
  split
  · exact heap_update_content _ _ _ _
  · rfl

theorem entry_del_content (ent : Entry) (g : GData) :
    (entry_del ent g).db.map Entry.content = g.db.map Entry.content := by
  unfold entry_del entry_set_ttl
  split
  · simp only []
    rw [entry_update_content, heap_delete_content]
    intro x; rfl
  · split
    · rename_i h; exact absurd h (by decide)
    · rfl

theorem content_key (e e1 : Entry) (h : e1.content = e.content) : e1.key = e.key := by
  have := congrArg Entry.key h
  exact this

/-- An entry other than the owner of a removed heap item keeps its expiry time
when the other items are only moved. -/
theorem expire_at_of_perm (g g1 : GData) (top : HeapItem) (hinv : Inv g) (hinv1 : Inv g1)
    (hperm : (g1.heap ++ [top]).Perm g.heap) (e e1 : Entry) (he : e ∈ g.db) (he1 : e1 ∈ g1.db)
    (hkey : e1.key = e.key) (hne : e.key ≠ top.ref) :
    expire_at g1 e1 = expire_at g e := by
  obtain ⟨hnd, hrefs, _⟩ := hinv
  obtain ⟨hnd1, hrefs1, _⟩ := hinv1
  have hl : hm_lookup g.db (entry_eq e.key) = some e := find_of_mem_nodup g.db e hnd he
  have hl1 : hm_lookup g1.db (entry_eq e.key) = some e1 := by
    rw [← hkey]; exact find_of_mem_nodup g1.db e1 hnd1 he1
  unfold expire_at
  cases hi : e.heap_idx with
  | some i =>
    obtain ⟨hlt, hr⟩ := hrefs.2 e he i (by simp [hi])
    have hmem : heap_at g.heap i ∈ g1.heap ++ [top] := hperm.mem_iff.mpr (heap_at_mem _ i hlt)
    have hmem1 : heap_at g.heap i ∈ g1.heap := by
      rcases List.mem_append.mp hmem with h | h
      · exact h
      · simp at h
        exact absurd (by rw [← hr, h]) hne
    obtain ⟨j, hj, hget⟩ := List.getElem_of_mem hmem1
    have hat : heap_at g1.heap j = heap_at g.heap i := by rw [heap_at_eq _ j hj]; exact hget
    have hs := hrefs1.1 j hj
    rw [hat, hr, slot_of_lookup _ _ _ hl1] at hs
    rw [hs]
    simp [hat]
  | none =>
    cases hi1 : e1.heap_idx with
    | none => rfl
    | some j =>
      exfalso
      obtain ⟨hlt, hr⟩ := hrefs1.2 e1 he1 j (by simp [hi1])
      have hmem : heap_at g1.heap j ∈ g.heap :=
        hperm.mem_iff.mp (List.mem_append_left _ (heap_at_mem _ j hlt))
      obtain ⟨i, hi2, hget⟩ := List.getElem_of_mem hmem
      have hs := hrefs.1 i hi2
      rw [heap_at_eq _ i hi2, hget, hr, hkey, slot_of_lookup _ _ _ hl, hi] at hs
      simp at hs

/-- The entry removed by a step of the TTL loop is the owner of `heap[0]`. -/
theorem owner_of_top (g : GData) (top : HeapItem) (rest : List HeapItem) (hinv : Inv g)
    (hheap : g.heap = top :: rest) (e : Entry) (he : e ∈ g.db) (hk : e.key = top.ref) :
    expire_at g e = some top.val := by
  obtain ⟨hnd, hrefs, _⟩ := hinv
  have h0 : slot_of g.db (heap_at g.heap 0).ref = some 0 :=
    hrefs.1 0 (by rw [hheap]; simp)
  have htop : heap_at g.heap 0 = top := by rw [hheap]; exact heap_at_zero_cons _ _
  rw [htop, ← hk, slot_of_lookup _ _ _ (find_of_mem_nodup g.db e hnd he)] at h0
  unfold expire_at
  rw [h0]
  simp [htop]

/-- The TTL loop of `process_timers` keeps every entry that has no TTL or whose
expiry time is not before `now_ms`, with its content and its expiry time. -/
theorem process_ttl_no_early (now_ms : Nat) :
    ∀ (fuel nworks : Nat) (g : GData), Inv g →
      ∃ g1, process_ttl now_ms fuel nworks g = some g1 ∧ Inv g1
        ∧ ∀ e ∈ g.db, (∀ v, expire_at g e = some v → now_ms ≤ v) →
            ∃ e1 ∈ g1.db, e1.content = e.content ∧ expire_at g1 e1 = expire_at g e := by
  intro fuel
  induction fuel with
  | zero => intro nworks g hinv; exact ⟨g, rfl, hinv, fun e he _ => ⟨e, he, rfl, rfl⟩⟩
  | succ fuel ih =>
    intro nworks g hinv
    simp only [process_ttl]
    split
    · exact ⟨g, rfl, hinv, fun e he _ => ⟨e, he, rfl, rfl⟩⟩
    · rename_i top rest hheap
      by_cases hexp : top.val < now_ms
      · rw [if_pos hexp]
        obtain ⟨ent, hent, hinv1, hperm, _⟩ := process_ttl_step g top rest hinv hheap
        rw [hent]
        simp only []
        have hstep : ∀ e ∈ g.db, (∀ v, expire_at g e = some v → now_ms ≤ v) →
            ∃ e1 ∈ (entry_del ent
                { g with db := (hm_delete g.db (fun e => e.key == top.ref)).2 }).db,
              e1.content = e.content
              ∧ expire_at (entry_del ent
                  { g with db := (hm_delete g.db (fun e => e.key == top.ref)).2 }) e1
                = expire_at g e := by
          intro e he hlive
          have hne : e.key ≠ top.ref := by
            intro hk
            have := hlive _ (owner_of_top g top rest hinv hheap e he hk)
            omega
          have hmem : e ∈ g.db.eraseP (fun x => x.key == top.ref) :=
            (List.mem_eraseP_of_neg (by simpa using hne)).mpr he
          have hc := entry_del_content ent
            { g with db := (hm_delete g.db (fun e => e.key == top.ref)).2 }
          have hmem2 : e.content ∈ (entry_del ent
              { g with db := (hm_delete g.db (fun e => e.key == top.ref)).2 }).db.map
                Entry.content := by
            rw [hc]
            exact List.mem_map_of_mem Entry.content hmem
          obtain ⟨e1, he1, hce⟩ := List.mem_map.mp hmem2
          exact ⟨e1, he1, hce,
            expire_at_of_perm g _ top hinv hinv1 hperm e e1 he he1 (content_key e e1 hce) hne⟩
        by_cases hcap : nworks ≥ k_max_works
        · rw [if_pos hcap]; exact ⟨_, rfl, hinv1, hstep⟩
        · rw [if_neg hcap]
          obtain ⟨g1, hg1, hinv2, hkeep⟩ := ih (nworks + 1) _ hinv1
          refine ⟨g1, hg1, hinv2, ?_⟩
          intro e he hlive
          obtain ⟨e1, he1, hce, hexp1⟩ := hstep e he hlive
          obtain ⟨e2, he2, hce2, hexp2⟩ := hkeep e1 he1 (by rw [hexp1]; exact hlive)
          exact ⟨e2, he2, hce2.trans hce, hexp2.trans hexp1⟩
      · rw [if_neg hexp]
        exact ⟨g, rfl, hinv, fun e he _ => ⟨e, he, rfl, rfl⟩⟩

/-- The TTL loop of `process_timers` adds no entry and alters no content: what
is left is a selection of the entries there were. -/
theorem process_ttl_selects (now_ms : Nat) :
    ∀ (fuel nworks : Nat) (g g1 : GData), Inv g →
      process_ttl now_ms fuel nworks g = some g1 →
      (g1.db.map Entry.content).Sublist (g.db.map Entry.content) := by
  intro fuel
  induction fuel with
  | zero =>
    intro nworks g g1 _ h
    simp only [process_ttl, Option.some.injEq] at h
    rw [← h]
  | succ fuel ih =>
    intro nworks g g1 hinv h
    simp only [process_ttl] at h
    split at h
    · simp only [Option.some.injEq] at h; rw [← h]
    · rename_i top rest hheap
      by_cases hexp : top.val < now_ms
      · rw [if_pos hexp] at h
        obtain ⟨ent, hent, hinv1, _, _⟩ := process_ttl_step g top rest hinv hheap
        rw [hent] at h
        simp only [] at h
        have hc := entry_del_content ent
          { g with db := (hm_delete g.db (fun e => e.key == top.ref)).2 }
        have hsub : ((entry_del ent
            { g with db := (hm_delete g.db (fun e => e.key == top.ref)).2 }).db.map
              Entry.content).Sublist (g.db.map Entry.content) := by
          rw [hc]
          exact List.Sublist.map _ (List.eraseP_sublist g.db)
        by_cases hcap : nworks ≥ k_max_works
        · rw [if_pos hcap] at h
          simp only [Option.some.injEq] at h
          rw [← h]; exact hsub
        · rw [if_neg hcap] at h
          exact (ih (nworks + 1) _ g1 hinv1 h).trans hsub
      · rw [if_neg hexp] at h
        simp only [Option.some.injEq] at h; rw [← h]

/-- C21 (keys never expire early).  For every state that satisfies the TTL
back-reference invariant and every clock value `now`, `process_timers` returns,
and every entry without a TTL or with `expire_at >= now` is still in the
keyspace afterwards with the same key, kind, string, sorted set and
`expire_at`; so an entry whose key is gone had a TTL with `expire_at < now`;
and no entry is added or altered: the contents left are a selection of the
contents there were. -/
theorem no_early_expiry (now : Nat) (g : GData) (hinv : Inv g) :
    ∃ g1, process_timers now g = some g1
      ∧ (∀ e ∈ g.db, (∀ v, expire_at g e = some v → now ≤ v) →
          ∃ e1 ∈ g1.db, e1.key = e.key ∧ e1.type = e.type ∧ e1.str = e.str
            ∧ e1.zset = e.zset ∧ expire_at g1 e1 = expire_at g e)
      ∧ (∀ e ∈ g.db, e.key ∉ g1.db.map Entry.key →
          ∃ v, expire_at g e = some v ∧ v < now)
      ∧ (g1.db.map Entry.content).Sublist (g.db.map Entry.content) := by
  obtain ⟨hdb, hheap⟩ := process_idle_keyspace now g.idle_list.length g
  have hinv0 := inv_of_eq g _ hdb hheap hinv
  obtain ⟨g1, hg1, _, hkeep⟩ := process_ttl_no_early now (k_max_works + 1) 0 _ hinv0
  have hexp0 : ∀ e, expire_at (process_idle now g.idle_list.length g) e = expire_at g e := by
    intro e; unfold expire_at; rw [hheap]
  have hkept : ∀ e ∈ g.db, (∀ v, expire_at g e = some v → now ≤ v) →
      ∃ e1 ∈ g1.db, e1.key = e.key ∧ e1.type = e.type ∧ e1.str = e.str
        ∧ e1.zset = e.zset ∧ expire_at g1 e1 = expire_at g e := by
    intro e he hlive
    obtain ⟨e1, he1, hc, hx⟩ := hkeep e (by rw [hdb]; exact he) (by rw [hexp0]; exact hlive)
    have h1 : e1.content.key = e.content.key := congrArg Entry.key hc
    have h2 : e1.content.type = e.content.type := congrArg Entry.type hc
    have h3 : e1.content.str = e.content.str := congrArg Entry.str hc
    have h4 : e1.content.zset = e.content.zset := congrArg Entry.zset hc
    refine ⟨e1, he1, h1, h2, h3, h4, ?_⟩
    rw [hx, hexp0]
  refine ⟨g1, hg1, hkept, ?_, ?_⟩
  · intro e he hgone
    by_contra hno
    have hlive : ∀ v, expire_at g e = some v → now ≤ v := by
      intro v hv
      by_contra hlt
      exact hno ⟨v, hv, by omega⟩
    obtain ⟨e1, he1, hk, _⟩ := hkept e he hlive
    exact hgone (hk ▸ List.mem_map_of_mem Entry.key he1)
  · have := process_ttl_selects now (k_max_works + 1) 0 _ g1 hinv0 hg1
    rw [hdb] at this
    exact this

/-- C21 at a concrete input: on the sample state at time 60 the key "a", whose
TTL ran out at 50, is removed, and the sorted set at "z", which has no TTL,
stays. -/
theorem no_early_expiry_witness :
    Inv g_sample
    ∧ (process_timers 60 g_sample).map (fun g1 => g1.db.map Entry.key) = some [[122]]
    ∧ ∃ g1, process_timers 60 g_sample = some g1
        ∧ (∀ e ∈ g_sample.db, (∀ v, expire_at g_sample e = some v → 60 ≤ v) →
            ∃ e1 ∈ g1.db, e1.key = e.key ∧ e1.type = e.type ∧ e1.str = e.str
              ∧ e1.zset = e.zset ∧ expire_at g1 e1 = expire_at g_sample e) :=
  have hinv : Inv g_sample :=
    ⟨by unfold KeysNodup; decide, by unfold RefsOk; decide, by unfold HeapOrdered; decide⟩
  ⟨hinv, by decide,
    Exists.imp (fun _ h => ⟨h.1, h.2.1⟩) (no_early_expiry 60 g_sample hinv)⟩

theorem try_one_request_outgoing (strtod : Bytes → Dbl × Nat) (now : Nat) (conn : Conn)
    (g : GData) :
    conn.outgoing.length ≤ (try_one_request strtod now conn g).2.1.outgoing.length := by
  unfold try_one_request
  split
  · exact Nat.le_refl _
  · simp only []
    split
    · exact Nat.le_refl _
    · split
      · exact Nat.le_refl _
      · split
        · exact Nat.le_refl _
        · simp only []
          obtain ⟨v, hv⟩ := do_request_replies strtod now
            (parse_req (List.drop 4 conn.incoming) (le_val (List.take 4 conn.incoming)) []).2 g
          rw [hv (response_begin conn.outgoing).1]
          simp only []
          rw [response_end_eq]
          simp only [List.length_append]
          omega

theorem consume_loop_outgoing (strtod : Bytes → Dbl × Nat) (clock : Nat → Nat) :
    ∀ (fuel i : Nat) (conn : Conn) (g : GData),
      conn.outgoing.length ≤ (consume_loop strtod clock fuel i conn g).1.outgoing.length := by
  intro fuel
  induction fuel with
  | zero => intro i conn g; exact Nat.le_refl _
  | succ fuel ih =>
    intro i conn g
    have h1 := try_one_request_outgoing strtod (clock i) conn g
    simp only [consume_loop]
    split
    · exact Nat.le_trans h1 (ih (i + 1) _ _)
    · exact h1

theorem handle_write_ready (w : WriteResult) (conn c1 : Conn)
    (h : conn.want_write = true → conn.outgoing.length > 0)
    (hw : handle_write w conn = some c1) :
    c1.want_write = true → c1.outgoing.length > 0 := by
  unfold handle_write at hw
  split at hw
  · cases w with
    | eagain => simp only [Option.some.injEq] at hw; rw [← hw]; exact h
    | error => simp only [Option.some.injEq] at hw; rw [← hw]; exact h
    | wrote rv =>
      simp only [] at hw
      split at hw
      · simp only [Option.some.injEq] at hw; rw [← hw]; intro hf; simp at hf
      · rename_i hne
        simp only [Option.some.injEq] at hw; rw [← hw]
        intro _
        exact Nat.pos_of_ne_zero hne
  · simp at hw

theorem handle_read_ready (strtod : Bytes → Dbl × Nat) (clock : Nat → Nat)
    (r : ReadResult) (w : WriteResult) (conn : Conn) (g : GData) (c1 : Conn) (g1 : GData)
    (h : conn.want_write = true → conn.outgoing.length > 0)
    (hr : handle_read strtod clock r w conn g = some (c1, g1)) :
    c1.want_write = true → c1.outgoing.length > 0 := by
  unfold handle_read at hr
  cases r with
  | eagain =>
    simp only [Option.some.injEq, Prod.mk.injEq] at hr
    rw [← hr.1]; exact h
  | error =>
    simp only [Option.some.injEq, Prod.mk.injEq] at hr
    rw [← hr.1]; exact h
  | data bytes =>
    simp only [] at hr
    split at hr
    · simp only [Option.some.injEq, Prod.mk.injEq] at hr
      rw [← hr.1]; exact h
    · split at hr
      · rename_i hout
        obtain ⟨c, hc, he⟩ := Option.map_eq_some'.mp hr
        simp only [Prod.mk.injEq] at he
        rw [← he.1]
        refine handle_write_ready w _ c ?_ hc
        intro _
        exact hout
      · rename_i hout
        simp only [Option.some.injEq] at hr
        have hf := consume_loop_flags strtod clock
          (({ conn with incoming := buf_append conn.incoming bytes } : Conn).incoming.length + 1)
          0 { conn with incoming := buf_append conn.incoming bytes } g
        have ho := consume_loop_outgoing strtod clock
          (({ conn with incoming := buf_append conn.incoming bytes } : Conn).incoming.length + 1)
          0 { conn with incoming := buf_append conn.incoming bytes } g
        rw [hr] at hf ho
        intro hw
        rw [hf.2] at hw
        have := h hw
        exact Nat.lt_of_lt_of_le this ho

theorem conn_reached_ready (strtod : Bytes → Dbl × Nat) (conn : Conn)
    (h : ConnReached strtod conn) : conn.want_write = true → conn.outgoing.length > 0 := by
  induction h with
  | accept connfd now => intro hf; simp [conn_accepted] at hf
  | active now conn _ ih => exact ih
  | read clock r w conn g c1 g1 _ hr ih =>
    exact handle_read_ready strtod clock r w conn g c1 g1 ih hr
  | write w conn c1 _ hw ih => exact handle_write_ready w conn c1 ih hw

/-- C22 (the assertion of `handle_write`).  In every state a connection reaches
from the one `handle_accept` creates through `handle_read` and `handle_write`,
with any results of `read` and `write`: `want_write` is true only if the
outbound buffer is not empty, so the main loop's call of `handle_write` on a
connection that wants to write passes both assertions and returns; and
`handle_read` returns, the call of `handle_write` it makes being made only
when the outbound buffer is not empty. -/
theorem handle_write_assert_holds (strtod : Bytes → Dbl × Nat) (conn : Conn)
    (h : ConnReached strtod conn) :
    (conn.want_write = true → conn.outgoing.length > 0)
    ∧ (∀ w, conn.want_write = true →
        ∃ c1, on_pollout w conn = some c1 ∧ handle_write w conn = some c1
          ∧ ConnReached strtod c1)
    ∧ (∀ clock r w g, ∃ c1 g1, handle_read strtod clock r w conn g = some (c1, g1)
        ∧ ConnReached strtod c1)
    ∧ (∀ w (c : Conn), c.outgoing.length = 0 → handle_write w c = none) := by
  have hready := conn_reached_ready strtod conn h
  refine ⟨hready, ?_, ?_, ?_⟩
  · intro w hw
    obtain ⟨c1, hc1⟩ := handle_write_returns w conn (hready hw)
    refine ⟨c1, ?_, hc1, ConnReached.write w conn c1 h hc1⟩
    unfold on_pollout
    rw [if_pos hw, hc1]
  · intro clock r w g
    obtain ⟨c1, g1, hr⟩ := handle_read_returns strtod clock r w conn g
    exact ⟨c1, g1, hr, ConnReached.read clock r w conn g c1 g1 h hr⟩
  · intro w c hc
    unfold handle_write
    rw [if_neg (by omega)]

/-- C22 at a concrete input: the connection that received the frame of `keys`
and whose reply was written three bytes short wants to write with three bytes
to send; the main loop's next `handle_write`, writing them, returns. -/
theorem handle_write_assert_holds_witness :
    handle_read sample_strtod (fun _ => 0) (ReadResult.data (encode_frame [ascii "keys"]))
        (WriteResult.wrote 6) (conn_accepted 5 0) g_init
      = some ({ fd := 5, want_read := false, want_write := true, want_close := false,
                incoming := [], outgoing := [0, 0, 0], last_active_ms := 0 }, g_init)
    ∧ ∃ c1, on_pollout (WriteResult.wrote 3)
          { fd := 5, want_read := false, want_write := true, want_close := false,
            incoming := [], outgoing := [0, 0, 0], last_active_ms := 0 } = some c1 :=
  have hr : handle_read sample_strtod (fun _ => 0)
        (ReadResult.data (encode_frame [ascii "keys"]))
        (WriteResult.wrote 6) (conn_accepted 5 0) g_init
      = some ({ fd := 5, want_read := false, want_write := true, want_close := false,
                incoming := [], outgoing := [0, 0, 0], last_active_ms := 0 }, g_init) := by
    decide
  ⟨hr, Exists.imp (fun _ hx => hx.1)
    ((handle_write_assert_holds sample_strtod _
      (ConnReached.read (fun _ => 0) (ReadResult.data (encode_frame [ascii "keys"]))
        (WriteResult.wrote 6) (conn_accepted 5 0) g_init _ g_init
        (ConnReached.accept 5 0) hr)).2.1 (WriteResult.wrote 3) rfl)⟩

end Server
